import Mathlib

/-!
# Resume tailoring backend (`src/backend/index.js`)

A shallow embedding of the request pipeline of the backend: the response
coercion of `runAgent` (fence removal followed by `JSON.parse`), the prompt
construction with `String.prototype.replace`, and the `/api/process` handler
with its three model invocations and the job search.

JavaScript strings are sequences of UTF-16 code units.  The host functions
the source calls (`JSON.parse`, `JSON.stringify`, `String.prototype.replace`,
property access, `ToString`, truthiness) are embedded from ECMA-262.  The
external collaborators (`pdf-parse`, the generative model, the HTTP client)
are fields of an environment, and every call to one of them is recorded in
the trace of the run.
-/

namespace ResumeIBY

/-! ## Strings -/

/-- A JavaScript string: the list of its UTF-16 code units. -/
abbrev Str := List Nat

/-- UTF-16 code units of one Unicode scalar value. -/
def utf16Char (c : Char) : Str :=
  if c.toNat < 0x10000 then [c.toNat]
  else [0xD800 + (c.toNat - 0x10000) / 0x400, 0xDC00 + (c.toNat - 0x10000) % 0x400]

/-- UTF-16 encoding of a string literal of the source. -/
def utf16 (s : String) : Str :=
  (s.data.map utf16Char).flatten

/-- The code unit of the backtick. -/
def backtick : Nat := 0x60

/-- The fence marker matched by the regular expression of three backticks. -/
def fence : Str := [backtick, backtick, backtick]

/-- The marker matched by the regular expression of three backticks followed by `json`. -/
def fenceJson : Str := fence ++ utf16 "json"

/-- Global removal of a non-empty literal pattern, `s.replace(/pat/g, '')`: the
text is scanned from the left; where the pattern matches, it is skipped whole
(`skip` counts the code units of the current match still to drop), elsewhere
one code unit is kept and the scan moves on by one. -/
def removeAllAux (pat : Str) : Nat → Str → Str
  | _, [] => []
  | skip + 1, _ :: cs => removeAllAux pat skip cs
  | 0, c :: cs =>
    if pat.isPrefixOf (c :: cs) then removeAllAux pat (pat.length - 1) cs
    else c :: removeAllAux pat 0 cs

/-- Global removal `s.replace(/pat/g, '')` of a non-empty literal pattern. -/
def removeAll (pat : Str) (s : Str) : Str :=
  removeAllAux pat 0 s

/-- The `cleanedText` of `runAgent` (line 79): every fence marker with the
`json` tag is removed first, then every remaining fence marker. -/
def cleanedText (rawText : Str) : Str :=
  removeAll fence (removeAll fenceJson rawText)

/-! ## Values -/

/-- A Number that `JSON.parse` can produce, kept as the exact decimal value
of the literal: `(-1)^neg * mant * 10^exp`, with `mant` free of trailing zeros
(zero is `mant = 0`, `exp = 0`).  The rounding to a double is a function of
this value; what the host does with a Number (printing it, testing it for
zero or finiteness) is taken from the environment. -/
structure JNum where
  neg : Bool
  mant : Nat
  exp : Int
  deriving DecidableEq, Repr

/-- The ECMAScript values the handler works with: the JSON values and
`undefined`.  An object is the list of its own properties in the order
`OrdinaryOwnPropertyKeys` enumerates them. -/
inductive JSVal where
  | undefined
  | null
  | bool (b : Bool)
  | num (n : JNum)
  | str (s : Str)
  | arr (xs : List JSVal)
  | obj (props : List (Str × JSVal))
  deriving Repr

/-- An exception thrown while the handler runs. -/
inductive JSError where
  | syntaxError
  | typeError
  | rejected
  deriving DecidableEq, Repr

deriving instance DecidableEq for Except

mutual
/-- Decision procedure for equality of values. -/
def JSVal.decEq : (a b : JSVal) → Decidable (a = b)
  | .undefined, .undefined => isTrue rfl
  | .undefined, .null => isFalse (fun h => JSVal.noConfusion h)
  | .undefined, .bool _ => isFalse (fun h => JSVal.noConfusion h)
  | .undefined, .num _ => isFalse (fun h => JSVal.noConfusion h)
  | .undefined, .str _ => isFalse (fun h => JSVal.noConfusion h)
  | .undefined, .arr _ => isFalse (fun h => JSVal.noConfusion h)
  | .undefined, .obj _ => isFalse (fun h => JSVal.noConfusion h)
  | .null, .undefined => isFalse (fun h => JSVal.noConfusion h)
  | .null, .null => isTrue rfl
  | .null, .bool _ => isFalse (fun h => JSVal.noConfusion h)
  | .null, .num _ => isFalse (fun h => JSVal.noConfusion h)
  | .null, .str _ => isFalse (fun h => JSVal.noConfusion h)
  | .null, .arr _ => isFalse (fun h => JSVal.noConfusion h)
  | .null, .obj _ => isFalse (fun h => JSVal.noConfusion h)
  | .bool _, .undefined => isFalse (fun h => JSVal.noConfusion h)
  | .bool _, .null => isFalse (fun h => JSVal.noConfusion h)
  | .bool b1, .bool b2 =>
    match (inferInstance : Decidable (b1 = b2)) with
    | isTrue h => isTrue (congrArg JSVal.bool h)
    | isFalse h => isFalse (fun e => h (JSVal.bool.inj e))
  | .bool _, .num _ => isFalse (fun h => JSVal.noConfusion h)
  | .bool _, .str _ => isFalse (fun h => JSVal.noConfusion h)
  | .bool _, .arr _ => isFalse (fun h => JSVal.noConfusion h)
  | .bool _, .obj _ => isFalse (fun h => JSVal.noConfusion h)
  | .num _, .undefined => isFalse (fun h => JSVal.noConfusion h)
  | .num _, .null => isFalse (fun h => JSVal.noConfusion h)
  | .num _, .bool _ => isFalse (fun h => JSVal.noConfusion h)
  | .num n1, .num n2 =>
    match (inferInstance : Decidable (n1 = n2)) with
    | isTrue h => isTrue (congrArg JSVal.num h)
    | isFalse h => isFalse (fun e => h (JSVal.num.inj e))
  | .num _, .str _ => isFalse (fun h => JSVal.noConfusion h)
  | .num _, .arr _ => isFalse (fun h => JSVal.noConfusion h)
  | .num _, .obj _ => isFalse (fun h => JSVal.noConfusion h)
  | .str _, .undefined => isFalse (fun h => JSVal.noConfusion h)
  | .str _, .null => isFalse (fun h => JSVal.noConfusion h)
  | .str _, .bool _ => isFalse (fun h => JSVal.noConfusion h)
  | .str _, .num _ => isFalse (fun h => JSVal.noConfusion h)
  | .str s1, .str s2 =>
    match (inferInstance : Decidable (s1 = s2)) with
    | isTrue h => isTrue (congrArg JSVal.str h)
    | isFalse h => isFalse (fun e => h (JSVal.str.inj e))
  | .str _, .arr _ => isFalse (fun h => JSVal.noConfusion h)
  | .str _, .obj _ => isFalse (fun h => JSVal.noConfusion h)
  | .arr _, .undefined => isFalse (fun h => JSVal.noConfusion h)
  | .arr _, .null => isFalse (fun h => JSVal.noConfusion h)
  | .arr _, .bool _ => isFalse (fun h => JSVal.noConfusion h)
  | .arr _, .num _ => isFalse (fun h => JSVal.noConfusion h)
  | .arr _, .str _ => isFalse (fun h => JSVal.noConfusion h)
  | .arr xs1, .arr xs2 =>
    match JSVal.decEqList xs1 xs2 with
    | isTrue h => isTrue (congrArg JSVal.arr h)
    | isFalse h => isFalse (fun e => h (JSVal.arr.inj e))
  | .arr _, .obj _ => isFalse (fun h => JSVal.noConfusion h)
  | .obj _, .undefined => isFalse (fun h => JSVal.noConfusion h)
  | .obj _, .null => isFalse (fun h => JSVal.noConfusion h)
  | .obj _, .bool _ => isFalse (fun h => JSVal.noConfusion h)
  | .obj _, .num _ => isFalse (fun h => JSVal.noConfusion h)
  | .obj _, .str _ => isFalse (fun h => JSVal.noConfusion h)
  | .obj _, .arr _ => isFalse (fun h => JSVal.noConfusion h)
  | .obj ps1, .obj ps2 =>
    match JSVal.decEqProps ps1 ps2 with
    | isTrue h => isTrue (congrArg JSVal.obj h)
    | isFalse h => isFalse (fun e => h (JSVal.obj.inj e))
/-- Decision procedure for equality of lists of values. -/
def JSVal.decEqList : (a b : List JSVal) → Decidable (a = b)
  | [], [] => isTrue rfl
  | [], _ :: _ => isFalse (fun h => List.noConfusion h)
  | _ :: _, [] => isFalse (fun h => List.noConfusion h)
  | x :: xs, y :: ys =>
    match JSVal.decEq x y, JSVal.decEqList xs ys with
    | isTrue h, isTrue t => isTrue (congrArg₂ List.cons h t)
    | isFalse h, _ => isFalse (fun e => h (List.cons.inj e).1)
    | _, isFalse t => isFalse (fun e => t (List.cons.inj e).2)
/-- Decision procedure for equality of property lists. -/
def JSVal.decEqProps : (a b : List (Str × JSVal)) → Decidable (a = b)
  | [], [] => isTrue rfl
  | [], _ :: _ => isFalse (fun h => List.noConfusion h)
  | _ :: _, [] => isFalse (fun h => List.noConfusion h)
  | (k, x) :: xs, (l, y) :: ys =>
    match (inferInstance : Decidable (k = l)), JSVal.decEq x y, JSVal.decEqProps xs ys with
    | isTrue hk, isTrue h, isTrue t => isTrue (by rw [hk, h, t])
    | isFalse hk, _, _ => isFalse (fun e => hk (Prod.mk.inj (List.cons.inj e).1).1)
    | _, isFalse h, _ => isFalse (fun e => h (Prod.mk.inj (List.cons.inj e).1).2)
    | _, _, isFalse t => isFalse (fun e => t (List.cons.inj e).2)
end

instance : DecidableEq JSVal := JSVal.decEq

/-- Value of a run of decimal digits (code units `0`..`9`). -/
def digitsToNat (ds : Str) : Nat :=
  ds.foldl (fun acc d => 10 * acc + (d - 0x30)) 0

/-- Whether a code unit is a decimal digit. -/
def isDigit (c : Nat) : Bool := 0x30 ≤ c && c ≤ 0x39

/-- The array index a property key denotes, if it is one: a canonical numeric
string (no leading zero, no sign) of an integer below `2^32 - 1`. -/
def arrayIndex (k : Str) : Option Nat :=
  match k with
  | [] => none
  | c :: cs =>
    if (c :: cs).all isDigit && (c != 0x30 || cs.isEmpty) && digitsToNat (c :: cs) < 4294967295
    then some (digitsToNat (c :: cs)) else none

/-- Insertion of a new array-index key: index keys come first, in ascending order. -/
def insertIndex {α : Type} (i : Nat) (k : Str) (v : α) : List (Str × α) → List (Str × α)
  | [] => [(k, v)]
  | (l, w) :: rest =>
    match arrayIndex l with
    | some j => if j < i then (l, w) :: insertIndex i k v rest else (k, v) :: (l, w) :: rest
    | none => (k, v) :: (l, w) :: rest

/-- Definition of a data property on an ordinary object (`CreateDataProperty`):
an existing key keeps its place and takes the new value; a new array-index key
is enumerated among the index keys, any other new key last. -/
def setProp {α : Type} (o : List (Str × α)) (k : Str) (v : α) : List (Str × α) :=
  if o.any (fun p => p.1 == k) then o.map (fun p => if p.1 == k then (k, v) else p)
  else match arrayIndex k with
    | some i => insertIndex i k v o
    | none => o ++ [(k, v)]

/-- Lookup of an own property. -/
def lookupProp {α : Type} (o : List (Str × α)) (k : Str) : Option α :=
  (o.find? (fun p => p.1 == k)).map (fun p => p.2)

/-- The object an object literal of a JSON text denotes: its members are
defined in source order, so a repeated key keeps its first place and takes
its last value. -/
def mkObject {α : Type} (members : List (Str × α)) : List (Str × α) :=
  members.foldl (fun o m => setProp o m.1 m.2) []

/-! ## JSON.parse -/

/-- JSON white space: tab, line feed, carriage return, space. -/
def isWs (c : Nat) : Bool := c == 0x09 || c == 0x0A || c == 0x0D || c == 0x20

/-- The text after its leading white space. -/
def skipWs : Str → Str
  | [] => []
  | c :: cs => if isWs c then skipWs cs else c :: cs

/-- Value of a hexadecimal digit. -/
def hexVal (c : Nat) : Option Nat :=
  if 0x30 ≤ c ∧ c ≤ 0x39 then some (c - 0x30)
  else if 0x41 ≤ c ∧ c ≤ 0x46 then some (c - 0x41 + 10)
  else if 0x61 ≤ c ∧ c ≤ 0x66 then some (c - 0x61 + 10)
  else none

/-- The code unit denoted by the four hexadecimal digits of a `\u` escape. -/
def hex4 (a b c d : Nat) : Option Nat :=
  match hexVal a, hexVal b, hexVal c, hexVal d with
  | some x, some y, some z, some w => some (((x * 16 + y) * 16 + z) * 16 + w)
  | _, _, _, _ => none

/-- The code unit denoted by a single-character escape: quotation mark,
reverse solidus, solidus, `b`, `f`, `n`, `r`, `t`. -/
def escapeUnit (e : Nat) : Option Nat :=
  if e = 0x22 then some 0x22
  else if e = 0x5C then some 0x5C
  else if e = 0x2F then some 0x2F
  else if e = 0x62 then some 0x08
  else if e = 0x66 then some 0x0C
  else if e = 0x6E then some 0x0A
  else if e = 0x72 then some 0x0D
  else if e = 0x74 then some 0x09
  else none

/-- The rest of a JSON string after its opening quotation mark: the string
value and the text after the closing quotation mark.  Control characters
below U+0020 must be escaped. -/
def parseString : Str → Option (Str × Str)
  | [] => none
  | c :: rest =>
    if c = 0x22 then some ([], rest)
    else if c = 0x5C then
      match rest with
      | [] => none
      | e :: rest2 =>
        if e = 0x75 then
          match rest2 with
          | a :: b :: c2 :: d :: rest3 =>
            match hex4 a b c2 d with
            | some u =>
              match parseString rest3 with
              | some (v, r) => some (u :: v, r)
              | none => none
            | none => none
          | _ => none
        else
          match escapeUnit e with
          | some u =>
            match parseString rest2 with
            | some (v, r) => some (u :: v, r)
            | none => none
          | none => none
    else if c < 0x20 then none
    else
      match parseString rest with
      | some (v, r) => some (c :: v, r)
      | none => none

/-- The longest run of decimal digits at the start of a text, and the rest. -/
def takeDigits : Str → Str × Str
  | [] => ([], [])
  | c :: cs =>
    if isDigit c then (c :: (takeDigits cs).1, (takeDigits cs).2) else ([], c :: cs)

/-- Integer part of a number: a single `0`, or a non-zero digit and digits. -/
def parseInt (s : Str) : Option (Str × Str) :=
  match s with
  | [] => none
  | c :: cs =>
    if c = 0x30 then some ([c], cs)
    else if isDigit c then some (c :: (takeDigits cs).1, (takeDigits cs).2)
    else none

/-- Optional fraction: a full stop and at least one digit. -/
def parseFrac (s : Str) : Option (Str × Str) :=
  match s with
  | [] => some ([], [])
  | c :: cs =>
    if c = 0x2E then
      (if (takeDigits cs).1 = [] then none else some ((takeDigits cs).1, (takeDigits cs).2))
    else some ([], c :: cs)

/-- Digits of an exponent after its optional sign: at least one. -/
def parseExpDigits (neg : Bool) (s : Str) : Option (Int × Str) :=
  if (takeDigits s).1 = [] then none
  else some (if neg then - (digitsToNat (takeDigits s).1 : Int)
             else (digitsToNat (takeDigits s).1 : Int), (takeDigits s).2)

/-- Optional exponent: `e` or `E`, an optional sign, and at least one digit. -/
def parseExp (s : Str) : Option (Int × Str) :=
  match s with
  | [] => some (0, [])
  | c :: cs =>
    if c = 0x65 ∨ c = 0x45 then
      match cs with
      | [] => none
      | d :: ds =>
        if d = 0x2B then parseExpDigits false ds
        else if d = 0x2D then parseExpDigits true ds
        else parseExpDigits false (d :: ds)
    else some (0, c :: cs)

/-- The Number a literal denotes, from its sign, the digits of its integer
part and of its fraction, and its exponent. -/
def mkNum (neg : Bool) (int frac : Str) (e : Int) : JNum :=
  let ds := int ++ frac
  let tz := (ds.reverse.takeWhile (fun d => d == 0x30)).length
  if tz = ds.length then ⟨neg, 0, 0⟩
  else ⟨neg, digitsToNat (ds.take (ds.length - tz)), e - (frac.length : Int) + (tz : Int)⟩

/-- A JSON number at the start of a text: optional minus, integer part,
optional fraction, optional exponent. -/
def parseNumber (s : Str) : Option (JNum × Str) :=
  let neg := s.head? = some 0x2D
  let s1 := if neg then s.tail else s
  match parseInt s1 with
  | none => none
  | some (int, s2) =>
    match parseFrac s2 with
    | none => none
    | some (frac, s3) =>
      match parseExp s3 with
      | none => none
      | some (e, s4) => some (mkNum neg int frac e, s4)

/-- The text after a literal name, when the text starts with it. -/
def expectLit (lit : Str) (s : Str) : Option Str :=
  if lit.isPrefixOf s then some (s.drop lit.length) else none

/-- Outcome of a parsing function that runs on fuel: a value and the
unread text, a syntax error, or fuel exhausted. -/
inductive PResult (α : Type) where
  | ok (v : α) (rest : Str)
  | bad
  | fuel
  deriving Repr

mutual
/-- A JSON value at the start of a text (no leading white space). -/
def parseValue : Nat → Str → PResult JSVal
  | 0, _ => .fuel
  | fuel + 1, s =>
    match s with
    | [] => .bad
    | c :: rest =>
      if c = 0x7B then
        match skipWs rest with
        | [] => .bad
        | d :: rest2 =>
          if d = 0x7D then .ok (.obj []) rest2
          else
            match parseMembers fuel (d :: rest2) with
            | .ok ms r => .ok (.obj (mkObject ms)) r
            | .bad => .bad
            | .fuel => .fuel
      else if c = 0x5B then
        match skipWs rest with
        | [] => .bad
        | d :: rest2 =>
          if d = 0x5D then .ok (.arr []) rest2
          else
            match parseElements fuel (d :: rest2) with
            | .ok vs r => .ok (.arr vs) r
            | .bad => .bad
            | .fuel => .fuel
      else if c = 0x22 then
        match parseString rest with
        | some (v, r) => .ok (.str v) r
        | none => .bad
      else if c = 0x2D ∨ isDigit c = true then
        match parseNumber (c :: rest) with
        | some (n, r) => .ok (.num n) r
        | none => .bad
      else
        match expectLit (utf16 "true") (c :: rest) with
        | some r => .ok (.bool true) r
        | none =>
          match expectLit (utf16 "false") (c :: rest) with
          | some r => .ok (.bool false) r
          | none =>
            match expectLit (utf16 "null") (c :: rest) with
            | some r => .ok .null r
            | none => .bad
/-- The elements of a non-empty array, up to and including its closing bracket. -/
def parseElements : Nat → Str → PResult (List JSVal)
  | 0, _ => .fuel
  | fuel + 1, s =>
    match parseValue fuel s with
    | .ok v r =>
      match skipWs r with
      | [] => .bad
      | d :: r2 =>
        if d = 0x2C then
          match parseElements fuel (skipWs r2) with
          | .ok vs r3 => .ok (v :: vs) r3
          | .bad => .bad
          | .fuel => .fuel
        else if d = 0x5D then .ok [v] r2
        else .bad
    | .bad => .bad
    | .fuel => .fuel
/-- The members of a non-empty object, up to and including its closing brace. -/
def parseMembers : Nat → Str → PResult (List (Str × JSVal))
  | 0, _ => .fuel
  | fuel + 1, s =>
    match s with
    | [] => .bad
    | q :: s1 =>
      if q = 0x22 then
        match parseString s1 with
        | none => .bad
        | some (k, s2) =>
          match skipWs s2 with
          | [] => .bad
          | col :: s3 =>
            if col = 0x3A then
              match parseValue fuel (skipWs s3) with
              | .ok v s4 =>
                match skipWs s4 with
                | [] => .bad
                | d :: s5 =>
                  if d = 0x2C then
                    match parseMembers fuel (skipWs s5) with
                    | .ok ms r => .ok ((k, v) :: ms) r
                    | .bad => .bad
                    | .fuel => .fuel
                  else if d = 0x7D then .ok [(k, v)] s5
                  else .bad
              | .bad => .bad
              | .fuel => .fuel
            else .bad
      else .bad
end

/-- `JSON.parse(text)`: white space, one value, white space, end of text;
anything else throws a `SyntaxError`.  The fuel `2 * length + 1` is never
exhausted (`parseValue_fuel`). -/
def jsonParse (text : Str) : Except JSError JSVal :=
  match parseValue (2 * text.length + 1) (skipWs text) with
  | .ok v rest => if skipWs rest = [] then .ok v else .error .syntaxError
  | .bad => .error .syntaxError
  | .fuel => .error .syntaxError

/-! ## The host: numbers, conversions, property access -/

/-- What the host does with a Number, taken as given: `Number::toString`,
whether the Number is finite, and whether it is truthy (neither zero nor NaN). -/
structure NumberOps where
  toString : JNum → Str
  isFinite : JNum → Bool
  isTruthy : JNum → Bool

/-- Whether a value is `undefined` or `null`. -/
def JSVal.isNullish : JSVal → Bool
  | .undefined => true
  | .null => true
  | _ => false

/-- The boolean a value converts to (`ToBoolean`). -/
def truthy (ops : NumberOps) : JSVal → Bool
  | .undefined => false
  | .null => false
  | .bool b => b
  | .num n => ops.isTruthy n
  | .str s => !s.isEmpty
  | .arr _ => true
  | .obj _ => true

/-- The value of `v[k]` for a key `k` that is not `length` and names no
property of a prototype object (the handler reads no other key as a value):
a `TypeError` on `undefined` and `null`, the own property of an object, the
element of an array, the code unit of a string, `undefined` otherwise. -/
def getProp (v : JSVal) (k : Str) : Except JSError JSVal :=
  match v with
  | .undefined => .error .typeError
  | .null => .error .typeError
  | .bool _ => .ok .undefined
  | .num _ => .ok .undefined
  | .str s =>
    match arrayIndex k with
    | some i =>
      match s.get? i with
      | some u => .ok (.str [u])
      | none => .ok .undefined
    | none => .ok .undefined
  | .arr xs =>
    match arrayIndex k with
    | some i => .ok (xs.getD i .undefined)
    | none => .ok .undefined
  | .obj ps => .ok ((lookupProp ps k).getD .undefined)

/-- Optional chaining `v?.[k]`: `undefined` when `v` is `undefined` or `null`. -/
def optChain (v : JSVal) (k : Str) : Except JSError JSVal :=
  if v.isNullish then .ok .undefined else getProp v k

mutual
/-- The string a value converts to (`ToString`).  An array is joined with
commas; an object without an own `toString` gives `[object Object]`, and one
with an own `toString` (never callable in a JSON value) has no primitive
value, which is a `TypeError`. -/
def toStr (ops : NumberOps) : JSVal → Except JSError Str
  | .undefined => .ok (utf16 "undefined")
  | .null => .ok (utf16 "null")
  | .bool b => .ok (if b then utf16 "true" else utf16 "false")
  | .num n => .ok (ops.toString n)
  | .str s => .ok s
  | .arr xs => joinElems ops (utf16 ",") xs
  | .obj ps =>
    if ps.any (fun p => p.1 == utf16 "toString") then .error .typeError
    else .ok (utf16 "[object Object]")
/-- The join of the elements of an array with a separator
(`Array.prototype.join`): `undefined` and `null` elements give the empty string. -/
def joinElems (ops : NumberOps) (sep : Str) : List JSVal → Except JSError Str
  | [] => .ok []
  | x :: xs =>
    match (if x.isNullish then .ok [] else toStr ops x) with
    | .error e => .error e
    | .ok a =>
      match xs with
      | [] => .ok a
      | _ :: _ =>
        match joinElems ops sep xs with
        | .error e => .error e
        | .ok b => .ok (a ++ sep ++ b)
end

/-- Fuel-driven decimal digits of a natural number, least significant first. -/
def natDigitsRev : Nat → Nat → Str
  | 0, _ => []
  | fuel + 1, n => (0x30 + n % 10) :: (if n / 10 = 0 then [] else natDigitsRev fuel (n / 10))

/-- The canonical decimal string of a natural number. -/
def natToStr (n : Nat) : Str :=
  (natDigitsRev (n + 1) n).reverse

/-- The own enumerable properties a spread copies from a value
(`CopyDataProperties`): those of an object, the elements of an array and the
code units of a string under their indices, none otherwise. -/
def ownProps : JSVal → List (Str × JSVal)
  | .obj ps => ps
  | .arr xs => xs.enum.map (fun p => (natToStr p.1, p.2))
  | .str s => s.enum.map (fun p => (natToStr p.1, JSVal.str [p.2]))
  | _ => []

/-! ## JSON.stringify -/

/-- A hexadecimal digit in lower case. -/
def hexDigit (n : Nat) : Nat :=
  if n < 10 then 0x30 + n else 0x61 + (n - 10)

/-- The escape `\uXXXX` of a code unit. -/
def unicodeEscape (c : Nat) : Str :=
  [0x5C, 0x75, hexDigit (c / 4096 % 16), hexDigit (c / 256 % 16), hexDigit (c / 16 % 16),
    hexDigit (c % 16)]

/-- Whether a code unit is a leading surrogate. -/
def isLeadSurrogate (c : Nat) : Bool := 0xD800 ≤ c && c ≤ 0xDBFF

/-- Whether a code unit is a trailing surrogate. -/
def isTrailSurrogate (c : Nat) : Bool := 0xDC00 ≤ c && c ≤ 0xDFFF

/-- The characters of a quoted JSON string (`QuoteJSONString` without the
enclosing quotation marks): the short escapes, `\uXXXX` for the other
control characters and for unpaired surrogates, everything else as it is. -/
def quoteBody : Str → Str
  | [] => []
  | c :: cs =>
    if c = 0x08 then [0x5C, 0x62] ++ quoteBody cs
    else if c = 0x09 then [0x5C, 0x74] ++ quoteBody cs
    else if c = 0x0A then [0x5C, 0x6E] ++ quoteBody cs
    else if c = 0x0C then [0x5C, 0x66] ++ quoteBody cs
    else if c = 0x0D then [0x5C, 0x72] ++ quoteBody cs
    else if c = 0x22 then [0x5C, 0x22] ++ quoteBody cs
    else if c = 0x5C then [0x5C, 0x5C] ++ quoteBody cs
    else if c < 0x20 then unicodeEscape c ++ quoteBody cs
    else if isLeadSurrogate c then
      match cs with
      | [] => unicodeEscape c
      | d :: ds =>
        if isTrailSurrogate d then c :: d :: quoteBody ds
        else unicodeEscape c ++ quoteBody (d :: ds)
    else if isTrailSurrogate c then unicodeEscape c ++ quoteBody cs
    else c :: quoteBody cs

/-- The quoted JSON string of a string value. -/
def quoteJSONString (s : Str) : Str :=
  [0x22] ++ quoteBody s ++ [0x22]

/-- The items of an array or object joined by a comma, a line feed and the
indentation. -/
def joinItems (indent : Str) : List Str → Str
  | [] => []
  | [x] => x
  | x :: y :: rest => x ++ [0x2C, 0x0A] ++ indent ++ joinItems indent (y :: rest)

/-- An array or object with its items, one per line, between the brackets
`open` and `close`; with no item, the two brackets alone. -/
def wrapItems (open_ close : Nat) (stepback : Str) (items : List Str) : Str :=
  match items with
  | [] => [open_, close]
  | _ :: _ =>
    [open_, 0x0A] ++ (stepback ++ utf16 "  ") ++ joinItems (stepback ++ utf16 "  ") items
      ++ [0x0A] ++ stepback ++ [close]

mutual
/-- The serialization of a value at an indentation (`SerializeJSONProperty`
with a gap of two spaces); `none` stands for `undefined`. -/
def serializeJSON (ops : NumberOps) (indent : Str) : JSVal → Option Str
  | .undefined => none
  | .null => some (utf16 "null")
  | .bool b => some (if b then utf16 "true" else utf16 "false")
  | .num n => some (if ops.isFinite n then ops.toString n else utf16 "null")
  | .str s => some (quoteJSONString s)
  | .arr xs => some (wrapItems 0x5B 0x5D indent (serializeElements ops (indent ++ utf16 "  ") xs))
  | .obj ps => some (wrapItems 0x7B 0x7D indent (serializeProps ops (indent ++ utf16 "  ") ps))
/-- The serialized elements of an array: `null` for an `undefined` one. -/
def serializeElements (ops : NumberOps) (indent : Str) : List JSVal → List Str
  | [] => []
  | x :: xs =>
    (match serializeJSON ops indent x with
      | some t => t
      | none => utf16 "null") :: serializeElements ops indent xs
/-- The serialized members of an object: a member whose value is `undefined`
is left out. -/
def serializeProps (ops : NumberOps) (indent : Str) : List (Str × JSVal) → List Str
  | [] => []
  | (k, v) :: ps =>
    match serializeJSON ops indent v with
    | some t => (quoteJSONString k ++ [0x3A, 0x20] ++ t) :: serializeProps ops indent ps
    | none => serializeProps ops indent ps
end

/-- `JSON.stringify(value, null, 2)`; `none` stands for `undefined`. -/
def jsonStringify (ops : NumberOps) (value : JSVal) : Option Str :=
  serializeJSON ops [] value

/-! ## String.prototype.replace -/

/-- The text before and after the first occurrence of a pattern, if any. -/
def splitFirst (pat : Str) : Str → Option (Str × Str)
  | [] => if pat.isEmpty then some ([], []) else none
  | c :: cs =>
    if pat.isPrefixOf (c :: cs) then some ([], (c :: cs).drop pat.length)
    else
      match splitFirst pat cs with
      | some (b, a) => some (c :: b, a)
      | none => none

/-- The replacement text with its `$` patterns expanded (`GetSubstitution`
for a string pattern, which has no captures): `$$` is a dollar sign, `$&` the
matched text, the dollar sign with a backtick the text before the match, with
an apostrophe the text after it; any other `$` stands for itself. -/
def getSubstitution (matched before after : Str) : Str → Str
  | [] => []
  | c :: cs =>
    if c = 0x24 then
      match cs with
      | [] => [0x24]
      | d :: ds =>
        if d = 0x24 then 0x24 :: getSubstitution matched before after ds
        else if d = 0x26 then matched ++ getSubstitution matched before after ds
        else if d = 0x60 then before ++ getSubstitution matched before after ds
        else if d = 0x27 then after ++ getSubstitution matched before after ds
        else 0x24 :: d :: getSubstitution matched before after ds
    else c :: getSubstitution matched before after cs

/-- `s.replace(pat, repl)` for a string pattern and a string replacement:
the first occurrence only is replaced; without one the text is returned as it is. -/
def jsReplace (s pat repl : Str) : Str :=
  match splitFirst pat s with
  | none => s
  | some (b, a) => b ++ getSubstitution pat b a repl ++ a

/-- The replacement string an argument of `replace` converts to when it is
the result of `JSON.stringify`: the text, or `undefined` spelled out. -/
def stringifyArg (ops : NumberOps) (value : JSVal) : Str :=
  match jsonStringify ops value with
  | some t => t
  | none => utf16 "undefined"

/-! ## The prompt templates -/

/-- The template of the Extractor stage (lines 27-35). -/
def extractorPromptTemplate : Str :=
  utf16 (String.join [
    "\n",
    "You are an expert AI data extractor. Your task is to analyze the raw text of a resume and convert it into a structured JSON object.\n",
    "The JSON object must follow this exact schema: \x7bname, email, phone, linkedin, summary, skills (array of strings), experience (array of objects with company, role, period, description (array of strings)), education (object with degree, university, period)\x7d.\n",
    "Raw Resume Text:\n",
    "```\n",
    "\x7brawResumeText\x7d\n",
    "```\n",
    "Output ONLY the JSON object.\n"])

/-- The template of the Planner stage (lines 37-52). -/
def plannerPromptTemplate : Str :=
  utf16 (String.join [
    "\n",
    "You are an AI career strategist (Planner Agent). Analyze the user\x27s structured resume and a job description to create a strategic tailoring plan.\n",
    "User\x27s Resume JSON:\n",
    "```json\n",
    "\x7bresumeData\x7d\n",
    "```\n",
    "Job Description:\n",
    "```text\n",
    "\x7bjobDescription\x7d\n",
    "```\n",
    "Generate a JSON object with a strategic plan containing three keys:\n",
    "1. \"extractedSkills\": An array of the top 5-7 critical skills from the job description.\n",
    "2. \"skillGap\": An array of key skills from the job description missing from the user\x27s resume.\n",
    "3. \"rewritePlan\": A concise, high-level action plan for the Executor Agent to rewrite the summary and work experience.\n",
    "Output strictly in JSON format.\n"])

/-- The template of the Executor stage (lines 54-70). -/
def executorPromptTemplate : Str :=
  utf16 (String.join [
    "\n",
    "You are an AI resume writer (Executor Agent). Rewrite a user\x27s resume based on the provided strategic plan.\n",
    "User\x27s Original Resume JSON:\n",
    "```json\n",
    "\x7bresumeData\x7d\n",
    "```\n",
    "Strategic Plan from Planner Agent:\n",
    "```text\n",
    "\x7brewritePlan\x7d\n",
    "```\n",
    "Your Task: Rewrite the \"summary\" and \"experience\" sections.\n",
    "- Follow the plan exactly.\n",
    "- Incorporate relevant skills naturally.\n",
    "- Do NOT invent new experiences. Only rephrase existing details.\n",
    "- Return ONLY a JSON object with two keys: \"tailoredSummary\" and \"tailoredExperience\". The \"tailoredExperience\" should be an array of objects, maintaining the original structure.\n",
    "Output strictly in JSON format.\n"])

/-! ## The collaborators and the handler of `/api/process` -/

/-- The three agent stages, in the order the handler runs them. -/
inductive Stage where
  | extractor
  | planner
  | executor
  deriving DecidableEq, Repr

/-- The world outside the handler: `pdf-parse` (the bytes of a file to its
text), the generative model (the text of its response to a prompt, which may
depend on the stage that asks), the HTTP client of the job search (the
`data` of the response for a query and a page), and the host's Numbers.
`Except.error` is a rejected promise or a thrown exception. -/
structure Env where
  pdf : List Nat → Except JSError Str
  generateContent : Stage → Str → Except JSError Str
  axiosRequest : Str → Str → Except JSError JSVal
  ops : NumberOps

/-- A call the handler makes to a collaborator. -/
inductive Event where
  | pdf (buffer : List Nat)
  | generateContent (stage : Stage) (prompt : Str)
  | jobSearch (query page : Str)
  deriving DecidableEq, Repr

/-- A request whose body was parsed and whose two text fields are each
absent or a string, as the form of the frontend sends them, with the bytes of
the uploaded file, if any.  `HttpRequest` below is a request with any body,
and `apiProcessHttp_toHttp` shows that the handler on it is `apiProcess` for
the requests of this type. -/
structure Request where
  resumeText : Option Str
  jobDescription : Option Str
  resumeFile : Option (List Nat)

/-- A run of a handler: the status and the body passed to `res.json`, and the
calls made to the collaborators, in order. -/
structure Run where
  status : Nat
  body : JSVal
  trace : List Event
  deriving DecidableEq, Repr

/-- Whether a field of the request is falsy: absent or the empty string. -/
def isBlank (field : Option Str) : Bool :=
  match field with
  | none => true
  | some t => t.isEmpty

/-- `runAgent` (lines 76-81): one call of the model, the removal of the
fence markers from the text of its response, and `JSON.parse` of what is left. -/
def runAgent (env : Env) (stage : Stage) (prompt : Str) : Except JSError JSVal :=
  match env.generateContent stage prompt with
  | .error e => .error e
  | .ok rawText => jsonParse (cleanedText rawText)

/-- `fetchJobs` (lines 83-95) for a query and the string of a page number:
`res.data?.data || []`, and the empty list when the request throws. -/
def fetchJobs (env : Env) (query page : Str) : JSVal :=
  match env.axiosRequest query page with
  | .error _ => .arr []
  | .ok data =>
    match optChain data (utf16 "data") with
    | .error _ => .arr []
    | .ok d => if truthy env.ops d then d else .arr []

/-- The body `\x7b error: message \x7d` of an error response. -/
def errorBody (message : String) : JSVal :=
  .obj [(utf16 "error", .str (utf16 message))]

/-- The `catch` block of the handler (lines 146-149). -/
def failed (trace : List Event) : Run :=
  ⟨500, errorBody "An error occurred during processing.", trace⟩

/-- The Extractor prompt (line 112). -/
def extractorPrompt (rawText : Str) : Str :=
  jsReplace extractorPromptTemplate (utf16 "\x7brawResumeText\x7d") rawText

/-- The Planner prompt (lines 115-117). -/
def plannerPrompt (ops : NumberOps) (resumeJSON : JSVal) (jobDescription : Str) : Str :=
  jsReplace
    (jsReplace plannerPromptTemplate (utf16 "\x7bresumeData\x7d") (stringifyArg ops resumeJSON))
    (utf16 "\x7bjobDescription\x7d") jobDescription

/-- The Executor prompt (lines 120-122); reading `plan.rewritePlan` and
converting it to a string may throw. -/
def executorPrompt (ops : NumberOps) (resumeJSON plan : JSVal) : Except JSError Str :=
  match getProp plan (utf16 "rewritePlan") with
  | .error e => .error e
  | .ok rewritePlan =>
    match toStr ops rewritePlan with
    | .error e => .error e
    | .ok text =>
      .ok (jsReplace
        (jsReplace executorPromptTemplate (utf16 "\x7bresumeData\x7d")
          (stringifyArg ops resumeJSON))
        (utf16 "\x7brewritePlan\x7d") text)

/-- The `tailoredResume` (lines 125-129): the properties of `resumeJSON`,
then `summary` and `experience` from the Executor's result. -/
def tailoredResume (resumeJSON newSections : JSVal) : Except JSError JSVal :=
  match getProp newSections (utf16 "tailoredSummary") with
  | .error e => .error e
  | .ok summary =>
    match getProp newSections (utf16 "tailoredExperience") with
    | .error e => .error e
    | .ok experience =>
      .ok (.obj (setProp (setProp (mkObject (ownProps resumeJSON)) (utf16 "summary") summary)
        (utf16 "experience") experience))

/-- The `role` of line 131: the role of the first experience entry, or the
default when that is falsy. -/
def searchRole (ops : NumberOps) (tailored : JSVal) : Except JSError JSVal :=
  match getProp tailored (utf16 "experience") with
  | .error e => .error e
  | .ok experience =>
    match optChain experience (utf16 "0") with
    | .error e => .error e
    | .ok first =>
      match optChain first (utf16 "role") with
      | .error e => .error e
      | .ok role => .ok (if truthy ops role then role else .str (utf16 "Software Developer"))

/-- The `skills` of line 132: the first five skills joined by a comma and a
space, the empty string without skills; `slice` and `join` are only there
for an array. -/
def searchSkills (ops : NumberOps) (tailored : JSVal) : Except JSError Str :=
  match getProp tailored (utf16 "skills") with
  | .error e => .error e
  | .ok skills =>
    if skills.isNullish then .ok []
    else
      match skills with
      | .arr xs => joinElems ops (utf16 ", ") (xs.take 5)
      | _ => .error .typeError

/-- The `searchQuery` of line 133. -/
def searchQuery (ops : NumberOps) (tailored : JSVal) : Except JSError Str :=
  match searchRole ops tailored with
  | .error e => .error e
  | .ok role =>
    match searchSkills ops tailored with
    | .error e => .error e
    | .ok skills =>
      match toStr ops role with
      | .error e => .error e
      | .ok roleText => .ok (roleText ++ utf16 " " ++ skills)

/-- The body of a successful response (lines 136-144). -/
def successBody (tailored extractedSkills skillGap jobs : JSVal) (query : Str) : JSVal :=
  .obj [(utf16 "tailoredResume", tailored),
    (utf16 "analysis", .obj [(utf16 "extractedSkills", extractedSkills),
      (utf16 "skillGap", skillGap)]),
    (utf16 "suggestedJobs", jobs),
    (utf16 "jobSearchQuery", .str query)]

/-- Lines 125-144: assembling the response once the three stages are done. -/
def assemble (env : Env) (trace : List Event) (resumeJSON plan newSections : JSVal) : Run :=
  match tailoredResume resumeJSON newSections with
  | .error _ => failed trace
  | .ok tailored =>
    match searchQuery env.ops tailored with
    | .error _ => failed trace
    | .ok query =>
      match getProp plan (utf16 "extractedSkills"), getProp plan (utf16 "skillGap") with
      | .ok extractedSkills, .ok skillGap =>
        ⟨200, successBody tailored extractedSkills skillGap
            (fetchJobs env query (utf16 "1")) query,
          trace ++ [Event.jobSearch query (utf16 "1")]⟩
      | _, _ => failed (trace ++ [Event.jobSearch query (utf16 "1")])

/-- Lines 120-123: the Executor stage, then the assembly. -/
def executorStage (env : Env) (trace : List Event) (resumeJSON plan : JSVal) : Run :=
  match executorPrompt env.ops resumeJSON plan with
  | .error _ => failed trace
  | .ok prompt =>
    match runAgent env .executor prompt with
    | .error _ => failed (trace ++ [Event.generateContent .executor prompt])
    | .ok newSections =>
      assemble env (trace ++ [Event.generateContent .executor prompt]) resumeJSON plan
        newSections

/-- Lines 115-118: the Planner stage, then the rest. -/
def plannerStage (env : Env) (trace : List Event) (resumeJSON : JSVal)
    (jobDescription : Str) : Run :=
  match runAgent env .planner (plannerPrompt env.ops resumeJSON jobDescription) with
  | .error _ =>
    failed (trace ++ [Event.generateContent .planner
      (plannerPrompt env.ops resumeJSON jobDescription)])
  | .ok plan =>
    executorStage env
      (trace ++ [Event.generateContent .planner
        (plannerPrompt env.ops resumeJSON jobDescription)])
      resumeJSON plan

/-- Lines 112-113: the Extractor stage, then the rest. -/
def extractorStage (env : Env) (trace : List Event) (rawText jobDescription : Str) : Run :=
  match runAgent env .extractor (extractorPrompt rawText) with
  | .error _ => failed (trace ++ [Event.generateContent .extractor (extractorPrompt rawText)])
  | .ok resumeJSON =>
    plannerStage env (trace ++ [Event.generateContent .extractor (extractorPrompt rawText)])
      resumeJSON jobDescription

/-- Lines 106-110: the raw text of the resume, from the uploaded file when
there is one (whatever `resumeText` is), from `resumeText` otherwise. -/
def rawTextOf (env : Env) (req : Request) : Except JSError Str :=
  match req.resumeFile with
  | some buffer => env.pdf buffer
  | none => .ok (req.resumeText.getD [])

/-- The call to `pdf-parse` lines 106-110 make: one when a file is uploaded. -/
def pdfTrace (req : Request) : List Event :=
  match req.resumeFile with
  | some buffer => [Event.pdf buffer]
  | none => []

/-- The handler of `POST /api/process` (lines 97-150). -/
def apiProcess (env : Env) (req : Request) : Run :=
  if isBlank req.jobDescription then ⟨400, errorBody "Job description is required.", []⟩
  else if isBlank req.resumeText && req.resumeFile.isNone then
    ⟨400, errorBody "Resume is required.", []⟩
  else
    match rawTextOf env req with
    | .error _ => failed (pdfTrace req)
    | .ok rawText => extractorStage env (pdfTrace req) rawText (req.jobDescription.getD [])

/-! ## Auxiliary notions for the statements -/

/-- The stages of the model calls of a trace, in order. -/
def stagesOf (trace : List Event) : List Stage :=
  trace.filterMap (fun e =>
    match e with
    | .generateContent stage _ => some stage
    | _ => none)

/-- The model calls of a trace, in order. -/
def modelCalls (trace : List Event) : List Event :=
  trace.filter (fun e =>
    match e with
    | .generateContent _ _ => true
    | _ => false)

/-- Number operations for the examples; no example depends on them. -/
def exampleOps : NumberOps :=
  ⟨fun n => natToStr n.mant, fun _ => true, fun n => n.mant != 0⟩

/-- An environment for the examples: the model answers each stage with a
fixed response whatever the prompt, no file can be read and the job search fails. -/
def scriptedEnv (extractor planner executor : Except JSError Str) : Env where
  pdf := fun _ => .error .rejected
  generateContent := fun stage _ =>
    match stage with
    | .extractor => extractor
    | .planner => planner
    | .executor => executor
  axiosRequest := fun _ _ => .error .rejected
  ops := exampleOps

/-- A request with a resume text, a job description and no file. -/
def textRequest : Request :=
  ⟨some (utf16 "resume"), some (utf16 "job"), none⟩

/-- An example where every stage answers well-formed JSON. -/
def envAllStages : Env :=
  scriptedEnv
    (.ok (utf16 "\x7b\"name\":\"A\",\"summary\":\"old\",\"experience\":[],\"skills\":[\"x\"]\x7d"))
    (.ok (utf16 "\x7b\"rewritePlan\":\"p\"\x7d"))
    (.ok (utf16 "\x7b\"tailoredSummary\":\"S\",\"tailoredExperience\":[]\x7d"))

/-- An example where the Extractor finds three experience entries and the
Executor answers with one. -/
def envFewerEntries : Env :=
  scriptedEnv
    (.ok (utf16 "\x7b\"experience\":[\x7b\"role\":\"a\"\x7d,\x7b\"role\":\"b\"\x7d,\x7b\"role\":\"c\"\x7d]\x7d"))
    (.ok (utf16 "\x7b\"rewritePlan\":\"p\"\x7d"))
    (.ok (utf16 "\x7b\"tailoredSummary\":\"S\",\"tailoredExperience\":[\x7b\"role\":\"z\"\x7d]\x7d"))

/-- An example where the Planner answers an object without `rewritePlan`. -/
def envNoPlan : Env :=
  scriptedEnv
    (.ok (utf16 "\x7b\"name\":\"A\"\x7d"))
    (.ok (utf16 "\x7b\x7d"))
    (.ok (utf16 "\x7b\"tailoredSummary\":\"S\",\"tailoredExperience\":[]\x7d"))


/-! ## The handler of `/api/search-jobs` and further notions for the statements -/

/-- The handler of `GET /api/search-jobs` (lines 152-159) for query
parameters that are absent or strings; `page.toString()` of a string is the
string itself, and `fetchJobs` never throws. -/
def apiSearchJobs (env : Env) (query page : Option Str) : Run :=
  if isBlank query || isBlank page then ⟨400, errorBody "Query and page are required.", []⟩
  else
    ⟨200, fetchJobs env (query.getD []) (page.getD []),
      [Event.jobSearch (query.getD []) (page.getD [])]⟩

/-- The same environment with another job search. -/
def setSearch (env : Env) (search : Str → Str → Except JSError JSVal) : Env :=
  { env with axiosRequest := search }

/-- The job-search calls of a trace, in order. -/
def searchCalls (trace : List Event) : List Event :=
  trace.filter (fun e =>
    match e with
    | .jobSearch _ _ => true
    | _ => false)

/-- The names of the own properties of a value (`Object.keys` of an object). -/
def fieldNames : JSVal → List Str
  | .obj ps => ps.map Prod.fst
  | _ => []

/-- The text of a template before and after the first occurrence of a
placeholder (two empty texts when it does not occur). -/
def templateParts (template placeholder : Str) : Str × Str :=
  (splitFirst placeholder template).getD ([], [])

/-- Whether a text is a placeholder token: an opening brace, a name without
braces, a closing brace. -/
def isPlaceholder (p : Str) : Bool :=
  match p with
  | [] => false
  | c :: rest =>
    c == 0x7B && rest.getLast? == some 0x7D
      && rest.dropLast.all (fun x => x != 0x7B && x != 0x7D)

/-- Whether a code unit may stand unescaped in a JSON string literal. -/
def isPlainChar (c : Nat) : Bool := 0x20 ≤ c && c != 0x22 && c != 0x5C

/-- The default role of line 131. -/
def defaultRole : Str := utf16 "Software Developer"

/-- The first entry of the experience: the element at index 0
(`experience[0]`), `undefined` when there is none. -/
def firstEntry (experience : JSVal) : JSVal :=
  match experience with
  | .arr (entry :: _) => entry
  | .str (c :: _) => .str [c]
  | .obj ps => (lookupProp ps (utf16 "0")).getD .undefined
  | _ => .undefined

/-- The role of an entry: its property `role`, `undefined` when it has none. -/
def entryRole (entry : JSVal) : JSVal :=
  match entry with
  | .obj ps => (lookupProp ps (utf16 "role")).getD .undefined
  | _ => .undefined

/-- The role as the specification words it: the role of the first entry of
`experience` converted to a string, the default when there is no first entry
or its role is absent or falsy. -/
def specRole (ops : NumberOps) (t : List (Str × JSVal)) : Except JSError Str :=
  if truthy ops (entryRole (firstEntry ((lookupProp t (utf16 "experience")).getD .undefined)))
  then toStr ops (entryRole (firstEntry ((lookupProp t (utf16 "experience")).getD .undefined)))
  else .ok defaultRole

/-- The skills part as the specification words it: the first five elements
of `skills` joined by a comma and a space, the empty string when `skills` is
absent or `null`; nothing is derived from a `skills` that is not a list. -/
def specSkillsPart (ops : NumberOps) (t : List (Str × JSVal)) : Except JSError Str :=
  match lookupProp t (utf16 "skills") with
  | none => .ok []
  | some .undefined => .ok []
  | some .null => .ok []
  | some (.arr xs) => joinElems ops (utf16 ", ") (xs.take 5)
  | some _ => .error .typeError

/-- The job-search query as the specification words it: the role, a space
and the skills part, when both are derived. -/
def specQuery (ops : NumberOps) (t : List (Str × JSVal)) : Except JSError Str :=
  match specRole ops t, specSkillsPart ops t with
  | .ok role, .ok skills => .ok (role ++ utf16 " " ++ skills)
  | _, _ => .error .typeError

/-- An example where a file is uploaded and read, every stage answers
well-formed JSON and the job search finds one job. -/
def envUpload : Env :=
  { envAllStages with
    pdf := fun _ => .ok (utf16 "text of the file")
    axiosRequest := fun _ _ =>
      .ok (.obj [(utf16 "data", .arr [.obj [(utf16 "job_title", .str (utf16 "Developer"))]])]) }

/-- A request with a resume text, a job description and a file. -/
def uploadRequest : Request :=
  ⟨some (utf16 "resume"), some (utf16 "job"), some [37, 80, 68, 70]⟩

/-- Two runs that agree on the status, on the calls made and on every field
of the body but `suggestedJobs`. -/
def SameButJobs (r1 r2 : Run) : Prop :=
  r1.status = r2.status ∧ r1.trace = r2.trace ∧
    ∀ k, k ≠ utf16 "suggestedJobs" → getProp r1.body k = getProp r2.body k

/-- A tailored resume for the examples: two experience entries and six skills. -/
def resumeExample : List (Str × JSVal) :=
  [(utf16 "experience",
      .arr [.obj [(utf16 "role", .str (utf16 "Data Engineer"))],
        .obj [(utf16 "role", .str (utf16 "Intern"))]]),
    (utf16 "skills",
      .arr [.str (utf16 "a"), .str (utf16 "b"), .str (utf16 "c"), .str (utf16 "d"),
        .str (utf16 "e"), .str (utf16 "f")])]

/-- The text of the Extractor template before its placeholder. -/
def extractorHead : Str :=
  (templateParts extractorPromptTemplate (utf16 "\x7brawResumeText\x7d")).1

/-- The text of the Extractor template after its placeholder. -/
def extractorTail : Str :=
  (templateParts extractorPromptTemplate (utf16 "\x7brawResumeText\x7d")).2

/-- The text of the Planner template before the placeholder of the resume. -/
def plannerHead : Str :=
  (templateParts plannerPromptTemplate (utf16 "\x7bresumeData\x7d")).1

/-- The text of the Planner template after the placeholder of the resume;
the placeholder of the job description stands in it. -/
def plannerTail : Str :=
  (templateParts plannerPromptTemplate (utf16 "\x7bresumeData\x7d")).2

/-! ## The handler of `/api/process` on a request with any body -/

/-- A request as the handler receives it: `req.body`, which is `undefined`
when no body parser filled it, an object of strings for a multipart form and
the JSON value the client sent for a JSON body (objects are ordinary
objects, as `JSON.parse` builds them); and the bytes of the uploaded file
(`req.file`), if any. -/
structure HttpRequest where
  body : JSVal
  file : Option (List Nat)

/-- Lines 106-110 for any `resumeText`: the text of the uploaded file when
there is one, the value of `resumeText` otherwise. -/
def httpRawText (env : Env) (req : HttpRequest) (resumeText : JSVal) : Except JSError JSVal :=
  match req.file with
  | some buffer =>
    match env.pdf buffer with
    | .error e => .error e
    | .ok text => .ok (.str text)
  | none => .ok resumeText

/-- The call to `pdf-parse` of lines 106-110. -/
def httpPdfTrace (req : HttpRequest) : List Event :=
  match req.file with
  | some buffer => [Event.pdf buffer]
  | none => []

/-- The handler of `POST /api/process` (lines 97-150) on a request with any
body.  The destructuring of line 100 reads the two properties of `req.body`
inside the `try` block, so it throws on a body that is `undefined` or `null`;
the checks of lines 103-104 test the two values for falsiness; `replace`
converts the raw text (line 112) and the job description (line 117) to
strings, which may throw. -/
def apiProcessHttp (env : Env) (req : HttpRequest) : Run :=
  match getProp req.body (utf16 "resumeText"), getProp req.body (utf16 "jobDescription") with
  | .ok resumeText, .ok jobDescription =>
    if !truthy env.ops jobDescription then ⟨400, errorBody "Job description is required.", []⟩
    else if !truthy env.ops resumeText && req.file.isNone then
      ⟨400, errorBody "Resume is required.", []⟩
    else
      match httpRawText env req resumeText with
      | .error _ => failed (httpPdfTrace req)
      | .ok rawValue =>
        match toStr env.ops rawValue with
        | .error _ => failed (httpPdfTrace req)
        | .ok rawText =>
          match runAgent env .extractor (extractorPrompt rawText) with
          | .error _ =>
            failed (httpPdfTrace req
              ++ [Event.generateContent .extractor (extractorPrompt rawText)])
          | .ok resumeJSON =>
            match toStr env.ops jobDescription with
            | .error _ =>
              failed (httpPdfTrace req
                ++ [Event.generateContent .extractor (extractorPrompt rawText)])
            | .ok jobText =>
              plannerStage env
                (httpPdfTrace req
                  ++ [Event.generateContent .extractor (extractorPrompt rawText)])
                resumeJSON jobText
  | _, _ => failed []

/-- The members a text field of the form contributes to the body. -/
def formField (name : String) (field : Option Str) : List (Str × JSVal) :=
  match field with
  | some text => [(utf16 name, .str text)]
  | none => []

/-- The request with a parsed body that a request with text fields is. -/
def toHttp (req : Request) : HttpRequest :=
  ⟨.obj (formField "resumeText" req.resumeText ++ formField "jobDescription" req.jobDescription),
    req.resumeFile⟩

/-! ## The body `res.json` sends -/

mutual
/-- The JSON value a client reads from `res.json(value)`, which sends
`JSON.stringify(value)`: the value itself where it is JSON, `null` for a
Number that is not finite, and `none` for `undefined`, which has no
serialization (`SerializeJSONProperty`). -/
def sentValue (ops : NumberOps) : JSVal → Option JSVal
  | .undefined => none
  | .null => some .null
  | .bool b => some (.bool b)
  | .num n => some (if ops.isFinite n then .num n else .null)
  | .str s => some (.str s)
  | .arr xs => some (.arr (sentElements ops xs))
  | .obj ps => some (.obj (sentProps ops ps))
/-- The elements sent for an array: `null` for an `undefined` one
(`SerializeJSONArray`). -/
def sentElements (ops : NumberOps) : List JSVal → List JSVal
  | [] => []
  | x :: xs =>
    (match sentValue ops x with
      | some w => w
      | none => .null) :: sentElements ops xs
/-- The members sent for an object: a member whose value is `undefined` is
left out (`SerializeJSONObject`). -/
def sentProps (ops : NumberOps) : List (Str × JSVal) → List (Str × JSVal)
  | [] => []
  | (k, v) :: ps =>
    match sentValue ops v with
    | some w => (k, w) :: sentProps ops ps
    | none => sentProps ops ps
end

/-- An example where the Extractor answers a resume whose skills are one
string instead of a list. -/
def envSkillsText : Env :=
  scriptedEnv
    (.ok (utf16 "\x7b\"name\":\"A\",\"skills\":\"JS, Python\"\x7d"))
    (.ok (utf16 "\x7b\"rewritePlan\":\"p\"\x7d"))
    (.ok (utf16 "\x7b\"tailoredSummary\":\"S\",\"tailoredExperience\":[]\x7d"))

/-! ## The fence removal seen on values -/

mutual
/-- The value with the fence markers deleted from every string value; keys
are left as they are. -/
def stripVal : JSVal → JSVal
  | .undefined => .undefined
  | .null => .null
  | .bool b => .bool b
  | .num n => .num n
  | .str s => .str (cleanedText s)
  | .arr xs => .arr (stripVals xs)
  | .obj ps => .obj (stripProps ps)
/-- The elements with the fence markers deleted from their strings. -/
def stripVals : List JSVal → List JSVal
  | [] => []
  | x :: xs => stripVal x :: stripVals xs
/-- The members with the fence markers deleted from the strings of their values. -/
def stripProps : List (Str × JSVal) → List (Str × JSVal)
  | [] => []
  | (k, v) :: ps => (k, stripVal v) :: stripProps ps
end

mutual
/-- Whether no key of a value, at any depth, has a backtick. -/
def keysTickFree : JSVal → Bool
  | .arr xs => keysTickFreeList xs
  | .obj ps => keysTickFreeProps ps
  | _ => true
/-- Whether no key in the elements has a backtick. -/
def keysTickFreeList : List JSVal → Bool
  | [] => true
  | x :: xs => keysTickFree x && keysTickFreeList xs
/-- Whether no key in the members has a backtick. -/
def keysTickFreeProps : List (Str × JSVal) → Bool
  | [] => true
  | (k, v) :: ps => !k.contains backtick && keysTickFree v && keysTickFreeProps ps
end

mutual
/-- Whether a value has, at any depth, a string value with three consecutive
backticks. -/
def hasFence : JSVal → Bool
  | .str s => decide (fence <:+: s)
  | .arr xs => hasFenceList xs
  | .obj ps => hasFenceProps ps
  | _ => false
/-- Whether an element has a string value with three consecutive backticks. -/
def hasFenceList : List JSVal → Bool
  | [] => false
  | x :: xs => hasFence x || hasFenceList xs
/-- Whether the value of a member has a string with three consecutive backticks. -/
def hasFenceProps : List (Str × JSVal) → Bool
  | [] => false
  | (_, v) :: ps => hasFence v || hasFenceProps ps
end
/-! ## Predicates on texts used in the proofs -/

/-- The text `s` is `r` after a non-empty consumed part that does not end in a backtick. -/
def Consumes (s r : Str) : Prop := ∃ pre c, s = pre ++ c :: r ∧ c ≠ backtick

/-- The text `s` is `r` after a non-empty consumed part that ends in a digit. -/
def EndsDigit (s r : Str) : Prop := ∃ pre c, s = pre ++ c :: r ∧ isDigit c = true

/-- A text that is empty or starts with white space. -/
def Delim (t : Str) : Prop := ∀ c, t.head? = some c → isWs c = true

/-- A text of JSON white space only. -/
def AllWs (w : Str) : Prop := ∀ c ∈ w, isWs c = true

instance (w : Str) : Decidable (AllWs w) :=
  inferInstanceAs (Decidable (∀ c ∈ w, isWs c = true))

/-- A text with no run of three backticks that does not end in a backtick. -/
def TickSafe (a : Str) : Prop := ¬ fence <:+: a ∧ ∀ b, a ≠ b ++ [backtick]

/-- A text that does not continue a number: it is empty or starts with a code
unit that is no digit, no full stop and no exponent mark. -/
def NoCont (r : Str) : Prop :=
  ∀ c, r.head? = some c → isDigit c = false ∧ c ≠ 0x2E ∧ c ≠ 0x65 ∧ c ≠ 0x45

/-- The code units a JSON value can start with. -/
def ValueHead (c : Nat) : Prop :=
  c = 0x7B ∨ c = 0x5B ∨ c = 0x22 ∨ c = 0x2D ∨ isDigit c = true ∨ c = 110 ∨ c = 116 ∨ c = 102


/-- No `\u` escape of the text stands for a code unit of a fence marker (a
backtick or one of the letters of `json`): wherever a reverse solidus, `u`
and four hexadecimal digits stand in the text, the digits denote another
code unit. -/
def EscapeSafe (d : Str) : Prop :=
  ∀ (x : Str) (a b c e : Nat) (y : Str) (u : Nat),
    d = x ++ 0x5C :: 0x75 :: a :: b :: c :: e :: y → hex4 a b c e = some u → u ∉ fenceJson

mutual
/-- The value of a document and the value of the document with the fence
markers deleted from its text: the markers are deleted from every string,
keys included, and the members of an object, in the order of the document
and with repeated keys, are defined anew. -/
inductive Stripped : JSVal → JSVal → Prop where
  | null : Stripped .null .null
  | bool (b : Bool) : Stripped (.bool b) (.bool b)
  | num (n : JNum) : Stripped (.num n) (.num n)
  | str (s : Str) : Stripped (.str s) (.str (cleanedText s))
  | arr (xs ys : List JSVal) : StrippedList xs ys → Stripped (.arr xs) (.arr ys)
  | obj (ms ns : List (Str × JSVal)) : StrippedMembers ms ns →
      Stripped (.obj (mkObject ms)) (.obj (mkObject ns))
/-- Elements and their stripped elements, one by one. -/
inductive StrippedList : List JSVal → List JSVal → Prop where
  | nil : StrippedList [] []
  | cons (x y : JSVal) (xs ys : List JSVal) : Stripped x y → StrippedList xs ys →
      StrippedList (x :: xs) (y :: ys)
/-- Members and their stripped members, one by one. -/
inductive StrippedMembers : List (Str × JSVal) → List (Str × JSVal) → Prop where
  | nil : StrippedMembers [] []
  | cons (k : Str) (v w : JSVal) (ms ns : List (Str × JSVal)) : Stripped v w →
      StrippedMembers ms ns → StrippedMembers ((k, v) :: ms) ((cleanedText k, w) :: ns)
end
/-! ## The JSON grammar

The grammar of ECMA-404, which `JSON.parse` accepts, as a relation between a
text and the value it denotes.  `jsonParse_iff` shows that `jsonParse`
returns a value exactly for the texts of this grammar, and the value the text
denotes. -/

/-- A run of decimal digits. -/
def IsDigits (ds : Str) : Prop := ∀ d ∈ ds, isDigit d = true

/-- The characters between the quotation marks of a JSON string, and the
string they denote: any code unit from U+0020 on other than the quotation
mark and the reverse solidus, a two-character escape, or `\u` and four
hexadecimal digits. -/
inductive JChars : Str → Str → Prop where
  | nil : JChars [] []
  | plain (c : Nat) (t v : Str) : c ≠ 0x22 → c ≠ 0x5C → 0x20 ≤ c → JChars t v →
      JChars (c :: t) (c :: v)
  | escape (e u : Nat) (t v : Str) : e ≠ 0x75 → escapeUnit e = some u → JChars t v →
      JChars (0x5C :: e :: t) (u :: v)
  | unicode (a b c d u : Nat) (t v : Str) : hex4 a b c d = some u → JChars t v →
      JChars (0x5C :: 0x75 :: a :: b :: c :: d :: t) (u :: v)

/-- The integer part of a number: a single zero, or digits that do not start with zero. -/
inductive JInt : Str → Prop where
  | zero : JInt [0x30]
  | nonzero (d : Nat) (ds : Str) : isDigit d = true → d ≠ 0x30 → IsDigits ds → JInt (d :: ds)

/-- The optional fraction of a number and its digits. -/
inductive JFrac : Str → Str → Prop where
  | absent : JFrac [] []
  | digits (ds : Str) : ds ≠ [] → IsDigits ds → JFrac (0x2E :: ds) ds

/-- The optional exponent of a number and its value. -/
inductive JExp : Str → Int → Prop where
  | absent : JExp [] 0
  | unsigned (e : Nat) (ds : Str) : e = 0x65 ∨ e = 0x45 → ds ≠ [] → IsDigits ds →
      JExp (e :: ds) (digitsToNat ds : Int)
  | plus (e : Nat) (ds : Str) : e = 0x65 ∨ e = 0x45 → ds ≠ [] → IsDigits ds →
      JExp (e :: 0x2B :: ds) (digitsToNat ds : Int)
  | minus (e : Nat) (ds : Str) : e = 0x65 ∨ e = 0x45 → ds ≠ [] → IsDigits ds →
      JExp (e :: 0x2D :: ds) (- (digitsToNat ds : Int))

/-- A JSON number and the Number it denotes. -/
inductive JNumber : Str → JNum → Prop where
  | positive (int frac fd ex : Str) (e : Int) : JInt int → JFrac frac fd → JExp ex e →
      JNumber (int ++ frac ++ ex) (mkNum false int fd e)
  | negative (int frac fd ex : Str) (e : Int) : JInt int → JFrac frac fd → JExp ex e →
      JNumber (0x2D :: (int ++ frac ++ ex)) (mkNum true int fd e)

mutual
/-- A JSON value and the value it denotes. -/
inductive JValue : Str → JSVal → Prop where
  | litNull : JValue (utf16 "null") .null
  | litTrue : JValue (utf16 "true") (.bool true)
  | litFalse : JValue (utf16 "false") (.bool false)
  | num (t : Str) (n : JNum) : JNumber t n → JValue t (.num n)
  | str (t v : Str) : JChars t v → JValue (0x22 :: t ++ [0x22]) (.str v)
  | emptyArr (w : Str) : AllWs w → JValue (0x5B :: w ++ [0x5D]) (.arr [])
  | arr (t : Str) (vs : List JSVal) : JElements t vs → JValue (0x5B :: t ++ [0x5D]) (.arr vs)
  | emptyObj (w : Str) : AllWs w → JValue (0x7B :: w ++ [0x7D]) (.obj [])
  | obj (t : Str) (ms : List (Str × JSVal)) : JMembers t ms →
      JValue (0x7B :: t ++ [0x7D]) (.obj (mkObject ms))
/-- The elements of a non-empty array, separated by commas, each with
optional white space around it. -/
inductive JElements : Str → List JSVal → Prop where
  | one (w1 t w2 : Str) (v : JSVal) : AllWs w1 → JValue t v → AllWs w2 →
      JElements (w1 ++ t ++ w2) [v]
  | cons (w1 t w2 rest : Str) (v : JSVal) (vs : List JSVal) : AllWs w1 → JValue t v →
      AllWs w2 → JElements rest vs → JElements (w1 ++ t ++ w2 ++ 0x2C :: rest) (v :: vs)
/-- The members of a non-empty object in source order, separated by commas:
a string, a colon and a value, with optional white space around each. -/
inductive JMembers : Str → List (Str × JSVal) → Prop where
  | one (w1 kt k w2 w3 t w4 : Str) (v : JSVal) : AllWs w1 → JChars kt k → AllWs w2 →
      AllWs w3 → JValue t v → AllWs w4 →
      JMembers (w1 ++ 0x22 :: kt ++ 0x22 :: w2 ++ 0x3A :: w3 ++ t ++ w4) [(k, v)]
  | cons (w1 kt k w2 w3 t w4 rest : Str) (v : JSVal) (ms : List (Str × JSVal)) : AllWs w1 →
      JChars kt k → AllWs w2 → AllWs w3 → JValue t v → AllWs w4 → JMembers rest ms →
      JMembers (w1 ++ 0x22 :: kt ++ 0x22 :: w2 ++ 0x3A :: w3 ++ t ++ w4 ++ 0x2C :: rest)
        ((k, v) :: ms)
end

/-- A well-formed JSON text and the value it denotes: one value with
optional white space around it. -/
def JSONText (s : Str) (v : JSVal) : Prop :=
  ∃ w1 t w2, AllWs w1 ∧ JValue t v ∧ AllWs w2 ∧ s = w1 ++ t ++ w2


/-! ## Fence removal -/

theorem removeAllAux_skip (pat : Str) (k : Nat) (s : Str) :
    removeAllAux pat k s = removeAllAux pat 0 (s.drop k) := by
  induction s generalizing k with
  | nil => cases k <;> simp [removeAllAux]
  | cons c cs ih =>
    cases k with
    | zero => simp
    | succ k => simp only [removeAllAux, List.drop_succ_cons]; exact ih k

theorem removeAll_nil (pat : Str) : removeAll pat [] = [] := by
  simp [removeAll, removeAllAux]

theorem removeAll_cons_of_match (pat : Str) (c : Nat) (cs : Str)
    (h : pat.isPrefixOf (c :: cs) = true) :
    removeAll pat (c :: cs) = removeAll pat (cs.drop (pat.length - 1)) := by
  simp only [removeAll, removeAllAux, h, if_true]
  exact removeAllAux_skip pat _ cs

theorem removeAll_cons_of_not_match (pat : Str) (c : Nat) (cs : Str)
    (h : pat.isPrefixOf (c :: cs) = false) :
    removeAll pat (c :: cs) = c :: removeAll pat cs := by
  simp [removeAll, removeAllAux, h]

theorem fence_isPrefixOf_iff (s : Str) :
    fence.isPrefixOf s = true ↔ ∃ t, s = backtick :: backtick :: backtick :: t := by
  constructor
  · intro h
    rw [List.isPrefixOf_iff_prefix] at h
    obtain ⟨t, ht⟩ := h
    exact ⟨t, by simpa [fence] using ht.symm⟩
  · rintro ⟨t, rfl⟩
    rw [List.isPrefixOf_iff_prefix]
    exact ⟨t, by simp [fence]⟩

/-- The head of the text left by the removal of the fence markers is a
backtick only if the head of the text is one. -/
theorem head_removeAll_fence (s : Str) (r : Str)
    (h : removeAll fence s = backtick :: r) : ∃ t, s = backtick :: t := by
  cases s with
  | nil => simp [removeAll_nil] at h
  | cons c cs =>
    cases hm : fence.isPrefixOf (c :: cs) with
    | true =>
      obtain ⟨t, ht⟩ := (fence_isPrefixOf_iff _).1 hm
      exact ⟨_, ht⟩
    | false =>
      rw [removeAll_cons_of_not_match _ _ _ hm] at h
      simp only [List.cons.injEq] at h
      exact ⟨cs, by rw [h.1]⟩

theorem removeAll_fence_no_fence_aux (n : Nat) :
    ∀ s : Str, s.length ≤ n → ¬ fence <:+: removeAll fence s := by
  induction n with
  | zero =>
    intro s hs
    have : s = [] := List.length_eq_zero.1 (Nat.le_zero.1 hs)
    subst this
    rw [removeAll_nil]
    intro h
    have := List.IsInfix.length_le h
    simp [fence] at this
  | succ n ih =>
    intro s hs
    cases s with
    | nil =>
      rw [removeAll_nil]
      intro h
      have := List.IsInfix.length_le h
      simp [fence] at this
    | cons c cs =>
      cases hm : fence.isPrefixOf (c :: cs) with
      | true =>
        rw [removeAll_cons_of_match _ _ _ hm]
        apply ih
        simp only [List.length_cons] at hs
        have := List.length_drop (fence.length - 1) cs
        omega
      | false =>
        rw [removeAll_cons_of_not_match _ _ _ hm]
        have ihc : ¬ fence <:+: removeAll fence cs := ih cs (by simpa using hs)
        rw [List.infix_cons_iff]
        rintro (hp | hi)
        · obtain ⟨t, ht⟩ := hp
          have ht2 : backtick :: backtick :: backtick :: t = c :: removeAll fence cs := ht
          injection ht2 with hc ht2
          obtain ⟨t1, h1⟩ := head_removeAll_fence cs _ ht2.symm
          subst h1
          cases hm1 : fence.isPrefixOf (backtick :: t1) with
          | true =>
            obtain ⟨t2, h2⟩ := (fence_isPrefixOf_iff _).1 hm1
            injection h2 with _ h2
            have : fence.isPrefixOf (c :: backtick :: t1) = true := by
              rw [fence_isPrefixOf_iff]
              exact ⟨backtick :: t2, by rw [← hc, h2]⟩
            rw [this] at hm
            cases hm
          | false =>
            rw [removeAll_cons_of_not_match _ _ _ hm1] at ht2
            injection ht2 with _ ht3
            obtain ⟨t2, h2⟩ := head_removeAll_fence t1 _ ht3.symm
            subst h2
            have : fence.isPrefixOf (c :: backtick :: backtick :: t2) = true := by
              rw [fence_isPrefixOf_iff]
              exact ⟨t2, by rw [← hc]⟩
            rw [this] at hm
            cases hm
        · exact ihc hi

theorem removeAll_fence_no_fence (s : Str) : ¬ fence <:+: removeAll fence s :=
  removeAll_fence_no_fence_aux s.length s (Nat.le_refl _)

/-! ## Lexical lemmas of the parser -/

theorem takeDigits_append (s : Str) : (takeDigits s).1 ++ (takeDigits s).2 = s := by
  induction s with
  | nil => rfl
  | cons c cs ih =>
    simp only [takeDigits]
    split
    · simp [ih]
    · simp

theorem takeDigits_digits (s : Str) : ∀ d ∈ (takeDigits s).1, isDigit d = true := by
  induction s with
  | nil => simp [takeDigits]
  | cons c cs ih =>
    simp only [takeDigits]
    split
    · intro d hd
      simp only [List.mem_cons] at hd
      rcases hd with rfl | hd
      · assumption
      · exact ih d hd
    · simp


theorem parseString_consumes : ∀ (s v r : Str), parseString s = some (v, r) →
    ∃ pre, s = pre ++ 0x22 :: r := by
  intro s
  induction s using parseString.induct with
  | case1 => intro v r h; simp [parseString] at h
  | case2 cs => intro v r h; unfold parseString at h; simp at h; exact ⟨[], by simp [h.2]⟩
  | case3 => intro v r h; unfold parseString at h; simp at h
  | case4 a b c2 d rest3 j hj v0 r0 h0 _ ih =>
    intro v r h
    unfold parseString at h
    simp [hj, h0] at h
    obtain ⟨pre, hp⟩ := ih v0 r0 h0
    exact ⟨92 :: 117 :: a :: b :: c2 :: d :: pre, by simp [hp, h.2]⟩
  | case5 a b c2 d rest3 j hj h0 _ ih =>
    intro v r h; unfold parseString at h; simp [hj, h0] at h
  | case6 a b c2 d rest3 hj _ => intro v r h; unfold parseString at h; simp [hj] at h
  | case7 rest2 hn _ =>
    intro v r h
    unfold parseString at h
    simp only [show ¬ (92 = 34) by decide, if_false, if_true] at h
    cases h
  | case8 e rest2 he j hj v0 r0 h0 _ ih =>
    intro v r h
    unfold parseString at h
    simp [he, hj, h0] at h
    obtain ⟨pre, hp⟩ := ih v0 r0 h0
    exact ⟨92 :: e :: pre, by simp [hp, h.2]⟩
  | case9 e rest2 he j hj h0 _ ih =>
    intro v r h; unfold parseString at h; simp [he, hj, h0] at h
  | case10 e rest2 he hj _ => intro v r h; unfold parseString at h; simp [he, hj] at h
  | case11 c cs h1 h2 h3 => intro v r h; unfold parseString at h; simp [h1, h2, h3] at h
  | case12 c cs h1 h2 h3 v0 r0 h0 ih =>
    intro v r h
    unfold parseString at h
    simp [h1, h2, h3, h0] at h
    obtain ⟨pre, hp⟩ := ih v0 r0 h0
    exact ⟨c :: pre, by simp [hp, h.2]⟩
  | case13 c cs h1 h2 h3 h0 ih =>
    intro v r h; unfold parseString at h; simp [h1, h2, h3, h0] at h

theorem Consumes.of_append {s r : Str} (p : Str) (h : Consumes s r) : Consumes (p ++ s) r := by
  obtain ⟨pre, c, hs, hc⟩ := h
  exact ⟨p ++ pre, c, by simp [hs], hc⟩

theorem Consumes.of_cons {s r : Str} (a : Nat) (h : Consumes s r) : Consumes (a :: s) r :=
  Consumes.of_append [a] h

theorem Consumes.trans {s r t : Str} (h1 : Consumes s r) (h2 : Consumes r t) : Consumes s t := by
  obtain ⟨pre, c, hs, _⟩ := h1
  rw [hs]
  have := Consumes.of_append (pre ++ [c]) h2
  simpa using this

theorem Consumes.length_lt {s r : Str} (h : Consumes s r) : r.length < s.length := by
  obtain ⟨pre, c, hs, _⟩ := h
  simp [hs]; omega

theorem skipWs_spec (s : Str) : ∃ w, s = w ++ skipWs s ∧ ∀ c ∈ w, isWs c = true := by
  induction s with
  | nil => exact ⟨[], rfl, by simp⟩
  | cons c cs ih =>
    simp only [skipWs]
    split
    · obtain ⟨w, hw, hall⟩ := ih
      refine ⟨c :: w, by simp [← hw], ?_⟩
      intro d hd
      simp only [List.mem_cons] at hd
      rcases hd with rfl | hd
      · assumption
      · exact hall d hd
    · exact ⟨[], rfl, by simp⟩

theorem Consumes.of_skipWs {s r : Str} (h : Consumes (skipWs s) r) : Consumes s r := by
  obtain ⟨w, hw, _⟩ := skipWs_spec s
  rw [hw]
  exact Consumes.of_append w h

theorem expectLit_spec (lit s r : Str) (h : expectLit lit s = some r) : s = lit ++ r := by
  unfold expectLit at h
  split at h
  · next hp =>
    rw [List.isPrefixOf_iff_prefix] at hp
    obtain ⟨t, ht⟩ := hp
    simp only [Option.some.injEq] at h
    rw [← h, ← ht]; simp
  · cases h

theorem EndsDigit.digit_trans {s r t : Str} (h1 : EndsDigit s r) (h2 : EndsDigit r t) :
    EndsDigit s t := by
  obtain ⟨pre, c, hs, _⟩ := h1
  obtain ⟨pre2, c2, hr, hc2⟩ := h2
  exact ⟨pre ++ c :: pre2, c2, by simp [hs, hr], hc2⟩

theorem EndsDigit.digit_cons {s r : Str} (a : Nat) (h : EndsDigit s r) : EndsDigit (a :: s) r := by
  obtain ⟨pre, c, hs, hc⟩ := h
  exact ⟨a :: pre, c, by simp [hs], hc⟩

theorem EndsDigit.consumes {s r : Str} (h : EndsDigit s r) : Consumes s r := by
  obtain ⟨pre, c, hs, hc⟩ := h
  refine ⟨pre, c, hs, ?_⟩
  rintro rfl
  revert hc
  decide

theorem takeDigits_endsDigit (s : Str) (h : (takeDigits s).1 ≠ []) :
    EndsDigit s (takeDigits s).2 := by
  induction s with
  | nil => simp [takeDigits] at h
  | cons c cs ih =>
    simp only [takeDigits] at h ⊢
    split
    · next hc =>
      by_cases hcs : (takeDigits cs).1 = []
      · refine ⟨[], c, ?_, hc⟩
        have := takeDigits_append cs
        rw [hcs] at this
        simp only [List.nil_append] at this ⊢
        rw [this]
      · exact EndsDigit.digit_cons c (ih hcs)
    · next hc => simp [hc] at h

theorem takeDigits_cons_endsDigit (c : Nat) (cs : Str) (hc : isDigit c = true) :
    EndsDigit (c :: cs) (takeDigits cs).2 := by
  have := takeDigits_endsDigit (c :: cs) (by simp [takeDigits, hc])
  simpa [takeDigits, hc] using this

theorem parseInt_endsDigit (s ds r : Str) (h : parseInt s = some (ds, r)) : EndsDigit s r := by
  unfold parseInt at h
  split at h
  · cases h
  · next c cs =>
    split at h
    · next h0 =>
      simp only [Option.some.injEq, Prod.mk.injEq] at h
      exact ⟨[], c, by simp [h.2], by subst h0; decide⟩
    · split at h
      · next hd =>
        simp only [Option.some.injEq, Prod.mk.injEq] at h
        rw [← h.2]
        exact takeDigits_cons_endsDigit c cs hd
      · cases h

theorem parseFrac_endsDigit (s ds r : Str) (h : parseFrac s = some (ds, r)) :
    r = s ∨ EndsDigit s r := by
  unfold parseFrac at h
  split at h
  · simp only [Option.some.injEq, Prod.mk.injEq] at h
    exact Or.inl h.2.symm
  · next c cs =>
    split at h
    · split at h
      · cases h
      · next hne =>
        simp only [Option.some.injEq, Prod.mk.injEq] at h
        rw [← h.2]
        exact Or.inr (EndsDigit.digit_cons c (takeDigits_endsDigit cs hne))
    · simp only [Option.some.injEq, Prod.mk.injEq] at h
      exact Or.inl h.2.symm

theorem parseExpDigits_endsDigit (neg : Bool) (s : Str) (e : Int) (r : Str)
    (h : parseExpDigits neg s = some (e, r)) : EndsDigit s r := by
  unfold parseExpDigits at h
  split at h
  · cases h
  · next hne =>
    simp only [Option.some.injEq, Prod.mk.injEq] at h
    rw [← h.2]
    exact takeDigits_endsDigit s hne

theorem parseExp_endsDigit (s : Str) (e : Int) (r : Str) (h : parseExp s = some (e, r)) :
    r = s ∨ EndsDigit s r := by
  unfold parseExp at h
  split at h
  · simp only [Option.some.injEq, Prod.mk.injEq] at h
    exact Or.inl h.2.symm
  · next c cs =>
    split at h
    · split at h
      · cases h
      · next d ds =>
        split at h
        · exact Or.inr (EndsDigit.digit_cons c (EndsDigit.digit_cons d
            (parseExpDigits_endsDigit _ _ _ _ h)))
        · split at h
          · exact Or.inr (EndsDigit.digit_cons c (EndsDigit.digit_cons d
              (parseExpDigits_endsDigit _ _ _ _ h)))
          · exact Or.inr (EndsDigit.digit_cons c (parseExpDigits_endsDigit _ _ _ _ h))
    · simp only [Option.some.injEq, Prod.mk.injEq] at h
      exact Or.inl h.2.symm

theorem parseNumber_endsDigit (s : Str) (n : JNum) (r : Str)
    (h : parseNumber s = some (n, r)) : EndsDigit s r := by
  unfold parseNumber at h
  simp only at h
  split at h
  · cases h
  · next int s2 hint =>
    split at h
    · cases h
    · next frac s3 hfrac =>
      split at h
      · cases h
      · next e s4 hexp =>
        simp only [Option.some.injEq, Prod.mk.injEq] at h
        rw [← h.2]
        have h1 : EndsDigit s s2 := by
          have := parseInt_endsDigit _ _ _ hint
          split at this
          · next hneg =>
            cases s with
            | nil => simp at hneg
            | cons a t => exact EndsDigit.digit_cons a (by simpa using this)
          · exact this
        have h2 : EndsDigit s s3 := by
          rcases parseFrac_endsDigit _ _ _ hfrac with h | h
          · rw [h]; exact h1
          · exact h1.digit_trans h
        rcases parseExp_endsDigit _ _ _ hexp with h | h
        · rw [h]; exact h2
        · exact h2.digit_trans h

theorem parseString_consumes_quote (s v r : Str) (h : parseString s = some (v, r)) :
    Consumes (0x22 :: s) r := by
  obtain ⟨pre, hp⟩ := parseString_consumes s v r h
  exact ⟨0x22 :: pre, 0x22, by simp [hp], by decide⟩

theorem expectLit_consumes (lit s r : Str) (h : expectLit lit s = some r)
    (hl : ∃ p c, lit = p ++ [c] ∧ c ≠ backtick) : Consumes s r := by
  obtain ⟨p, c, hlit, hc⟩ := hl
  refine ⟨p, c, ?_, hc⟩
  rw [expectLit_spec lit s r h, hlit]
  simp

theorem parse_consumes (f : Nat) :
    (∀ s v r, parseValue f s = .ok v r → Consumes s r) ∧
    (∀ s vs r, parseElements f s = .ok vs r → Consumes s r) ∧
    (∀ s ms r, parseMembers f s = .ok ms r → Consumes s r) := by
  induction f with
  | zero =>
    refine ⟨?_, ?_, ?_⟩ <;> intro s v r h
    · simp [parseValue] at h
    · simp [parseElements] at h
    · simp [parseMembers] at h
  | succ f ih =>
    obtain ⟨ihv, ihe, ihm⟩ := ih
    refine ⟨?_, ?_, ?_⟩
    · intro s v r h
      unfold parseValue at h
      split at h
      · cases h
      · next c rest =>
        split at h
        · -- object
          split at h
          · cases h
          · next d rest2 hsk =>
            split at h
            · simp only [PResult.ok.injEq] at h
              apply Consumes.of_cons
              apply Consumes.of_skipWs
              rw [hsk, ← h.2]
              exact ⟨[], d, rfl, by subst_vars; decide⟩
            · split at h
              · next ms r2 hm =>
                simp only [PResult.ok.injEq] at h
                apply Consumes.of_cons
                apply Consumes.of_skipWs
                rw [hsk, ← h.2]
                exact ihm _ _ _ hm
              · cases h
              · cases h
        · split at h
          · -- array
            split at h
            · cases h
            · next d rest2 hsk =>
              split at h
              · simp only [PResult.ok.injEq] at h
                apply Consumes.of_cons
                apply Consumes.of_skipWs
                rw [hsk, ← h.2]
                exact ⟨[], d, rfl, by subst_vars; decide⟩
              · split at h
                · next vs r2 hm =>
                  simp only [PResult.ok.injEq] at h
                  apply Consumes.of_cons
                  apply Consumes.of_skipWs
                  rw [hsk, ← h.2]
                  exact ihe _ _ _ hm
                · cases h
                · cases h
          · split at h
            · -- string
              split at h
              · next v2 r2 hs =>
                simp only [PResult.ok.injEq] at h
                rw [← h.2]
                have := parseString_consumes_quote _ _ _ hs
                subst_vars
                exact this
              · cases h
            · split at h
              · -- number
                split at h
                · next n r2 hn =>
                  simp only [PResult.ok.injEq] at h
                  rw [← h.2]
                  exact (parseNumber_endsDigit _ _ _ hn).consumes
                · cases h
              · -- literals
                split at h
                · next r2 hl =>
                  simp only [PResult.ok.injEq] at h
                  rw [← h.2]
                  exact expectLit_consumes _ _ _ hl ⟨utf16 "tru", 0x65, by decide, by decide⟩
                · split at h
                  · next r2 hl =>
                    simp only [PResult.ok.injEq] at h
                    rw [← h.2]
                    exact expectLit_consumes _ _ _ hl ⟨utf16 "fals", 0x65, by decide, by decide⟩
                  · split at h
                    · next r2 hl =>
                      simp only [PResult.ok.injEq] at h
                      rw [← h.2]
                      exact expectLit_consumes _ _ _ hl ⟨utf16 "nul", 0x6C, by decide, by decide⟩
                    · cases h
    · intro s vs r h
      unfold parseElements at h
      split at h
      · next v r1 hv =>
        have hc1 := ihv _ _ _ hv
        split at h
        · cases h
        · next d r2 hsk =>
          split at h
          · split at h
            · next vs2 r3 he =>
              simp only [PResult.ok.injEq] at h
              rw [← h.2]
              refine hc1.trans (Consumes.of_skipWs ?_)
              rw [hsk]
              exact Consumes.of_cons d (Consumes.of_skipWs (ihe _ _ _ he))
            · cases h
            · cases h
          · split at h
            · simp only [PResult.ok.injEq] at h
              rw [← h.2]
              refine hc1.trans (Consumes.of_skipWs ?_)
              rw [hsk]
              exact ⟨[], d, rfl, by subst_vars; decide⟩
            · cases h
      · cases h
      · cases h
    · intro s ms r h
      unfold parseMembers at h
      split at h
      · cases h
      · next q s1 =>
        split at h
        · split at h
          · cases h
          · next k s2 hk =>
            have hc0 : Consumes (q :: s1) s2 := by
              have := parseString_consumes_quote _ _ _ hk
              subst_vars
              exact this
            split at h
            · cases h
            · next col s3 hsk =>
              split at h
              · split at h
                · next v s4 hv =>
                  have hc1 : Consumes (q :: s1) s4 := by
                    refine hc0.trans (Consumes.of_skipWs ?_)
                    rw [hsk]
                    exact Consumes.of_cons col (Consumes.of_skipWs (ihv _ _ _ hv))
                  split at h
                  · cases h
                  · next d s5 hsk2 =>
                    split at h
                    · split at h
                      · next ms2 r3 hm =>
                        simp only [PResult.ok.injEq] at h
                        rw [← h.2]
                        refine hc1.trans (Consumes.of_skipWs ?_)
                        rw [hsk2]
                        exact Consumes.of_cons d (Consumes.of_skipWs (ihm _ _ _ hm))
                      · cases h
                      · cases h
                    · split at h
                      · simp only [PResult.ok.injEq] at h
                        rw [← h.2]
                        refine hc1.trans (Consumes.of_skipWs ?_)
                        rw [hsk2]
                        exact ⟨[], d, rfl, by subst_vars; decide⟩
                      · cases h
                · cases h
                · cases h
              · cases h
        · cases h

theorem parse_mono (f : Nat) :
    (∀ s v r, parseValue f s = .ok v r → parseValue (f + 1) s = .ok v r) ∧
    (∀ s vs r, parseElements f s = .ok vs r → parseElements (f + 1) s = .ok vs r) ∧
    (∀ s ms r, parseMembers f s = .ok ms r → parseMembers (f + 1) s = .ok ms r) := by
  induction f with
  | zero =>
    refine ⟨?_, ?_, ?_⟩ <;> intro s v r h
    · simp [parseValue] at h
    · simp [parseElements] at h
    · simp [parseMembers] at h
  | succ f ih =>
    obtain ⟨ihv, ihe, ihm⟩ := ih
    refine ⟨?_, ?_, ?_⟩
    · intro s v r h
      unfold parseValue at h
      split at h
      · cases h
      · next c rest =>
        split at h
        · -- object
          split at h
          · cases h
          · next d rest2 hsk =>
            split at h
            · unfold parseValue; simp [*]
            · split at h
              · next ms r2 hm =>
                unfold parseValue; simp [*, ihm _ _ _ hm]
              · cases h
              · cases h
        · split at h
          · -- array
            split at h
            · cases h
            · next d rest2 hsk =>
              split at h
              · unfold parseValue; simp [*]
              · split at h
                · next vs r2 hm =>
                  unfold parseValue; simp [*, ihe _ _ _ hm]
                · cases h
                · cases h
          · split at h
            · -- string
              split at h
              · unfold parseValue; simp [*]
              · cases h
            · split at h
              · -- number
                split at h
                · unfold parseValue; simp [*]
                · cases h
              · -- literals
                split at h
                · unfold parseValue; simp [*]
                · split at h
                  · unfold parseValue; simp [*]
                  · split at h
                    · unfold parseValue; simp [*]
                    · cases h
    · intro s vs r h
      unfold parseElements at h
      split at h
      · next v r1 hv =>
        split at h
        · cases h
        · next d r2 hsk =>
          split at h
          · split at h
            · next vs2 r3 he =>
              unfold parseElements; simp [*, ihv _ _ _ hv, ihe _ _ _ he]
            · cases h
            · cases h
          · split at h
            · unfold parseElements; simp [*, ihv _ _ _ hv]
            · cases h
      · cases h
      · cases h
    · intro s ms r h
      unfold parseMembers at h
      split at h
      · cases h
      · next q s1 =>
        split at h
        · split at h
          · cases h
          · next k s2 hk =>
            split at h
            · cases h
            · next col s3 hsk =>
              split at h
              · split at h
                · next v s4 hv =>
                  split at h
                  · cases h
                  · next d s5 hsk2 =>
                    split at h
                    · split at h
                      · next ms2 r3 hm =>
                        unfold parseMembers; simp [*, ihv _ _ _ hv, ihm _ _ _ hm]
                      · cases h
                      · cases h
                    · split at h
                      · unfold parseMembers; simp [*, ihv _ _ _ hv]
                      · cases h
                · cases h
                · cases h
              · cases h
        · cases h

theorem parseValue_mono {f g : Nat} (hfg : f ≤ g) {s : Str} {v : JSVal} {r : Str}
    (h : parseValue f s = .ok v r) : parseValue g s = .ok v r := by
  induction hfg with
  | refl => exact h
  | step _ ih => exact (parse_mono _).1 _ _ _ ih

/-! ### Appending text after a parsed value -/

theorem isWs_cases {c : Nat} (h : isWs c = true) : c = 0x09 ∨ c = 0x0A ∨ c = 0x0D ∨ c = 0x20 := by
  simp only [isWs, Bool.or_eq_true, beq_iff_eq] at h
  omega

theorem skipWs_append_of_cons {s : Str} {d : Nat} {r : Str} (h : skipWs s = d :: r) (t : Str) :
    skipWs (s ++ t) = d :: (r ++ t) := by
  induction s with
  | nil => simp [skipWs] at h
  | cons c cs ih =>
    simp only [skipWs, List.cons_append] at h ⊢
    split
    · next hc => rw [if_pos hc] at h; exact ih h
    · next hc =>
      rw [if_neg hc] at h
      injection h with h1 h2
      rw [h1, h2]
      rfl

theorem parseString_append : ∀ (s v r : Str), parseString s = some (v, r) →
    ∀ t, parseString (s ++ t) = some (v, r ++ t) := by
  intro s
  induction s using parseString.induct with
  | case1 => intro v r h; simp [parseString] at h
  | case2 cs =>
    intro v r h t
    unfold parseString at h
    simp at h
    simp only [List.cons_append]
    unfold parseString
    simp [h]
  | case3 => intro v r h; unfold parseString at h; simp at h
  | case4 a b c2 d rest3 j hj v0 r0 h0 _ ih =>
    intro v r h t
    unfold parseString at h
    simp [hj, h0] at h
    have := ih v0 r0 h0 t
    simp only [List.cons_append]
    unfold parseString
    simp [hj, this, h]
  | case5 a b c2 d rest3 j hj h0 _ ih =>
    intro v r h; unfold parseString at h; simp [hj, h0] at h
  | case6 a b c2 d rest3 hj _ => intro v r h; unfold parseString at h; simp [hj] at h
  | case7 rest2 hn _ =>
    intro v r h
    unfold parseString at h
    simp only [show ¬ (92 = 34) by decide, if_false, if_true] at h
    cases h
  | case8 e rest2 he j hj v0 r0 h0 _ ih =>
    intro v r h t
    unfold parseString at h
    simp [he, hj, h0] at h
    have := ih v0 r0 h0 t
    simp only [List.cons_append]
    unfold parseString
    simp [he, hj, this, h]
  | case9 e rest2 he j hj h0 _ ih =>
    intro v r h; unfold parseString at h; simp [he, hj, h0] at h
  | case10 e rest2 he hj _ => intro v r h; unfold parseString at h; simp [he, hj] at h
  | case11 c cs h1 h2 h3 => intro v r h; unfold parseString at h; simp [h1, h2, h3] at h
  | case12 c cs h1 h2 h3 v0 r0 h0 ih =>
    intro v r h t
    unfold parseString at h
    simp [h1, h2, h3, h0] at h
    have := ih v0 r0 h0 t
    simp only [List.cons_append]
    unfold parseString
    simp [h1, h2, h3, this, h]
  | case13 c cs h1 h2 h3 h0 ih =>
    intro v r h; unfold parseString at h; simp [h1, h2, h3, h0] at h

theorem takeDigits_of_delim {t : Str} (ht : Delim t) : takeDigits t = ([], t) := by
  cases t with
  | nil => rfl
  | cons c cs =>
    have hc := isWs_cases (ht c rfl)
    simp only [takeDigits]
    rcases hc with rfl | rfl | rfl | rfl <;> rfl

theorem takeDigits_append_delim (s : Str) {t : Str} (ht : Delim t) :
    takeDigits (s ++ t) = ((takeDigits s).1, (takeDigits s).2 ++ t) := by
  induction s with
  | nil => simp [takeDigits_of_delim ht, takeDigits]
  | cons c cs ih =>
    simp only [List.cons_append, takeDigits]
    split
    · simp [ih]
    · simp

theorem expectLit_append {lit s r : Str} (h : expectLit lit s = some r) (t : Str) :
    expectLit lit (s ++ t) = some (r ++ t) := by
  have hs := expectLit_spec lit s r h
  subst hs
  unfold expectLit
  have : lit.isPrefixOf (lit ++ r ++ t) = true := by
    rw [List.isPrefixOf_iff_prefix]
    exact ⟨r ++ t, by simp⟩
  simp [this]

theorem delim_head_ne {t : Str} (ht : Delim t) (x : Nat) (hx : isWs x = false) (cs : Str) :
    t ≠ x :: cs := by
  rintro rfl
  have := ht x rfl
  rw [hx] at this
  cases this

theorem parseInt_append {s ds r : Str} (h : parseInt s = some (ds, r)) {t : Str}
    (ht : Delim t) : parseInt (s ++ t) = some (ds, r ++ t) := by
  unfold parseInt at h
  split at h
  · cases h
  · next c cs =>
    simp only [List.cons_append]
    unfold parseInt
    simp only
    split at h
    · next h0 => simp only [Option.some.injEq, Prod.mk.injEq] at h; simp [h0, h.1.symm, h.2.symm]
    · next h0 =>
      split at h
      · next hd =>
        simp only [Option.some.injEq, Prod.mk.injEq] at h
        simp [h0, hd, takeDigits_append_delim cs ht, h.1.symm, h.2.symm]
      · cases h

theorem parseFrac_append {s ds r : Str} (h : parseFrac s = some (ds, r)) {t : Str}
    (ht : Delim t) : parseFrac (s ++ t) = some (ds, r ++ t) := by
  unfold parseFrac at h
  split at h
  · simp only [Option.some.injEq, Prod.mk.injEq] at h
    simp only [List.nil_append, ← h.1, ← h.2]
    unfold parseFrac
    split
    · rfl
    · next c cs =>
      have := delim_head_ne ht 0x2E (by decide) cs
      split
      · next hc => subst hc; exact absurd rfl this
      · rfl
  · next c cs =>
    simp only [List.cons_append]
    unfold parseFrac
    simp only
    split at h
    · next hc =>
      split at h
      · cases h
      · next hne =>
        simp only [Option.some.injEq, Prod.mk.injEq] at h
        simp [hc, takeDigits_append_delim cs ht, hne, h.1.symm, h.2.symm]
    · next hc =>
      simp only [Option.some.injEq, Prod.mk.injEq] at h
      simp [hc, h.1.symm, h.2.symm]

theorem parseExpDigits_append {neg : Bool} {s : Str} {e : Int} {r : Str}
    (h : parseExpDigits neg s = some (e, r)) {t : Str} (ht : Delim t) :
    parseExpDigits neg (s ++ t) = some (e, r ++ t) := by
  unfold parseExpDigits at h ⊢
  split at h
  · cases h
  · next hne =>
    simp only [Option.some.injEq, Prod.mk.injEq] at h
    simp [takeDigits_append_delim s ht, hne, h.1.symm, h.2.symm]

theorem parseExp_append {s : Str} {e : Int} {r : Str} (h : parseExp s = some (e, r)) {t : Str}
    (ht : Delim t) : parseExp (s ++ t) = some (e, r ++ t) := by
  unfold parseExp at h
  split at h
  · simp only [Option.some.injEq, Prod.mk.injEq] at h
    simp only [List.nil_append, ← h.1, ← h.2]
    unfold parseExp
    split
    · rfl
    · next c cs =>
      have h1 := delim_head_ne ht 0x65 (by decide) cs
      have h2 := delim_head_ne ht 0x45 (by decide) cs
      split
      · next hc =>
        rcases hc with hc | hc
        · subst hc; exact absurd rfl h1
        · subst hc; exact absurd rfl h2
      · rfl
  · next c cs =>
    simp only [List.cons_append]
    unfold parseExp
    simp only
    split at h
    · next hc =>
      split at h
      · cases h
      · next d ds =>
        simp only [List.cons_append, if_pos hc]
        split at h
        · next hd => simp [hd, parseExpDigits_append h ht]
        · next hd =>
          split at h
          · next hd2 => simp [hd, hd2, parseExpDigits_append h ht]
          · next hd2 =>
            have := parseExpDigits_append h ht
            simp only [List.cons_append] at this
            simp [hd, hd2, this]
    · next hc =>
      simp only [Option.some.injEq, Prod.mk.injEq] at h
      simp [hc, h.1.symm, h.2.symm]

theorem parseNumber_append {c : Nat} {cs : Str} {n : JNum} {r : Str}
    (h : parseNumber (c :: cs) = some (n, r)) {t : Str} (ht : Delim t) :
    parseNumber (c :: (cs ++ t)) = some (n, r ++ t) := by
  unfold parseNumber at h ⊢
  simp only [List.head?_cons, List.tail_cons] at h ⊢
  have key : (if (some c = some 45) then cs ++ t else c :: (cs ++ t))
      = (if (some c = some 45) then cs else c :: cs) ++ t := by
    split <;> simp
  rw [key]
  split at h
  · cases h
  · next int s2 hint =>
    rw [parseInt_append hint ht]
    simp only
    split at h
    · cases h
    · next frac s3 hfrac =>
      rw [parseFrac_append hfrac ht]
      simp only
      split at h
      · cases h
      · next e s4 hexp =>
        rw [parseExp_append hexp ht]
        simp only [Option.some.injEq, Prod.mk.injEq] at h ⊢
        exact ⟨h.1, by rw [h.2]⟩

theorem expectLit_head {a : Nat} {l : Str} {c : Nat} {x r : Str}
    (h : expectLit (a :: l) (c :: x) = some r) : c = a := by
  have := expectLit_spec _ _ _ h
  simp only [List.cons_append, List.cons.injEq] at this
  exact this.1

theorem expectLit_none_of_head {a : Nat} {l : Str} {c : Nat} (x : Str) (h : c ≠ a) :
    expectLit (a :: l) (c :: x) = none := by
  cases hx : expectLit (a :: l) (c :: x) with
  | none => rfl
  | some r => exact absurd (expectLit_head hx) h

theorem utf16_true : utf16 "true" = [116, 114, 117, 101] := by decide

theorem utf16_false : utf16 "false" = [102, 97, 108, 115, 101] := by decide

theorem utf16_null : utf16 "null" = [110, 117, 108, 108] := by decide

theorem skipWs_append_of_ne {s : Str} (h : skipWs s ≠ []) (t : Str) :
    skipWs (s ++ t) = skipWs s ++ t := by
  cases hs : skipWs s with
  | nil => exact absurd hs h
  | cons d r => rw [skipWs_append_of_cons hs t]; rfl

theorem ne_nil_of_consumes {s r : Str} (h : Consumes s r) : s ≠ [] := by
  rintro rfl
  have := h.length_lt
  simp at this

theorem parse_append (f : Nat) :
    (∀ s v r, parseValue f s = .ok v r →
      ∀ t, Delim t → parseValue f (s ++ t) = .ok v (r ++ t)) ∧
    (∀ s vs r, parseElements f s = .ok vs r →
      ∀ t, Delim t → parseElements f (s ++ t) = .ok vs (r ++ t)) ∧
    (∀ s ms r, parseMembers f s = .ok ms r →
      ∀ t, Delim t → parseMembers f (s ++ t) = .ok ms (r ++ t)) := by
  induction f with
  | zero =>
    refine ⟨?_, ?_, ?_⟩ <;> intro s v r h
    · simp [parseValue] at h
    · simp [parseElements] at h
    · simp [parseMembers] at h
  | succ f ih =>
    obtain ⟨ihv, ihe, ihm⟩ := ih
    refine ⟨?_, ?_, ?_⟩
    · intro s v r h t ht
      unfold parseValue at h
      split at h
      · cases h
      · next c rest =>
        simp only [List.cons_append]
        split at h
        · -- object
          split at h
          · cases h
          · next d rest2 hsk =>
            have hsk2 := skipWs_append_of_cons hsk t
            split at h
            · injection h with h1 h2; subst h1 h2; unfold parseValue; simp [*]
            · split at h
              · next ms r2 hm =>
                have := ihm _ _ _ hm t ht
                simp only [List.cons_append] at this
                injection h with h1 h2; subst h1 h2; unfold parseValue; simp [*]
              · cases h
              · cases h
        · split at h
          · -- array
            split at h
            · cases h
            · next d rest2 hsk =>
              have hsk2 := skipWs_append_of_cons hsk t
              split at h
              · injection h with h1 h2; subst h1 h2; unfold parseValue; simp [*]
              · split at h
                · next vs r2 hm =>
                  have := ihe _ _ _ hm t ht
                  simp only [List.cons_append] at this
                  injection h with h1 h2; subst h1 h2; unfold parseValue; simp [*]
                · cases h
                · cases h
          · split at h
            · -- string
              split at h
              · next v2 r2 hs =>
                have := parseString_append _ _ _ hs t
                injection h with h1 h2; subst h1 h2; unfold parseValue; simp [*]
              · cases h
            · split at h
              · -- number
                split at h
                · next n r2 hn =>
                  have := parseNumber_append hn ht
                  injection h with h1 h2; subst h1 h2; unfold parseValue; simp [*]
                · cases h
              · -- literals
                split at h
                · next r2 hl =>
                  have := expectLit_append hl t
                  simp only [List.cons_append] at this
                  injection h with h1 h2; subst h1 h2; unfold parseValue; simp [*]
                · split at h
                  · next r2 hl =>
                    have := expectLit_append hl t
                    simp only [List.cons_append] at this
                    have hc : c = 102 := by rw [utf16_false] at hl; exact expectLit_head hl
                    have h3 : expectLit (utf16 "true") (c :: (rest ++ t)) = none := by
                      rw [utf16_true]; exact expectLit_none_of_head _ (by omega)
                    clear hc
                    injection h with h1 h2; subst h1 h2; unfold parseValue; simp [*]
                  · split at h
                    · next r2 hl =>
                      have := expectLit_append hl t
                      simp only [List.cons_append] at this
                      have hc : c = 110 := by rw [utf16_null] at hl; exact expectLit_head hl
                      have h3 : expectLit (utf16 "true") (c :: (rest ++ t)) = none := by
                        rw [utf16_true]; exact expectLit_none_of_head _ (by omega)
                      have h4 : expectLit (utf16 "false") (c :: (rest ++ t)) = none := by
                        rw [utf16_false]; exact expectLit_none_of_head _ (by omega)
                      clear hc
                      injection h with h1 h2; subst h1 h2; unfold parseValue; simp [*]
                    · cases h
    · intro s vs r h t ht
      unfold parseElements at h
      split at h
      · next v r1 hv =>
        have h1 := ihv _ _ _ hv t ht
        split at h
        · cases h
        · next d r2 hsk =>
          have hsk2 := skipWs_append_of_cons hsk t
          split at h
          · split at h
            · next vs2 r3 he =>
              have h3 := skipWs_append_of_ne (ne_nil_of_consumes ((parse_consumes f).2.1 _ _ _ he)) t
              have h4 := ihe _ _ _ he t ht
              injection h with h1 h2; subst h1 h2; unfold parseElements; simp [*]
            · cases h
            · cases h
          · split at h
            · injection h with h1 h2; subst h1 h2; unfold parseElements; simp [*]
            · cases h
      · cases h
      · cases h
    · intro s ms r h t ht
      unfold parseMembers at h
      split at h
      · cases h
      · next q s1 =>
        simp only [List.cons_append]
        split at h
        · split at h
          · cases h
          · next k s2 hk =>
            have h0 := parseString_append _ _ _ hk t
            split at h
            · cases h
            · next col s3 hsk =>
              have hsk1 := skipWs_append_of_cons hsk t
              split at h
              · split at h
                · next v s4 hv =>
                  have h3 := skipWs_append_of_ne
                    (ne_nil_of_consumes ((parse_consumes f).1 _ _ _ hv)) t
                  have h4 := ihv _ _ _ hv t ht
                  split at h
                  · cases h
                  · next d s5 hsk2 =>
                    have hsk3 := skipWs_append_of_cons hsk2 t
                    split at h
                    · split at h
                      · next ms2 r3 hm =>
                        have h5 := skipWs_append_of_ne
                          (ne_nil_of_consumes ((parse_consumes f).2.2 _ _ _ hm)) t
                        have h6 := ihm _ _ _ hm t ht
                        injection h with h1 h2; subst h1 h2; unfold parseMembers; simp [*]
                      · cases h
                      · cases h
                    · split at h
                      · injection h with h1 h2; subst h1 h2; unfold parseMembers; simp [*]
                      · cases h
                · cases h
                · cases h
              · cases h
        · cases h

/-! ### White space around a JSON text -/

theorem AllWs.delim {w : Str} (h : AllWs w) : Delim w := by
  intro c hc
  cases w with
  | nil => cases hc
  | cons a t =>
    simp only [List.head?_cons, Option.some.injEq] at hc
    subst hc
    exact h _ (List.mem_cons_self _ _)

theorem skipWs_allWs_append {w : Str} (h : AllWs w) (x : Str) : skipWs (w ++ x) = skipWs x := by
  induction w with
  | nil => rfl
  | cons c cs ih =>
    simp only [List.cons_append, skipWs]
    rw [if_pos (h c (List.mem_cons_self _ _))]
    exact ih (fun d hd => h d (List.mem_cons_of_mem _ hd))

theorem skipWs_allWs {w : Str} (h : AllWs w) : skipWs w = [] := by
  have := skipWs_allWs_append h []
  simpa [skipWs] using this

theorem allWs_of_skipWs_nil {w : Str} (h : skipWs w = []) : AllWs w := by
  obtain ⟨p, hp, hall⟩ := skipWs_spec w
  rw [h, List.append_nil] at hp
  rw [hp]
  exact hall

theorem AllWs.append {a b : Str} (ha : AllWs a) (hb : AllWs b) : AllWs (a ++ b) := by
  intro c hc
  rcases List.mem_append.1 hc with h | h
  · exact ha c h
  · exact hb c h

/-- What `jsonParse` returns, unfolded: a value at the start of the text
after white space, followed by white space only. -/
theorem jsonParse_eq_ok_iff (s : Str) (v : JSVal) :
    jsonParse s = .ok v ↔
      ∃ rest, parseValue (2 * s.length + 1) (skipWs s) = .ok v rest ∧ skipWs rest = [] := by
  unfold jsonParse
  constructor
  · intro h
    split at h
    · next v2 rest hp =>
      split at h
      · next hr =>
        injection h with h
        subst h
        exact ⟨rest, hp, hr⟩
      · cases h
    · cases h
    · cases h
  · rintro ⟨rest, hp, hr⟩
    rw [hp]
    simp [hr]

/-- White space around a well-formed JSON text does not change what
`JSON.parse` returns. -/
theorem jsonParse_pad {s : Str} {v : JSVal} (h : jsonParse s = .ok v) {w1 w2 : Str}
    (h1 : AllWs w1) (h2 : AllWs w2) : jsonParse (w1 ++ s ++ w2) = .ok v := by
  obtain ⟨rest, hp, hr⟩ := (jsonParse_eq_ok_iff s v).1 h
  rw [jsonParse_eq_ok_iff]
  refine ⟨rest ++ w2, ?_, ?_⟩
  · rw [List.append_assoc, skipWs_allWs_append h1,
      skipWs_append_of_ne (ne_nil_of_consumes ((parse_consumes _).1 _ _ _ hp))]
    have := (parse_append _).1 _ _ _ hp w2 h2.delim
    exact parseValue_mono (by simp only [List.length_append]; omega) this
  · exact skipWs_allWs ((allWs_of_skipWs_nil hr).append h2)

/-- A well-formed JSON text does not end in a backtick. -/
theorem jsonParse_last_ne_backtick {s : Str} {v : JSVal} (h : jsonParse s = .ok v) (a : Str) :
    s ≠ a ++ [backtick] := by
  obtain ⟨rest, hp, hr⟩ := (jsonParse_eq_ok_iff s v).1 h
  obtain ⟨pre, c, hs, hc⟩ := (parse_consumes _).1 _ _ _ hp
  obtain ⟨w, hw, _⟩ := skipWs_spec s
  intro hsa
  have hall := allWs_of_skipWs_nil hr
  rw [hs] at hw
  have hlast : (w ++ (pre ++ c :: rest)).getLast? = some backtick := by
    rw [← hw, hsa]; simp
  cases hrest : rest.getLast? with
  | none =>
    have : rest = [] := List.getLast?_eq_none_iff.1 hrest
    subst this
    rw [← List.append_assoc, List.getLast?_append] at hlast
    simp at hlast
    exact hc hlast
  | some x =>
    have hx : x ∈ rest := List.mem_of_getLast?_eq_some hrest
    have : (w ++ (pre ++ c :: rest)).getLast? = some x := by
      have e : w ++ (pre ++ c :: rest) = (w ++ pre ++ [c]) ++ rest := by simp
      rw [e, List.getLast?_append, hrest]
      rfl
    rw [this] at hlast
    injection hlast with hlast
    subst hlast
    have := hall _ hx
    revert this
    decide

/-! ### Fence removal around a text without fence markers -/

theorem TickSafe.tail {c : Nat} {a : Str} (h : TickSafe (c :: a)) : TickSafe a := by
  refine ⟨fun hi => h.1 ?_, fun b hb => h.2 (c :: b) (by rw [hb]; rfl)⟩
  exact List.infix_cons hi

theorem TickSafe.head_no_fence {c : Nat} {a : Str} (h : TickSafe (c :: a)) (b : Str) :
    fence.isPrefixOf (c :: a ++ b) = false := by
  cases hm : fence.isPrefixOf (c :: a ++ b) with
  | false => rfl
  | true =>
    exfalso
    obtain ⟨t, ht⟩ := (fence_isPrefixOf_iff _).1 hm
    simp only [List.cons_append] at ht
    injection ht with hc ht
    subst hc
    cases a with
    | nil => exact h.2 [] rfl
    | cons x a =>
      simp only [List.cons_append] at ht
      injection ht with hx ht
      subst hx
      cases a with
      | nil => exact h.2 [backtick] rfl
      | cons y a =>
        simp only [List.cons_append] at ht
        injection ht with hy ht
        subst hy
        exact h.1 ⟨[], a, rfl⟩

theorem isPrefixOf_false_of_fence {pat : Str} (hpat : fence <+: pat) {x : Str}
    (h : fence.isPrefixOf x = false) : pat.isPrefixOf x = false := by
  cases hp : pat.isPrefixOf x with
  | false => rfl
  | true =>
    rw [List.isPrefixOf_iff_prefix] at hp
    have : fence.isPrefixOf x = true := by
      rw [List.isPrefixOf_iff_prefix]
      exact hpat.trans hp
    rw [this] at h
    cases h

/-- The removal of a pattern that starts with a fence marker leaves a text
without fence markers as it is, and goes on after it. -/
theorem removeAll_append_of_tickSafe {pat : Str} (hpat : fence <+: pat) {a : Str}
    (ha : TickSafe a) (b : Str) : removeAll pat (a ++ b) = a ++ removeAll pat b := by
  induction a with
  | nil => rfl
  | cons c a ih =>
    have hm : pat.isPrefixOf (c :: (a ++ b)) = false :=
      isPrefixOf_false_of_fence hpat (ha.head_no_fence b)
    rw [List.cons_append, removeAll_cons_of_not_match _ _ _ hm, ih ha.tail]
    rfl

theorem removeAll_of_tickSafe {pat : Str} (hpat : fence <+: pat) {a : Str}
    (ha : TickSafe a) : removeAll pat a = a := by
  have := removeAll_append_of_tickSafe hpat ha []
  simpa [removeAll_nil] using this

theorem removeAll_match_append (p : Nat) (ps b : Str) :
    removeAll (p :: ps) (p :: ps ++ b) = removeAll (p :: ps) b := by
  have hm : (p :: ps).isPrefixOf (p :: (ps ++ b)) = true := by
    rw [List.isPrefixOf_iff_prefix]
    exact ⟨b, rfl⟩
  rw [List.cons_append, removeAll_cons_of_match _ _ _ hm]
  simp

theorem AllWs.tickSafe {w : Str} (h : AllWs w) : TickSafe w := by
  constructor
  · rintro ⟨a, b, hab⟩
    have : backtick ∈ w := by rw [← hab]; simp [fence]
    have := h _ this
    revert this
    decide
  · intro b hb
    have : backtick ∈ w := by rw [hb]; simp
    have := h _ this
    revert this
    decide

theorem fence_prefix_fenceJson : fence <+: fenceJson := ⟨utf16 "json", rfl⟩

theorem removeAll_fenceJson_fence_ws {w : Str} (h : AllWs w) :
    removeAll fenceJson (fence ++ w) = fence ++ w := by
  have hw := removeAll_of_tickSafe fence_prefix_fenceJson h.tickSafe
  have hd := h.delim
  cases w with
  | nil => decide
  | cons c cs =>
    have hc := isWs_cases (hd c rfl)
    have e1 : removeAll fenceJson (fence ++ c :: cs)
        = backtick :: backtick :: backtick :: removeAll fenceJson (c :: cs) := by
      simp only [removeAll, removeAllAux, fence, List.cons_append, List.nil_append]
      rcases hc with rfl | rfl | rfl | rfl <;> rfl
    rw [e1, hw]
    rfl

/-- The text `runAgent` parses when the response is a fenced block with
white space around it: the white space and the fenced text. -/
theorem cleanedText_fenced {w1 s w2 : Str} (h1 : AllWs w1) (hs : TickSafe s) (h2 : AllWs w2) :
    cleanedText (w1 ++ fenceJson ++ s ++ fence ++ w2) = w1 ++ s ++ w2 := by
  unfold cleanedText
  have e1 : removeAll fenceJson (w1 ++ fenceJson ++ s ++ fence ++ w2)
      = w1 ++ (s ++ (fence ++ w2)) := by
    have : w1 ++ fenceJson ++ s ++ fence ++ w2 = w1 ++ (fenceJson ++ (s ++ (fence ++ w2))) := by
      simp
    rw [this, removeAll_append_of_tickSafe fence_prefix_fenceJson h1.tickSafe]
    have hj : fenceJson = backtick :: (fenceJson.tail) := rfl
    rw [hj, removeAll_match_append, ← hj,
      removeAll_append_of_tickSafe fence_prefix_fenceJson hs, removeAll_fenceJson_fence_ws h2]
  rw [e1, removeAll_append_of_tickSafe (List.prefix_refl _) h1.tickSafe,
    removeAll_append_of_tickSafe (List.prefix_refl _) hs]
  have hf : fence = backtick :: [backtick, backtick] := rfl
  rw [hf, removeAll_match_append, ← hf, removeAll_of_tickSafe (List.prefix_refl _) h2.tickSafe]
  simp

/-! ## The fuel of the parser is never exhausted -/

theorem skipWs_length_le (s : Str) : (skipWs s).length ≤ s.length := by
  obtain ⟨w, hw, _⟩ := skipWs_spec s
  have := congrArg List.length hw
  simp only [List.length_append] at this
  omega

theorem skipWs_cons_length {s : Str} {d : Nat} {r : Str} (h : skipWs s = d :: r) :
    r.length + 1 ≤ s.length := by
  have := skipWs_length_le s
  rw [h] at this
  simpa using this

theorem parseString_length {s v r : Str} (h : parseString s = some (v, r)) :
    r.length + 1 ≤ s.length := by
  obtain ⟨pre, hp⟩ := parseString_consumes s v r h
  have := congrArg List.length hp
  simp only [List.length_append, List.length_cons] at this
  omega

/-- With fuel of twice the length of the text and one more, no parsing
function runs out of fuel. -/
theorem parse_fuel (f : Nat) :
    (∀ s, 2 * s.length + 1 ≤ f → parseValue f s ≠ .fuel) ∧
    (∀ s, 2 * s.length + 2 ≤ f → parseElements f s ≠ .fuel) ∧
    (∀ s, 2 * s.length + 2 ≤ f → parseMembers f s ≠ .fuel) := by
  induction f with
  | zero =>
    refine ⟨?_, ?_, ?_⟩ <;> intro s h <;> omega
  | succ f ih =>
    obtain ⟨ihv, ihe, ihm⟩ := ih
    refine ⟨?_, ?_, ?_⟩
    · intro s hf
      unfold parseValue
      split
      · intro h; cases h
      · next c rest =>
        simp only [List.length_cons] at hf
        split
        · split
          · intro h; cases h
          · next d rest2 hsk =>
            have hl := skipWs_cons_length hsk
            split
            · intro h; cases h
            · split
              · intro h; cases h
              · intro h; cases h
              · next hm =>
                exact absurd hm (ihm _ (by simp only [List.length_cons]; omega))
        · split
          · split
            · intro h; cases h
            · next d rest2 hsk =>
              have hl := skipWs_cons_length hsk
              split
              · intro h; cases h
              · split
                · intro h; cases h
                · intro h; cases h
                · next hm =>
                  exact absurd hm (ihe _ (by simp only [List.length_cons]; omega))
          · split
            · split <;> (intro h; cases h)
            · split
              · split <;> (intro h; cases h)
              · split
                · intro h; cases h
                · split
                  · intro h; cases h
                  · split <;> (intro h; cases h)
    · intro s hf
      unfold parseElements
      split
      · next v r1 hv =>
        have hl1 := ((parse_consumes f).1 _ _ _ hv).length_lt
        split
        · intro h; cases h
        · next d r2 hsk =>
          have hl2 := skipWs_cons_length hsk
          split
          · split
            · intro h; cases h
            · intro h; cases h
            · next he =>
              have hl3 := skipWs_length_le r2
              exact absurd he (ihe _ (by omega))
          · split <;> (intro h; cases h)
      · intro h; cases h
      · next hv => exact absurd hv (ihv _ (by omega))
    · intro s hf
      unfold parseMembers
      split
      · intro h; cases h
      · next q s1 =>
        simp only [List.length_cons] at hf
        split
        · split
          · intro h; cases h
          · next k s2 hk =>
            have hl0 := parseString_length hk
            split
            · intro h; cases h
            · next col s3 hsk =>
              have hl1 := skipWs_cons_length hsk
              have hl2 := skipWs_length_le s3
              split
              · split
                · next v s4 hv =>
                  have hl3 := ((parse_consumes f).1 _ _ _ hv).length_lt
                  split
                  · intro h; cases h
                  · next d s5 hsk2 =>
                    have hl4 := skipWs_cons_length hsk2
                    have hl5 := skipWs_length_le s5
                    split
                    · split
                      · intro h; cases h
                      · intro h; cases h
                      · next hm => exact absurd hm (ihm _ (by omega))
                    · split <;> (intro h; cases h)
                · intro h; cases h
                · next hv => exact absurd hv (ihv _ (by omega))
              · intro h; cases h
        · intro h; cases h

/-- `jsonParse` never fails for lack of fuel: its parse of a text ends with
a value or with a syntax error. -/
theorem parseValue_fuel (text : Str) :
    parseValue (2 * text.length + 1) (skipWs text) ≠ .fuel :=
  (parse_fuel _).1 _ (by have := skipWs_length_le text; omega)

/-! ## Objects -/

theorem lookupProp_nil {α : Type} (k : Str) : lookupProp ([] : List (Str × α)) k = none := rfl

theorem lookupProp_cons {α : Type} (l : Str) (w : α) (o : List (Str × α)) (k : Str) :
    lookupProp ((l, w) :: o) k = if l = k then some w else lookupProp o k := by
  unfold lookupProp
  by_cases h : l = k
  · simp [List.find?, h]
  · have hb : (l == k) = false := by simpa using h
    simp [List.find?, h, hb]

theorem lookupProp_eq_none_iff {α : Type} (o : List (Str × α)) (k : Str) :
    lookupProp o k = none ↔ k ∉ o.map Prod.fst := by
  induction o with
  | nil => simp [lookupProp_nil]
  | cons p o ih =>
    obtain ⟨l, w⟩ := p
    rw [lookupProp_cons]
    by_cases h : l = k
    · simp [h]
    · simp only [h, if_false, ih, List.map_cons, List.mem_cons]
      constructor
      · rintro h1 (h2 | h2)
        · exact h h2.symm
        · exact h1 h2
      · intro h1 h2
        exact h1 (Or.inr h2)

theorem any_key_iff {α : Type} (o : List (Str × α)) (k : Str) :
    o.any (fun p => p.1 == k) = true ↔ k ∈ o.map Prod.fst := by
  induction o with
  | nil => simp
  | cons p o ih =>
    simp only [List.any_cons, Bool.or_eq_true, ih, List.map_cons, List.mem_cons, beq_iff_eq]
    constructor
    · rintro (h | h)
      · exact Or.inl h.symm
      · exact Or.inr h
    · rintro (h | h)
      · exact Or.inl h.symm
      · exact Or.inr h

theorem lookupProp_replace_ne {α : Type} (o : List (Str × α)) (k : Str) (v : α) (k2 : Str)
    (hne : ¬ k = k2) :
    lookupProp (o.map (fun p => if p.1 == k then (k, v) else p)) k2 = lookupProp o k2 := by
  induction o with
  | nil => rfl
  | cons p o ih =>
    obtain ⟨l, w⟩ := p
    rw [List.map_cons]
    by_cases hl : l = k
    · have hh : (if ((l, w).1 == k) = true then (k, v) else (l, w)) = (k, v) := by simp [hl]
      have hl2 : ¬ l = k2 := by rw [hl]; exact hne
      rw [hh, lookupProp_cons, lookupProp_cons, if_neg hne, if_neg hl2, ih]
    · have hh : (if ((l, w).1 == k) = true then (k, v) else (l, w)) = (l, w) := by simp [hl]
      rw [hh, lookupProp_cons, lookupProp_cons, ih]

theorem lookupProp_replace {α : Type} (o : List (Str × α)) (k : Str) (v : α) (k2 : Str)
    (hk : k ∈ o.map Prod.fst) :
    lookupProp (o.map (fun p => if p.1 == k then (k, v) else p)) k2
      = if k2 = k then some v else lookupProp o k2 := by
  by_cases hne : k = k2
  · subst hne
    rw [if_pos rfl]
    induction o with
    | nil => simp at hk
    | cons p o ih =>
      obtain ⟨l, w⟩ := p
      rw [List.map_cons]
      by_cases hl : l = k
      · have hh : (if ((l, w).1 == k) = true then (k, v) else (l, w)) = (k, v) := by simp [hl]
        rw [hh, lookupProp_cons, if_pos rfl]
      · have hh : (if ((l, w).1 == k) = true then (k, v) else (l, w)) = (l, w) := by simp [hl]
        rw [hh, lookupProp_cons, if_neg hl]
        apply ih
        simp only [List.map_cons, List.mem_cons] at hk
        rcases hk with h | h
        · exact absurd h.symm hl
        · exact h
  · have : ¬ k2 = k := fun e => hne e.symm
    rw [if_neg this]
    exact lookupProp_replace_ne o k v k2 hne

theorem lookupProp_insertIndex {α : Type} (i : Nat) (k : Str) (v : α) (o : List (Str × α))
    (k2 : Str) (hk : k ∉ o.map Prod.fst) :
    lookupProp (insertIndex i k v o) k2 = if k2 = k then some v else lookupProp o k2 := by
  induction o with
  | nil =>
    simp only [insertIndex, lookupProp_cons, lookupProp_nil]
    by_cases h : k = k2
    · simp [h]
    · have : ¬ k2 = k := fun e => h e.symm
      simp [h, this]
  | cons p o ih =>
    obtain ⟨l, w⟩ := p
    simp only [List.map_cons, List.mem_cons, not_or] at hk
    have hlk : ¬ l = k := fun e => hk.1 e.symm
    have key : lookupProp ((k, v) :: (l, w) :: o) k2
        = if k2 = k then some v else lookupProp ((l, w) :: o) k2 := by
      rw [lookupProp_cons]
      by_cases h : k = k2
      · simp [h]
      · have : ¬ k2 = k := fun e => h e.symm
        simp [h, this]
    simp only [insertIndex]
    split
    · split
      · rw [lookupProp_cons, ih hk.2, lookupProp_cons]
        by_cases h : l = k2
        · subst h
          simp [hlk]
        · simp [h]
      · exact key
    · exact key

theorem lookupProp_append_single {α : Type} (o : List (Str × α)) (k : Str) (v : α) (k2 : Str)
    (hk : k ∉ o.map Prod.fst) :
    lookupProp (o ++ [(k, v)]) k2 = if k2 = k then some v else lookupProp o k2 := by
  induction o with
  | nil =>
    simp only [List.nil_append, lookupProp_cons, lookupProp_nil]
    by_cases h : k = k2
    · simp [h]
    · have : ¬ k2 = k := fun e => h e.symm
      simp [h, this]
  | cons p o ih =>
    obtain ⟨l, w⟩ := p
    simp only [List.map_cons, List.mem_cons, not_or] at hk
    have hlk : ¬ l = k := fun e => hk.1 e.symm
    simp only [List.cons_append, lookupProp_cons, ih hk.2]
    by_cases h : l = k2
    · subst h
      simp [hlk]
    · simp [h]

/-- Reading a property after defining one: the value defined under the same
key, the former value under any other key. -/
theorem lookupProp_setProp {α : Type} (o : List (Str × α)) (k : Str) (v : α) (k2 : Str) :
    lookupProp (setProp o k v) k2 = if k2 = k then some v else lookupProp o k2 := by
  unfold setProp
  split
  · next h =>
    rw [any_key_iff] at h
    exact lookupProp_replace _ _ _ _ h
  · next h =>
    rw [any_key_iff] at h
    split
    · exact lookupProp_insertIndex _ _ _ _ _ h
    · exact lookupProp_append_single _ _ _ _ h

theorem lookupProp_foldl_setProp {α : Type} (ms : List (Str × α))
    (hms : (ms.map Prod.fst).Nodup) (o : List (Str × α)) (k : Str) :
    lookupProp (ms.foldl (fun o m => setProp o m.1 m.2) o) k
      = match lookupProp ms k with
        | some v => some v
        | none => lookupProp o k := by
  induction ms generalizing o with
  | nil => simp [lookupProp_nil]
  | cons m ms ih =>
    obtain ⟨l, w⟩ := m
    simp only [List.map_cons, List.nodup_cons] at hms
    simp only [List.foldl_cons, ih hms.2, lookupProp_setProp, lookupProp_cons]
    by_cases h : l = k
    · subst h
      have : lookupProp ms l = none := (lookupProp_eq_none_iff _ _).2 hms.1
      simp [this]
    · have : ¬ k = l := fun e => h e.symm
      simp [h, this]

/-- Copying the properties of an object without a repeated key into a fresh
object gives every key the value it had. -/
theorem lookupProp_mkObject {α : Type} (ps : List (Str × α)) (hps : (ps.map Prod.fst).Nodup)
    (k : Str) : lookupProp (mkObject ps) k = lookupProp ps k := by
  unfold mkObject
  rw [lookupProp_foldl_setProp ps hps]
  cases lookupProp ps k <;> simp [lookupProp_nil]

theorem keys_replace {α : Type} (o : List (Str × α)) (k : Str) (v : α) :
    (o.map (fun p => if p.1 == k then (k, v) else p)).map Prod.fst = o.map Prod.fst := by
  induction o with
  | nil => rfl
  | cons p o ih =>
    obtain ⟨l, w⟩ := p
    rw [List.map_cons, List.map_cons, List.map_cons, ih]
    by_cases hl : l = k
    · have hh : (if ((l, w).1 == k) = true then (k, v) else (l, w)) = (k, v) := by simp [hl]
      rw [hh, hl]
    · have hh : (if ((l, w).1 == k) = true then (k, v) else (l, w)) = (l, w) := by simp [hl]
      rw [hh]

theorem keys_insertIndex_perm {α : Type} (i : Nat) (k : Str) (v : α) (o : List (Str × α)) :
    ((insertIndex i k v o).map Prod.fst).Perm (k :: o.map Prod.fst) := by
  induction o with
  | nil => exact List.Perm.refl _
  | cons p o ih =>
    obtain ⟨l, w⟩ := p
    simp only [insertIndex]
    split
    · split
      · simp only [List.map_cons]
        exact (List.Perm.cons l ih).trans (List.Perm.swap k l _)
      · exact List.Perm.refl _
    · exact List.Perm.refl _

theorem setProp_nodup {α : Type} (o : List (Str × α)) (k : Str) (v : α)
    (ho : (o.map Prod.fst).Nodup) : ((setProp o k v).map Prod.fst).Nodup := by
  unfold setProp
  split
  · rw [keys_replace]; exact ho
  · next h =>
    have hk : k ∉ o.map Prod.fst := by
      intro hmem
      exact h ((any_key_iff o k).2 hmem)
    split
    · exact (keys_insertIndex_perm _ k v o).nodup_iff.2 (List.nodup_cons.2 ⟨hk, ho⟩)
    · rw [List.map_append, List.nodup_append]
      refine ⟨ho, by simp, ?_⟩
      intro a ha hb
      simp only [List.map_cons, List.map_nil, List.mem_singleton] at hb
      subst hb
      exact hk ha

theorem foldl_setProp_nodup {α : Type} (ms : List (Str × α)) (o : List (Str × α))
    (ho : (o.map Prod.fst).Nodup) :
    ((ms.foldl (fun o m => setProp o m.1 m.2) o).map Prod.fst).Nodup := by
  induction ms generalizing o with
  | nil => exact ho
  | cons m ms ih => exact ih _ (setProp_nodup o m.1 m.2 ho)

/-- An object built from an object literal has no repeated key. -/
theorem mkObject_nodup {α : Type} (ms : List (Str × α)) :
    ((mkObject ms).map Prod.fst).Nodup :=
  foldl_setProp_nodup ms [] List.nodup_nil

theorem parseValue_obj_nodup {f : Nat} {s : Str} {ps : List (Str × JSVal)} {r : Str}
    (h : parseValue f s = .ok (.obj ps) r) : (ps.map Prod.fst).Nodup := by
  cases f with
  | zero => simp [parseValue] at h
  | succ f =>
    unfold parseValue at h
    split at h
    · cases h
    · split at h
      · split at h
        · cases h
        · split at h
          · injection h with h1 h2
            injection h1 with h1
            subst h1
            exact List.nodup_nil
          · split at h
            · injection h with h1 h2
              injection h1 with h1
              subst h1
              exact mkObject_nodup _
            · cases h
            · cases h
      · split at h
        · split at h
          · cases h
          · split at h
            · injection h with h1 h2
              cases h1
            · split at h
              · injection h with h1 h2
                cases h1
              · cases h
              · cases h
        · split at h
          · split at h
            · injection h with h1 h2
              cases h1
            · cases h
          · split at h
            · split at h
              · injection h with h1 h2
                cases h1
              · cases h
            · split at h
              · injection h with h1 h2
                cases h1
              · split at h
                · injection h with h1 h2
                  cases h1
                · split at h
                  · injection h with h1 h2
                    cases h1
                  · cases h

/-- An object that `runAgent` returns has no repeated key. -/
theorem runAgent_obj_nodup {env : Env} {stage : Stage} {prompt : Str}
    {ps : List (Str × JSVal)} (h : runAgent env stage prompt = .ok (.obj ps)) :
    (ps.map Prod.fst).Nodup := by
  unfold runAgent at h
  split at h
  · cases h
  · obtain ⟨rest, hp, _⟩ := (jsonParse_eq_ok_iff _ _).1 h
    exact parseValue_obj_nodup hp

/-! ## The handler, stage by stage -/

theorem failed_status (trace : List Event) : (failed trace).status = 500 := rfl

theorem assemble_ok {env : Env} {trace : List Event} {resumeJSON plan newSections : JSVal}
    (h : (assemble env trace resumeJSON plan newSections).status = 200) :
    ∃ tailored query extractedSkills skillGap,
      tailoredResume resumeJSON newSections = .ok tailored ∧
      searchQuery env.ops tailored = .ok query ∧
      getProp plan (utf16 "extractedSkills") = .ok extractedSkills ∧
      getProp plan (utf16 "skillGap") = .ok skillGap ∧
      assemble env trace resumeJSON plan newSections
        = ⟨200, successBody tailored extractedSkills skillGap
            (fetchJobs env query (utf16 "1")) query,
          trace ++ [Event.jobSearch query (utf16 "1")]⟩ := by
  unfold assemble at h ⊢
  split at h
  · simp [failed] at h
  · next tailored ht =>
    split at h
    · simp [failed] at h
    · next query hq =>
      split at h
      · next es sg hes hsg =>
        exact ⟨tailored, query, es, sg, ht, hq, hes, hsg, by simp [hq, hes, hsg]⟩
      · simp [failed] at h

theorem executorStage_ok {env : Env} {trace : List Event} {resumeJSON plan : JSVal}
    (h : (executorStage env trace resumeJSON plan).status = 200) :
    ∃ prompt newSections,
      executorPrompt env.ops resumeJSON plan = .ok prompt ∧
      runAgent env .executor prompt = .ok newSections ∧
      executorStage env trace resumeJSON plan
        = assemble env (trace ++ [Event.generateContent .executor prompt]) resumeJSON plan
            newSections := by
  unfold executorStage at h ⊢
  split at h
  · simp [failed] at h
  · next prompt hp =>
    split at h
    · simp [failed] at h
    · next newSections hn => exact ⟨prompt, newSections, hp, hn, by simp [hn]⟩

theorem plannerStage_ok {env : Env} {trace : List Event} {resumeJSON : JSVal}
    {jobDescription : Str}
    (h : (plannerStage env trace resumeJSON jobDescription).status = 200) :
    ∃ plan,
      runAgent env .planner (plannerPrompt env.ops resumeJSON jobDescription) = .ok plan ∧
      plannerStage env trace resumeJSON jobDescription
        = executorStage env
            (trace ++ [Event.generateContent .planner
              (plannerPrompt env.ops resumeJSON jobDescription)])
            resumeJSON plan := by
  unfold plannerStage at h ⊢
  split at h
  · simp [failed] at h
  · next plan hp => exact ⟨plan, hp, by simp [hp]⟩

theorem extractorStage_ok {env : Env} {trace : List Event} {rawText jobDescription : Str}
    (h : (extractorStage env trace rawText jobDescription).status = 200) :
    ∃ resumeJSON,
      runAgent env .extractor (extractorPrompt rawText) = .ok resumeJSON ∧
      extractorStage env trace rawText jobDescription
        = plannerStage env
            (trace ++ [Event.generateContent .extractor (extractorPrompt rawText)])
            resumeJSON jobDescription := by
  unfold extractorStage at h ⊢
  split at h
  · simp [failed] at h
  · next resumeJSON hr => exact ⟨resumeJSON, hr, by simp [hr]⟩

/-- Whether the request passes the validation of lines 103-104. -/
theorem apiProcess_valid {env : Env} {req : Request}
    (hjd : isBlank req.jobDescription = false)
    (hres : (isBlank req.resumeText && req.resumeFile.isNone) = false) :
    apiProcess env req =
      match rawTextOf env req with
      | .error _ => failed (pdfTrace req)
      | .ok rawText =>
        extractorStage env (pdfTrace req) rawText (req.jobDescription.getD []) := by
  unfold apiProcess
  simp [hjd, hres]

/-- A run that ends with status 200, unfolded: every stage succeeded, and
the response and the trace are built from the results of the stages. -/
theorem apiProcess_ok {env : Env} {req : Request} (h : (apiProcess env req).status = 200) :
    ∃ rawText resumeJSON plan prompt newSections tailored query extractedSkills skillGap,
      rawTextOf env req = .ok rawText ∧
      runAgent env .extractor (extractorPrompt rawText) = .ok resumeJSON ∧
      runAgent env .planner (plannerPrompt env.ops resumeJSON (req.jobDescription.getD []))
        = .ok plan ∧
      executorPrompt env.ops resumeJSON plan = .ok prompt ∧
      runAgent env .executor prompt = .ok newSections ∧
      tailoredResume resumeJSON newSections = .ok tailored ∧
      searchQuery env.ops tailored = .ok query ∧
      getProp plan (utf16 "extractedSkills") = .ok extractedSkills ∧
      getProp plan (utf16 "skillGap") = .ok skillGap ∧
      apiProcess env req
        = ⟨200, successBody tailored extractedSkills skillGap
            (fetchJobs env query (utf16 "1")) query,
          pdfTrace req ++
            [Event.generateContent .extractor (extractorPrompt rawText),
              Event.generateContent .planner
                (plannerPrompt env.ops resumeJSON (req.jobDescription.getD [])),
              Event.generateContent .executor prompt,
              Event.jobSearch query (utf16 "1")]⟩ := by
  have hjd : isBlank req.jobDescription = false := by
    cases hb : isBlank req.jobDescription with
    | false => rfl
    | true => simp [apiProcess, hb] at h
  have hres : (isBlank req.resumeText && req.resumeFile.isNone) = false := by
    cases hb : (isBlank req.resumeText && req.resumeFile.isNone) with
    | false => rfl
    | true => simp [apiProcess, hjd, hb] at h
  rw [apiProcess_valid hjd hres] at h ⊢
  split at h
  · simp [failed] at h
  · next rawText hraw =>
    obtain ⟨resumeJSON, h1, e1⟩ := extractorStage_ok h
    rw [e1] at h
    obtain ⟨plan, h2, e2⟩ := plannerStage_ok h
    rw [e2] at h
    obtain ⟨prompt, newSections, h3, h4, e3⟩ := executorStage_ok h
    rw [e3] at h
    obtain ⟨tailored, query, es, sg, h5, h6, h7, h8, e4⟩ := assemble_ok h
    refine ⟨rawText, resumeJSON, plan, prompt, newSections, tailored, query, es, sg,
      hraw, h1, h2, h3, h4, h5, h6, h7, h8, ?_⟩
    simp only [e1, e2, e3, e4]
    simp

theorem assemble_cases (env : Env) (trace : List Event) (resumeJSON plan newSections : JSVal) :
    (∃ body query, assemble env trace resumeJSON plan newSections
        = ⟨200, body, trace ++ [Event.jobSearch query (utf16 "1")]⟩) ∨
    (∃ query, assemble env trace resumeJSON plan newSections
        = failed (trace ++ [Event.jobSearch query (utf16 "1")])) ∨
    assemble env trace resumeJSON plan newSections = failed trace := by
  unfold assemble
  split
  · exact Or.inr (Or.inr rfl)
  · split
    · exact Or.inr (Or.inr rfl)
    · next query _ =>
      split
      · exact Or.inl ⟨_, query, rfl⟩
      · exact Or.inr (Or.inl ⟨query, rfl⟩)

theorem stagesOf_append (a b : List Event) : stagesOf (a ++ b) = stagesOf a ++ stagesOf b := by
  simp [stagesOf, List.filterMap_append]

theorem stagesOf_pdfTrace (req : Request) : stagesOf (pdfTrace req) = [] := by
  unfold pdfTrace
  split <;> rfl

theorem assemble_stages (env : Env) (trace : List Event) (resumeJSON plan newSections : JSVal) :
    stagesOf (assemble env trace resumeJSON plan newSections).trace = stagesOf trace ∧
    ((assemble env trace resumeJSON plan newSections).status = 200 ∨
      (assemble env trace resumeJSON plan newSections).status = 500) := by
  rcases assemble_cases env trace resumeJSON plan newSections with
    ⟨body, query, h⟩ | ⟨query, h⟩ | h
  · rw [h]; simp [stagesOf_append, stagesOf]
  · rw [h]; simp [failed, stagesOf_append, stagesOf]
  · rw [h]; simp [failed]

theorem executorStage_stages (env : Env) (trace : List Event) (resumeJSON plan : JSVal) :
    (stagesOf (executorStage env trace resumeJSON plan).trace = stagesOf trace ∨
      stagesOf (executorStage env trace resumeJSON plan).trace
        = stagesOf trace ++ [.executor]) ∧
    ((executorStage env trace resumeJSON plan).status = 200 ∨
      (executorStage env trace resumeJSON plan).status = 500) := by
  unfold executorStage
  split
  · exact ⟨Or.inl rfl, Or.inr rfl⟩
  · split
    · exact ⟨Or.inr (by simp [failed, stagesOf_append, stagesOf]), Or.inr rfl⟩
    · next prompt _ _ newSections _ =>
      have := assemble_stages env (trace ++ [Event.generateContent .executor prompt])
        resumeJSON plan newSections
      refine ⟨Or.inr ?_, this.2⟩
      rw [this.1]
      simp [stagesOf_append, stagesOf]

theorem plannerStage_stages (env : Env) (trace : List Event) (resumeJSON : JSVal)
    (jobDescription : Str) :
    (stagesOf (plannerStage env trace resumeJSON jobDescription).trace
        = stagesOf trace ++ [.planner] ∨
      stagesOf (plannerStage env trace resumeJSON jobDescription).trace
        = stagesOf trace ++ [.planner, .executor]) ∧
    ((plannerStage env trace resumeJSON jobDescription).status = 200 ∨
      (plannerStage env trace resumeJSON jobDescription).status = 500) := by
  unfold plannerStage
  split
  · exact ⟨Or.inl (by simp [failed, stagesOf_append, stagesOf]), Or.inr rfl⟩
  · next plan _ =>
    have := executorStage_stages env
      (trace ++ [Event.generateContent .planner (plannerPrompt env.ops resumeJSON jobDescription)])
      resumeJSON plan
    refine ⟨?_, this.2⟩
    rcases this.1 with h | h
    · left; rw [h]; simp [stagesOf_append, stagesOf]
    · right; rw [h]; simp [stagesOf_append, stagesOf]

theorem extractorStage_stages (env : Env) (trace : List Event) (rawText jobDescription : Str) :
    (stagesOf (extractorStage env trace rawText jobDescription).trace
        = stagesOf trace ++ [.extractor] ∨
      stagesOf (extractorStage env trace rawText jobDescription).trace
        = stagesOf trace ++ [.extractor, .planner] ∨
      stagesOf (extractorStage env trace rawText jobDescription).trace
        = stagesOf trace ++ [.extractor, .planner, .executor]) ∧
    ((extractorStage env trace rawText jobDescription).status = 200 ∨
      (extractorStage env trace rawText jobDescription).status = 500) := by
  unfold extractorStage
  split
  · exact ⟨Or.inl (by simp [failed, stagesOf_append, stagesOf]), Or.inr rfl⟩
  · next resumeJSON _ =>
    have := plannerStage_stages env
      (trace ++ [Event.generateContent .extractor (extractorPrompt rawText)])
      resumeJSON jobDescription
    refine ⟨?_, this.2⟩
    rcases this.1 with h | h
    · right; left; rw [h]; simp [stagesOf_append, stagesOf]
    · right; right; rw [h]; simp [stagesOf_append, stagesOf]

theorem apiProcess_valid_stages {env : Env} {req : Request}
    (hjd : isBlank req.jobDescription = false)
    (hres : (isBlank req.resumeText && req.resumeFile.isNone) = false) :
    (stagesOf (apiProcess env req).trace = [] ∨
      stagesOf (apiProcess env req).trace = [.extractor] ∨
      stagesOf (apiProcess env req).trace = [.extractor, .planner] ∨
      stagesOf (apiProcess env req).trace = [.extractor, .planner, .executor]) ∧
    ((apiProcess env req).status = 200 ∨ (apiProcess env req).status = 500) := by
  rw [apiProcess_valid hjd hres]
  split
  · exact ⟨Or.inl (stagesOf_pdfTrace req), Or.inr rfl⟩
  · next rawText _ =>
    have := extractorStage_stages env (pdfTrace req) rawText (req.jobDescription.getD [])
    refine ⟨Or.inr ?_, this.2⟩
    simpa [stagesOf_pdfTrace] using this.1

/-- In a scripted environment the result of `runAgent` does not depend on the prompt. -/
theorem runAgent_scriptedEnv (a b c : Except JSError Str) (stage : Stage) (prompt : Str) :
    runAgent (scriptedEnv a b c) stage prompt = runAgent (scriptedEnv a b c) stage [] := by
  cases stage <;> simp [runAgent, scriptedEnv]

theorem mem_assemble_trace {env : Env} {trace : List Event} {resumeJSON plan newSections : JSVal}
    {e : Event} (h : e ∈ trace) : e ∈ (assemble env trace resumeJSON plan newSections).trace := by
  rcases assemble_cases env trace resumeJSON plan newSections with
    ⟨body, query, h1⟩ | ⟨query, h1⟩ | h1
  · rw [h1]; exact List.mem_append_left _ h
  · rw [h1]; exact List.mem_append_left _ h
  · rw [h1]; exact h

/-- Once the Executor prompt is built, the Executor call is in the trace. -/
theorem executorStage_calls {env : Env} {trace : List Event} {resumeJSON plan : JSVal}
    {prompt : Str} (h : executorPrompt env.ops resumeJSON plan = .ok prompt) :
    Event.generateContent .executor prompt
      ∈ (executorStage env trace resumeJSON plan).trace := by
  unfold executorStage
  rw [h]
  simp only
  split
  · simp [failed]
  · exact mem_assemble_trace (by simp)

/-! ## The trace only grows -/

theorem assemble_trace_extends (env : Env) (trace : List Event)
    (resumeJSON plan newSections : JSVal) :
    trace <+: (assemble env trace resumeJSON plan newSections).trace := by
  rcases assemble_cases env trace resumeJSON plan newSections with
    ⟨body, query, h⟩ | ⟨query, h⟩ | h
  · rw [h]; exact List.prefix_append _ _
  · rw [h]; exact List.prefix_append _ _
  · rw [h]; exact List.prefix_refl _

theorem executorStage_trace_extends (env : Env) (trace : List Event) (resumeJSON plan : JSVal) :
    trace <+: (executorStage env trace resumeJSON plan).trace := by
  unfold executorStage
  split
  · exact List.prefix_refl _
  · split
    · exact List.prefix_append _ _
    · exact (List.prefix_append _ _).trans (assemble_trace_extends _ _ _ _ _)

theorem plannerStage_trace_extends (env : Env) (trace : List Event) (resumeJSON : JSVal)
    (jobDescription : Str) :
    trace <+: (plannerStage env trace resumeJSON jobDescription).trace := by
  unfold plannerStage
  split
  · exact List.prefix_append _ _
  · exact (List.prefix_append _ _).trans (executorStage_trace_extends _ _ _ _)

theorem extractorStage_trace_extends (env : Env) (trace : List Event)
    (rawText jobDescription : Str) :
    trace ++ [Event.generateContent .extractor (extractorPrompt rawText)]
      <+: (extractorStage env trace rawText jobDescription).trace := by
  unfold extractorStage
  split
  · exact List.prefix_refl _
  · exact plannerStage_trace_extends _ _ _ _

/-! ## Soundness of the parser for the JSON grammar -/

theorem parseString_sound : ∀ (s v r : Str), parseString s = some (v, r) →
    ∃ t, s = t ++ 0x22 :: r ∧ JChars t v := by
  intro s
  induction s using parseString.induct with
  | case1 => intro v r h; simp [parseString] at h
  | case2 cs =>
    intro v r h
    unfold parseString at h
    simp at h
    exact ⟨[], by simp [h.2], by rw [h.1]; exact JChars.nil⟩
  | case3 => intro v r h; unfold parseString at h; simp at h
  | case4 a b c2 d rest3 j hj v0 r0 h0 _ ih =>
    intro v r h
    unfold parseString at h
    simp [hj, h0] at h
    obtain ⟨t, ht, hc⟩ := ih v0 r0 h0
    refine ⟨92 :: 117 :: a :: b :: c2 :: d :: t, by simp [ht, h.2], ?_⟩
    rw [← h.1]
    exact JChars.unicode a b c2 d j t v0 hj hc
  | case5 a b c2 d rest3 j hj h0 _ ih =>
    intro v r h; unfold parseString at h; simp [hj, h0] at h
  | case6 a b c2 d rest3 hj _ => intro v r h; unfold parseString at h; simp [hj] at h
  | case7 rest2 hn _ =>
    intro v r h
    unfold parseString at h
    simp only [show ¬ (92 = 34) by decide, if_false, if_true] at h
    cases h
  | case8 e rest2 he j hj v0 r0 h0 _ ih =>
    intro v r h
    unfold parseString at h
    simp [he, hj, h0] at h
    obtain ⟨t, ht, hc⟩ := ih v0 r0 h0
    refine ⟨92 :: e :: t, by simp [ht, h.2], ?_⟩
    rw [← h.1]
    exact JChars.escape e j t v0 he hj hc
  | case9 e rest2 he j hj h0 _ ih =>
    intro v r h; unfold parseString at h; simp [he, hj, h0] at h
  | case10 e rest2 he hj _ => intro v r h; unfold parseString at h; simp [he, hj] at h
  | case11 c cs h1 h2 h3 => intro v r h; unfold parseString at h; simp [h1, h2, h3] at h
  | case12 c cs h1 h2 h3 v0 r0 h0 ih =>
    intro v r h
    unfold parseString at h
    simp [h1, h2, h3, h0] at h
    obtain ⟨t, ht, hc⟩ := ih v0 r0 h0
    refine ⟨c :: t, by simp [ht, h.2], ?_⟩
    rw [← h.1]
    exact JChars.plain c t v0 h1 h2 (Nat.le_of_not_lt h3) hc
  | case13 c cs h1 h2 h3 h0 ih =>
    intro v r h; unfold parseString at h; simp [h1, h2, h3, h0] at h

theorem parseInt_sound {s ds r : Str} (h : parseInt s = some (ds, r)) :
    s = ds ++ r ∧ JInt ds := by
  unfold parseInt at h
  split at h
  · cases h
  · next c cs =>
    split at h
    · next h0 =>
      simp only [Option.some.injEq, Prod.mk.injEq] at h
      rw [← h.1, ← h.2, h0]
      exact ⟨rfl, JInt.zero⟩
    · next h0 =>
      split at h
      · next hd =>
        simp only [Option.some.injEq, Prod.mk.injEq] at h
        rw [← h.1, ← h.2]
        refine ⟨?_, JInt.nonzero c _ hd h0 (takeDigits_digits cs)⟩
        simp [takeDigits_append]
      · cases h

theorem parseFrac_sound {s fd r : Str} (h : parseFrac s = some (fd, r)) :
    ∃ ft, s = ft ++ r ∧ JFrac ft fd := by
  unfold parseFrac at h
  split at h
  · simp only [Option.some.injEq, Prod.mk.injEq] at h
    rw [← h.1, ← h.2]
    exact ⟨[], rfl, JFrac.absent⟩
  · next c cs =>
    split at h
    · next hc =>
      split at h
      · cases h
      · next hne =>
        simp only [Option.some.injEq, Prod.mk.injEq] at h
        rw [← h.1, ← h.2, hc]
        exact ⟨0x2E :: (takeDigits cs).1, by simp [takeDigits_append],
          JFrac.digits _ hne (takeDigits_digits cs)⟩
    · simp only [Option.some.injEq, Prod.mk.injEq] at h
      rw [← h.1, ← h.2]
      exact ⟨[], rfl, JFrac.absent⟩

theorem parseExpDigits_sound {neg : Bool} {s : Str} {e : Int} {r : Str}
    (h : parseExpDigits neg s = some (e, r)) :
    ∃ ds, s = ds ++ r ∧ ds ≠ [] ∧ IsDigits ds ∧
      e = if neg then - (digitsToNat ds : Int) else (digitsToNat ds : Int) := by
  unfold parseExpDigits at h
  split at h
  · cases h
  · next hne =>
    simp only [Option.some.injEq, Prod.mk.injEq] at h
    refine ⟨(takeDigits s).1, ?_, hne, takeDigits_digits s, h.1.symm⟩
    rw [← h.2, takeDigits_append]

theorem parseExp_sound {s : Str} {e : Int} {r : Str} (h : parseExp s = some (e, r)) :
    ∃ et, s = et ++ r ∧ JExp et e := by
  unfold parseExp at h
  split at h
  · simp only [Option.some.injEq, Prod.mk.injEq] at h
    rw [← h.1, ← h.2]
    exact ⟨[], rfl, JExp.absent⟩
  · next c cs =>
    split at h
    · next hc =>
      split at h
      · cases h
      · next d ds =>
        split at h
        · next hd =>
          obtain ⟨x, hx, hne, hdig, he⟩ := parseExpDigits_sound h
          rw [he, hd]
          exact ⟨c :: 0x2B :: x, by simp [hx], JExp.plus c x hc hne hdig⟩
        · split at h
          · next hd =>
            obtain ⟨x, hx, hne, hdig, he⟩ := parseExpDigits_sound h
            rw [he, hd]
            exact ⟨c :: 0x2D :: x, by simp [hx], JExp.minus c x hc hne hdig⟩
          · obtain ⟨x, hx, hne, hdig, he⟩ := parseExpDigits_sound h
            rw [he]
            exact ⟨c :: x, by simp [hx], JExp.unsigned c x hc hne hdig⟩
    · simp only [Option.some.injEq, Prod.mk.injEq] at h
      rw [← h.1, ← h.2]
      exact ⟨[], rfl, JExp.absent⟩

theorem parseNumber_sound {s : Str} {n : JNum} {r : Str} (h : parseNumber s = some (n, r)) :
    ∃ t, s = t ++ r ∧ JNumber t n := by
  unfold parseNumber at h
  simp only at h
  split at h
  · cases h
  · next int s2 hint =>
    split at h
    · cases h
    · next frac s3 hfrac =>
      split at h
      · cases h
      · next e s4 hexp =>
        simp only [Option.some.injEq, Prod.mk.injEq] at h
        obtain ⟨h1, hi⟩ := parseInt_sound hint
        obtain ⟨ft, h2, hf⟩ := parseFrac_sound hfrac
        obtain ⟨et, h3, he⟩ := parseExp_sound hexp
        rw [← h.1, ← h.2]
        by_cases hneg : s.head? = some 45
        · cases s with
          | nil => simp at hneg
          | cons a tl =>
            simp only [List.head?_cons, Option.some.injEq] at hneg
            subst hneg
            simp only [List.head?_cons, if_true, List.tail_cons] at h1
            refine ⟨0x2D :: (int ++ ft ++ et), ?_, ?_⟩
            · rw [h1, h2, h3]; simp
            · simpa using JNumber.negative int ft frac et e hi hf he
        · simp only [hneg, if_false] at h1
          refine ⟨int ++ ft ++ et, ?_, ?_⟩
          · rw [h1, h2, h3]; simp
          · simpa [hneg] using JNumber.positive int ft frac et e hi hf he

theorem allWs_nil : AllWs [] := fun _ h => by cases h

theorem jelements_prepend_ws {w t : Str} {vs : List JSVal} (hw : AllWs w)
    (h : JElements t vs) : JElements (w ++ t) vs := by
  cases h with
  | one w1 t1 w2 v h1 hv h2 =>
    have := JElements.one (w ++ w1) t1 w2 v (hw.append h1) hv h2
    simpa [List.append_assoc] using this
  | cons w1 t1 w2 rest v vs h1 hv h2 hr =>
    have := JElements.cons (w ++ w1) t1 w2 rest v vs (hw.append h1) hv h2 hr
    simpa [List.append_assoc] using this

theorem jmembers_prepend_ws {w t : Str} {ms : List (Str × JSVal)} (hw : AllWs w)
    (h : JMembers t ms) : JMembers (w ++ t) ms := by
  cases h with
  | one w1 kt k w2 w3 t1 w4 v h1 hk h2 h3 hv h4 =>
    have := JMembers.one (w ++ w1) kt k w2 w3 t1 w4 v (hw.append h1) hk h2 h3 hv h4
    simpa [List.append_assoc] using this
  | cons w1 kt k w2 w3 t1 w4 rest v ms h1 hk h2 h3 hv h4 hr =>
    have := JMembers.cons (w ++ w1) kt k w2 w3 t1 w4 rest v ms (hw.append h1) hk h2 h3 hv h4 hr
    simpa [List.append_assoc] using this

theorem skipWs_cons_spec {s : Str} {d : Nat} {r : Str} (h : skipWs s = d :: r) :
    ∃ w, AllWs w ∧ s = w ++ d :: r := by
  obtain ⟨w, hw, hall⟩ := skipWs_spec s
  rw [h] at hw
  exact ⟨w, hall, hw⟩

theorem skipWs_any_spec (s : Str) : ∃ w, AllWs w ∧ s = w ++ skipWs s := by
  obtain ⟨w, hw, hall⟩ := skipWs_spec s
  exact ⟨w, hall, hw⟩

/-- What the parsing functions return is a value of the grammar for the text
they consumed. -/
theorem parse_sound (f : Nat) :
    (∀ s v r, parseValue f s = .ok v r → ∃ t, s = t ++ r ∧ JValue t v) ∧
    (∀ s vs r, parseElements f s = .ok vs r → ∃ t, s = t ++ 0x5D :: r ∧ JElements t vs) ∧
    (∀ s ms r, parseMembers f s = .ok ms r → ∃ t, s = t ++ 0x7D :: r ∧ JMembers t ms) := by
  induction f with
  | zero =>
    refine ⟨?_, ?_, ?_⟩ <;> intro s v r h
    · simp [parseValue] at h
    · simp [parseElements] at h
    · simp [parseMembers] at h
  | succ f ih =>
    obtain ⟨ihv, ihe, ihm⟩ := ih
    refine ⟨?_, ?_, ?_⟩
    · intro s v r h
      unfold parseValue at h
      split at h
      · cases h
      · next c rest =>
        split at h
        · next hc =>
          split at h
          · cases h
          · next d rest2 hsk =>
            obtain ⟨w, hw, hrest⟩ := skipWs_cons_spec hsk
            split at h
            · next hd =>
              injection h with h1 h2
              subst h1 h2 hc hd
              exact ⟨0x7B :: w ++ [0x7D], by simp [hrest], JValue.emptyObj w hw⟩
            · split at h
              · next ms r2 hm =>
                injection h with h1 h2
                subst h1 h2 hc
                obtain ⟨t, ht, hj⟩ := ihm _ _ _ hm
                refine ⟨0x7B :: (w ++ t) ++ [0x7D], by simp [hrest, ht],
                  JValue.obj _ ms (jmembers_prepend_ws hw hj)⟩
              · cases h
              · cases h
        · split at h
          · next hc =>
            split at h
            · cases h
            · next d rest2 hsk =>
              obtain ⟨w, hw, hrest⟩ := skipWs_cons_spec hsk
              split at h
              · next hd =>
                injection h with h1 h2
                subst h1 h2 hc hd
                exact ⟨0x5B :: w ++ [0x5D], by simp [hrest], JValue.emptyArr w hw⟩
              · split at h
                · next vs r2 hm =>
                  injection h with h1 h2
                  subst h1 h2 hc
                  obtain ⟨t, ht, hj⟩ := ihe _ _ _ hm
                  refine ⟨0x5B :: (w ++ t) ++ [0x5D], by simp [hrest, ht],
                    JValue.arr _ vs (jelements_prepend_ws hw hj)⟩
                · cases h
                · cases h
          · split at h
            · next hc =>
              split at h
              · next v2 r2 hs =>
                injection h with h1 h2
                subst h1 h2 hc
                obtain ⟨t, ht, hj⟩ := parseString_sound _ _ _ hs
                exact ⟨0x22 :: t ++ [0x22], by simp [ht], JValue.str t v2 hj⟩
              · cases h
            · split at h
              · split at h
                · next n r2 hn =>
                  injection h with h1 h2
                  subst h1 h2
                  obtain ⟨t, ht, hj⟩ := parseNumber_sound hn
                  exact ⟨t, ht, JValue.num t n hj⟩
                · cases h
              · split at h
                · next r2 hl =>
                  injection h with h1 h2
                  subst h1 h2
                  exact ⟨_, expectLit_spec _ _ _ hl, JValue.litTrue⟩
                · split at h
                  · next r2 hl =>
                    injection h with h1 h2
                    subst h1 h2
                    exact ⟨_, expectLit_spec _ _ _ hl, JValue.litFalse⟩
                  · split at h
                    · next r2 hl =>
                      injection h with h1 h2
                      subst h1 h2
                      exact ⟨_, expectLit_spec _ _ _ hl, JValue.litNull⟩
                    · cases h
    · intro s vs r h
      unfold parseElements at h
      split at h
      · next v r1 hv =>
        obtain ⟨tv, htv, hjv⟩ := ihv _ _ _ hv
        split at h
        · cases h
        · next d r2 hsk =>
          obtain ⟨w2, hw2, hr1⟩ := skipWs_cons_spec hsk
          split at h
          · next hd =>
            split at h
            · next vs2 r3 he =>
              injection h with h1 h2
              subst h1 h2 hd
              obtain ⟨t, ht, hj⟩ := ihe _ _ _ he
              obtain ⟨w3, hw3, hr2⟩ := skipWs_any_spec r2
              refine ⟨[] ++ tv ++ w2 ++ 0x2C :: (w3 ++ t), ?_,
                JElements.cons [] tv w2 (w3 ++ t) v vs2 allWs_nil hjv hw2 (jelements_prepend_ws hw3 hj)⟩
              rw [htv, hr1, hr2, ht]
              simp
            · cases h
            · cases h
          · split at h
            · next hd =>
              injection h with h1 h2
              subst h1 h2 hd
              refine ⟨[] ++ tv ++ w2, ?_, JElements.one [] tv w2 v allWs_nil hjv hw2⟩
              rw [htv, hr1]
              simp
            · cases h
      · cases h
      · cases h
    · intro s ms r h
      unfold parseMembers at h
      split at h
      · cases h
      · next q s1 =>
        split at h
        · next hq =>
          split at h
          · cases h
          · next k s2 hk =>
            obtain ⟨kt, hkt, hjk⟩ := parseString_sound _ _ _ hk
            split at h
            · cases h
            · next col s3 hsk =>
              obtain ⟨w2, hw2, hs2⟩ := skipWs_cons_spec hsk
              split at h
              · next hcol =>
                split at h
                · next v s4 hv =>
                  obtain ⟨tv, htv, hjv⟩ := ihv _ _ _ hv
                  obtain ⟨w3, hw3, hs3⟩ := skipWs_any_spec s3
                  split at h
                  · cases h
                  · next d s5 hsk2 =>
                    obtain ⟨w4, hw4, hs4⟩ := skipWs_cons_spec hsk2
                    split at h
                    · next hd =>
                      split at h
                      · next ms2 r3 hm =>
                        injection h with h1 h2
                        subst h1 h2 hd hq hcol
                        obtain ⟨t, ht, hj⟩ := ihm _ _ _ hm
                        obtain ⟨w5, hw5, hs5⟩ := skipWs_any_spec s5
                        refine ⟨[] ++ 0x22 :: kt ++ 0x22 :: w2 ++ 0x3A :: w3 ++ tv ++ w4
                            ++ 0x2C :: (w5 ++ t), ?_,
                          JMembers.cons [] kt k w2 w3 tv w4 (w5 ++ t) v ms2 allWs_nil hjk hw2 hw3
                            hjv hw4 (jmembers_prepend_ws hw5 hj)⟩
                        rw [hkt, hs2, hs3, htv, hs4, hs5, ht]
                        simp
                      · cases h
                      · cases h
                    · split at h
                      · next hd =>
                        injection h with h1 h2
                        subst h1 h2 hd hq hcol
                        refine ⟨[] ++ 0x22 :: kt ++ 0x22 :: w2 ++ 0x3A :: w3 ++ tv ++ w4, ?_,
                          JMembers.one [] kt k w2 w3 tv w4 v allWs_nil hjk hw2 hw3 hjv hw4⟩
                        rw [hkt, hs2, hs3, htv, hs4]
                        simp
                      · cases h
                · cases h
                · cases h
              · cases h
        · cases h

/-- Soundness of `jsonParse`: it returns a value only for a well-formed JSON
text, and the value is the one the text denotes. -/
theorem jsonParse_sound {s : Str} {v : JSVal} (h : jsonParse s = .ok v) : JSONText s v := by
  obtain ⟨rest, hp, hr⟩ := (jsonParse_eq_ok_iff s v).1 h
  obtain ⟨t, ht, hj⟩ := (parse_sound _).1 _ _ _ hp
  obtain ⟨w1, hw1, hs⟩ := skipWs_any_spec s
  exact ⟨w1, t, rest, hw1, hj, allWs_of_skipWs_nil hr, by rw [hs, ht]; simp⟩

/-- The only exception `jsonParse` throws is a `SyntaxError`. -/
theorem jsonParse_error {s : Str} {e : JSError} (h : jsonParse s = .error e) :
    e = .syntaxError := by
  unfold jsonParse at h
  split at h
  · split at h
    · cases h
    · injection h with h; exact h.symm
  · injection h with h; exact h.symm
  · injection h with h; exact h.symm

theorem jint_head_digit {t : Str} (h : JInt t) : ∃ c rest, t = c :: rest ∧ isDigit c = true := by
  cases h with
  | zero => exact ⟨0x30, [], rfl, by decide⟩
  | nonzero d ds hd _ _ => exact ⟨d, ds, rfl, hd⟩

/-- The first code unit of a JSON value: a brace, a bracket, a quotation
mark, a minus sign or a digit, unless the value is one of the three literal names. -/
theorem jvalue_head_cases {t : Str} {v : JSVal} (h : JValue t v) :
    (∃ c rest, t = c :: rest ∧
      (c = 0x7B ∨ c = 0x5B ∨ c = 0x22 ∨ c = 0x2D ∨ isDigit c = true)) ∨
    t = utf16 "null" ∨ t = utf16 "true" ∨ t = utf16 "false" := by
  cases h with
  | litNull => exact Or.inr (Or.inl rfl)
  | litTrue => exact Or.inr (Or.inr (Or.inl rfl))
  | litFalse => exact Or.inr (Or.inr (Or.inr rfl))
  | num t n hn =>
    left
    cases hn with
    | positive int frac fd ex e hi _ _ =>
      obtain ⟨c, rest, hc, hd⟩ := jint_head_digit hi
      exact ⟨c, rest ++ frac ++ ex, by simp [hc], Or.inr (Or.inr (Or.inr (Or.inr hd)))⟩
    | negative int frac fd ex e _ _ _ =>
      exact ⟨0x2D, _, rfl, Or.inr (Or.inr (Or.inr (Or.inl rfl)))⟩
  | str t v _ => exact Or.inl ⟨0x22, _, rfl, Or.inr (Or.inr (Or.inl rfl))⟩
  | emptyArr w _ => exact Or.inl ⟨0x5B, _, rfl, Or.inr (Or.inl rfl)⟩
  | arr t vs _ => exact Or.inl ⟨0x5B, _, rfl, Or.inr (Or.inl rfl)⟩
  | emptyObj w _ => exact Or.inl ⟨0x7B, _, rfl, Or.inl rfl⟩
  | obj t ms _ => exact Or.inl ⟨0x7B, _, rfl, Or.inl rfl⟩

/-- The text `not json at all` is not a JSON text. -/
theorem not_json_at_all (v : JSVal) : ¬ JSONText (utf16 "not json at all") v := by
  rintro ⟨w1, t, w2, hw1, hj, _, hs⟩
  have e : utf16 "not json at all" = 110 :: 111 :: utf16 "t json at all" := by decide
  rw [e] at hs
  cases w1 with
  | cons a w =>
    simp only [List.cons_append, List.cons.injEq] at hs
    have := hw1 a (List.mem_cons_self _ _)
    rw [← hs.1] at this
    revert this
    decide
  | nil =>
    simp only [List.nil_append] at hs
    rcases jvalue_head_cases hj with ⟨c, rest, ht, hc⟩ | ht | ht | ht
    · rw [ht] at hs
      simp only [List.cons_append, List.cons.injEq] at hs
      obtain ⟨h1, _⟩ := hs
      subst h1
      revert hc
      decide
    · rw [ht, utf16_null] at hs
      simp only [List.cons_append, List.cons.injEq] at hs
      have := hs.2.1
      revert this
      decide
    · rw [ht, utf16_true] at hs
      simp only [List.cons_append, List.cons.injEq] at hs
      have := hs.1
      revert this
      decide
    · rw [ht, utf16_false] at hs
      simp only [List.cons_append, List.cons.injEq] at hs
      have := hs.1
      revert this
      decide

/-! ## Completeness of the parser for the JSON grammar -/

theorem takeDigits_of_no_digit {r : Str} (h : ∀ c, r.head? = some c → isDigit c = false) :
    takeDigits r = ([], r) := by
  cases r with
  | nil => rfl
  | cons c cs =>
    simp only [takeDigits]
    rw [if_neg (by rw [h c rfl]; decide)]

theorem takeDigits_digits_append {ds : Str} (hd : IsDigits ds) {r : Str}
    (h : ∀ c, r.head? = some c → isDigit c = false) : takeDigits (ds ++ r) = (ds, r) := by
  induction ds with
  | nil => exact takeDigits_of_no_digit h
  | cons d ds ih =>
    have hd1 : isDigit d = true := hd d (List.mem_cons_self _ _)
    have ih := ih (fun x hx => hd x (List.mem_cons_of_mem _ hx))
    show takeDigits (d :: (ds ++ r)) = (d :: ds, r)
    simp only [takeDigits, hd1, if_true, ih]

theorem head_append_of_ne_nil {a : Str} (b : Str) (h : a ≠ []) : (a ++ b).head? = a.head? := by
  cases a with
  | nil => exact absurd rfl h
  | cons c cs => rfl

theorem parseInt_complete {int : Str} (hi : JInt int) {r : Str}
    (h : ∀ c, r.head? = some c → isDigit c = false) : parseInt (int ++ r) = some (int, r) := by
  cases hi with
  | zero => simp [parseInt]
  | nonzero d ds hd hne hds =>
    simp only [List.cons_append, parseInt, hne, if_false, hd, if_true,
      takeDigits_digits_append hds h]

theorem parseFrac_complete {ft fd : Str} (hf : JFrac ft fd) {r : Str}
    (h : ∀ c, r.head? = some c → isDigit c = false ∧ c ≠ 0x2E) :
    parseFrac (ft ++ r) = some (fd, r) := by
  cases hf with
  | absent =>
    simp only [List.nil_append]
    unfold parseFrac
    split
    · rfl
    · next c cs => rw [if_neg (h c rfl).2]
  | digits ds hne hds =>
    simp only [List.cons_append, parseFrac, if_true,
      takeDigits_digits_append hds (fun c hc => (h c hc).1), hne, if_false]

theorem parseExpDigits_complete (neg : Bool) {ds : Str} (hne : ds ≠ []) (hds : IsDigits ds)
    {r : Str} (h : ∀ c, r.head? = some c → isDigit c = false) :
    parseExpDigits neg (ds ++ r)
      = some (if neg then - (digitsToNat ds : Int) else (digitsToNat ds : Int), r) := by
  simp only [parseExpDigits, takeDigits_digits_append hds h, hne, if_false]

theorem parseExp_complete {et : Str} {e : Int} (he : JExp et e) {r : Str} (h : NoCont r) :
    parseExp (et ++ r) = some (e, r) := by
  have hnd : ∀ c, r.head? = some c → isDigit c = false := fun c hc => (h c hc).1
  cases he with
  | absent =>
    simp only [List.nil_append]
    unfold parseExp
    split
    · rfl
    · next c cs =>
      have := h c rfl
      rw [if_neg (by rintro (hc | hc); exact this.2.2.1 hc; exact this.2.2.2 hc)]
  | unsigned c ds hc hne hds =>
    cases ds with
    | nil => exact absurd rfl hne
    | cons d ds =>
      have hd : isDigit d = true := hds d (List.mem_cons_self _ _)
      have h1 : ¬ d = 0x2B := by rintro rfl; revert hd; decide
      have h2 : ¬ d = 0x2D := by rintro rfl; revert hd; decide
      have := parseExpDigits_complete false hne hds hnd
      simp only [List.cons_append] at this
      simp only [List.cons_append, parseExp, hc, if_true, h1, h2, if_false, this]
      rfl
  | plus c ds hc hne hds =>
    have := parseExpDigits_complete false hne hds hnd
    simp only [List.cons_append, parseExp, hc, if_true, this]
    rfl
  | minus c ds hc hne hds =>
    have := parseExpDigits_complete true hne hds hnd
    have h1 : ¬ (0x2D : Nat) = 0x2B := by decide
    simp only [List.cons_append, parseExp, hc, if_true, h1, if_false, this]

theorem jexp_head {et : Str} {e : Int} (he : JExp et e) {r : Str} (h : NoCont r) :
    ∀ c, (et ++ r).head? = some c → isDigit c = false ∧ c ≠ 0x2E := by
  intro c hc
  cases he with
  | absent => exact ⟨(h c hc).1, (h c hc).2.1⟩
  | unsigned x ds hx _ _ =>
    simp only [List.cons_append, List.head?_cons, Option.some.injEq] at hc
    subst hc
    rcases hx with rfl | rfl <;> exact ⟨by decide, by decide⟩
  | plus x ds hx _ _ =>
    simp only [List.cons_append, List.head?_cons, Option.some.injEq] at hc
    subst hc
    rcases hx with rfl | rfl <;> exact ⟨by decide, by decide⟩
  | minus x ds hx _ _ =>
    simp only [List.cons_append, List.head?_cons, Option.some.injEq] at hc
    subst hc
    rcases hx with rfl | rfl <;> exact ⟨by decide, by decide⟩

theorem jfrac_head {ft fd : Str} (hf : JFrac ft fd) {r : Str}
    (h : ∀ c, r.head? = some c → isDigit c = false ∧ c ≠ 0x2E) :
    ∀ c, (ft ++ r).head? = some c → isDigit c = false := by
  intro c hc
  cases hf with
  | absent => exact (h c hc).1
  | digits ds _ _ =>
    simp only [List.cons_append, List.head?_cons, Option.some.injEq] at hc
    subst hc
    decide

theorem parseNumber_complete {t : Str} {n : JNum} (hn : JNumber t n) {r : Str} (h : NoCont r) :
    parseNumber (t ++ r) = some (n, r) := by
  cases hn with
  | positive int frac fd ex e hi hf he =>
    obtain ⟨c, rest, hc, hd⟩ := jint_head_digit hi
    have hhead : (int ++ frac ++ ex ++ r).head? = some c := by rw [hc]; rfl
    have hneg : ¬ some c = some 45 := by
      intro e1
      injection e1 with e1
      subst e1
      revert hd
      decide
    have e1 : int ++ frac ++ ex ++ r = int ++ (frac ++ (ex ++ r)) := by simp
    unfold parseNumber
    simp only [hhead, hneg, if_false]
    rw [e1, parseInt_complete hi (jfrac_head hf (jexp_head he h))]
    simp only
    rw [parseFrac_complete hf (jexp_head he h)]
    simp only
    rw [parseExp_complete he h]
    simp
  | negative int frac fd ex e hi hf he =>
    have e1 : int ++ frac ++ ex ++ r = int ++ (frac ++ (ex ++ r)) := by simp
    unfold parseNumber
    simp only [List.cons_append, List.head?_cons, if_true, List.tail_cons]
    rw [e1, parseInt_complete hi (jfrac_head hf (jexp_head he h))]
    simp only
    rw [parseFrac_complete hf (jexp_head he h)]
    simp only
    rw [parseExp_complete he h]
    simp

theorem parseString_complete {t v : Str} (h : JChars t v) (r : Str) :
    parseString (t ++ 0x22 :: r) = some (v, r) := by
  induction h with
  | nil =>
    simp only [List.nil_append]
    unfold parseString
    simp
  | plain c t v h1 h2 h3 _ ih =>
    simp only [List.cons_append]
    unfold parseString
    simp [h1, h2, Nat.not_lt.2 h3, ih]
  | escape e u t v he hu _ ih =>
    simp only [List.cons_append]
    unfold parseString
    simp [he, hu, ih]
  | unicode a b c d u t v hu _ ih =>
    simp only [List.cons_append]
    unfold parseString
    simp [hu, ih]

theorem jnumber_head {t : Str} {n : JNum} (h : JNumber t n) :
    ∃ c rest, t = c :: rest ∧ (c = 0x2D ∨ isDigit c = true) := by
  cases h with
  | positive int frac fd ex e hi _ _ =>
    obtain ⟨c, rest, hc, hd⟩ := jint_head_digit hi
    exact ⟨c, rest ++ frac ++ ex, by simp [hc], Or.inr hd⟩
  | negative int frac fd ex e _ _ _ => exact ⟨0x2D, _, rfl, Or.inl rfl⟩

theorem jvalue_head {t : Str} {v : JSVal} (h : JValue t v) :
    ∃ c rest, t = c :: rest ∧ ValueHead c := by
  cases h with
  | litNull => exact ⟨110, _, utf16_null, by unfold ValueHead; decide⟩
  | litTrue => exact ⟨116, _, utf16_true, by unfold ValueHead; decide⟩
  | litFalse => exact ⟨102, _, utf16_false, by unfold ValueHead; decide⟩
  | num t n hn =>
    obtain ⟨c, rest, hc, hd⟩ := jnumber_head hn
    refine ⟨c, rest, hc, ?_⟩
    rcases hd with hd | hd
    · exact Or.inr (Or.inr (Or.inr (Or.inl hd)))
    · exact Or.inr (Or.inr (Or.inr (Or.inr (Or.inl hd))))
  | str t v _ => exact ⟨0x22, _, rfl, Or.inr (Or.inr (Or.inl rfl))⟩
  | emptyArr w _ => exact ⟨0x5B, _, rfl, Or.inr (Or.inl rfl)⟩
  | arr t vs _ => exact ⟨0x5B, _, rfl, Or.inr (Or.inl rfl)⟩
  | emptyObj w _ => exact ⟨0x7B, _, rfl, Or.inl rfl⟩
  | obj t ms _ => exact ⟨0x7B, _, rfl, Or.inl rfl⟩

theorem valueHead_props {c : Nat} (h : ValueHead c) :
    isWs c = false ∧ c ≠ 0x5D ∧ c ≠ 0x7D ∧ c ≠ 0x2C := by
  unfold ValueHead at h
  rcases h with rfl | rfl | rfl | rfl | h | rfl | rfl | rfl
  · decide
  · decide
  · decide
  · decide
  · simp only [isDigit, Bool.and_eq_true, decide_eq_true_eq] at h
    refine ⟨?_, by omega, by omega, by omega⟩
    simp only [isWs, Bool.or_eq_false_iff, beq_eq_false_iff_ne, ne_eq]
    omega
  · decide
  · decide
  · decide

theorem skipWs_of_not_ws {c : Nat} (x : Str) (h : isWs c = false) : skipWs (c :: x) = c :: x := by
  simp [skipWs, h]

theorem skipWs_ws_cons {w : Str} (hw : AllWs w) {c : Nat} (x : Str) (h : isWs c = false) :
    skipWs (w ++ c :: x) = c :: x := by
  rw [skipWs_allWs_append hw, skipWs_of_not_ws x h]

theorem noCont_ws_cons {w : Str} (hw : AllWs w) {c : Nat} (x : Str)
    (hc : c = 0x2C ∨ c = 0x5D ∨ c = 0x7D) : NoCont (w ++ c :: x) := by
  intro a ha
  cases w with
  | nil =>
    simp only [List.nil_append, List.head?_cons, Option.some.injEq] at ha
    subst ha
    rcases hc with rfl | rfl | rfl <;> decide
  | cons b w =>
    simp only [List.cons_append, List.head?_cons, Option.some.injEq] at ha
    subst ha
    have := isWs_cases (hw _ (List.mem_cons_self _ _))
    rcases this with rfl | rfl | rfl | rfl <;> decide

theorem noCont_allWs {w : Str} (hw : AllWs w) : NoCont w := by
  intro a ha
  cases w with
  | nil => cases ha
  | cons b w =>
    simp only [List.head?_cons, Option.some.injEq] at ha
    subst ha
    have := isWs_cases (hw _ (List.mem_cons_self _ _))
    rcases this with rfl | rfl | rfl | rfl <;> decide

theorem expectLit_self (lit r : Str) : expectLit lit (lit ++ r) = some r := by
  unfold expectLit
  have : lit.isPrefixOf (lit ++ r) = true := by
    rw [List.isPrefixOf_iff_prefix]
    exact ⟨r, rfl⟩
  simp [this]

theorem parseValue_null (f : Nat) (r : Str) : parseValue (f + 1) (utf16 "null" ++ r) = .ok .null r := by
  have e : utf16 "null" ++ r = 110 :: (utf16 "ull" ++ r) := rfl
  have h1 : expectLit (utf16 "true") (110 :: (utf16 "ull" ++ r)) = none := by
    rw [utf16_true]; exact expectLit_none_of_head _ (by decide)
  have h2 : expectLit (utf16 "false") (110 :: (utf16 "ull" ++ r)) = none := by
    rw [utf16_false]; exact expectLit_none_of_head _ (by decide)
  have h3 : expectLit (utf16 "null") (110 :: (utf16 "ull" ++ r)) = some r :=
    expectLit_self (utf16 "null") r
  rw [e]
  unfold parseValue
  simp [isDigit, h1, h2, h3]

theorem parseValue_true (f : Nat) (r : Str) :
    parseValue (f + 1) (utf16 "true" ++ r) = .ok (.bool true) r := by
  have e : utf16 "true" ++ r = 116 :: (utf16 "rue" ++ r) := rfl
  have h1 : expectLit (utf16 "true") (116 :: (utf16 "rue" ++ r)) = some r :=
    expectLit_self (utf16 "true") r
  rw [e]
  unfold parseValue
  simp [isDigit, h1]

theorem parseValue_false (f : Nat) (r : Str) :
    parseValue (f + 1) (utf16 "false" ++ r) = .ok (.bool false) r := by
  have e : utf16 "false" ++ r = 102 :: (utf16 "alse" ++ r) := rfl
  have h1 : expectLit (utf16 "true") (102 :: (utf16 "alse" ++ r)) = none := by
    rw [utf16_true]; exact expectLit_none_of_head _ (by decide)
  have h2 : expectLit (utf16 "false") (102 :: (utf16 "alse" ++ r)) = some r :=
    expectLit_self (utf16 "false") r
  rw [e]
  unfold parseValue
  simp [isDigit, h1, h2]

theorem parseValue_number {t : Str} {n : JNum} (hn : JNumber t n) {r : Str} (h : NoCont r)
    (f : Nat) : parseValue (f + 1) (t ++ r) = .ok (.num n) r := by
  obtain ⟨c, rest, hc, hd⟩ := jnumber_head hn
  have hp := parseNumber_complete hn h
  rw [hc] at hp ⊢
  simp only [List.cons_append] at hp ⊢
  have h1 : ¬ c = 0x7B := by rcases hd with rfl | hd; decide; rintro rfl; revert hd; decide
  have h2 : ¬ c = 0x5B := by rcases hd with rfl | hd; decide; rintro rfl; revert hd; decide
  have h3 : ¬ c = 0x22 := by rcases hd with rfl | hd; decide; rintro rfl; revert hd; decide
  unfold parseValue
  simp only [h1, h2, h3, if_false, hd, if_true, hp]

theorem parseValue_string {t v : Str} (h : JChars t v) (r : Str) (f : Nat) :
    parseValue (f + 1) (0x22 :: t ++ [0x22] ++ r) = .ok (.str v) r := by
  have hp := parseString_complete h r
  have e : 0x22 :: t ++ [0x22] ++ r = 0x22 :: (t ++ 0x22 :: r) := by simp
  rw [e]
  unfold parseValue
  simp [hp]

theorem parseValue_emptyArr {w : Str} (hw : AllWs w) (r : Str) (f : Nat) :
    parseValue (f + 1) (0x5B :: w ++ [0x5D] ++ r) = .ok (.arr []) r := by
  have e : 0x5B :: w ++ [0x5D] ++ r = 0x5B :: (w ++ 0x5D :: r) := by simp
  have hs : skipWs (w ++ 0x5D :: r) = 0x5D :: r := skipWs_ws_cons hw r (by decide)
  rw [e]
  unfold parseValue
  simp [hs]

theorem parseValue_emptyObj {w : Str} (hw : AllWs w) (r : Str) (f : Nat) :
    parseValue (f + 1) (0x7B :: w ++ [0x7D] ++ r) = .ok (.obj []) r := by
  have e : 0x7B :: w ++ [0x7D] ++ r = 0x7B :: (w ++ 0x7D :: r) := by simp
  have hs : skipWs (w ++ 0x7D :: r) = 0x7D :: r := skipWs_ws_cons hw r (by decide)
  rw [e]
  unfold parseValue
  simp [hs]

theorem parseValue_arr {te : Str} {vs : List JSVal} {r : Str} {f : Nat} {d : Nat} {x : Str}
    (hs : skipWs (te ++ 0x5D :: r) = d :: x) (hd : d ≠ 0x5D)
    (he : parseElements f (d :: x) = .ok vs r) :
    parseValue (f + 1) (0x5B :: te ++ [0x5D] ++ r) = .ok (.arr vs) r := by
  have e : 0x5B :: te ++ [0x5D] ++ r = 0x5B :: (te ++ 0x5D :: r) := by simp
  rw [e]
  unfold parseValue
  simp [hs, hd, he]

theorem parseValue_obj {tm : Str} {ms : List (Str × JSVal)} {r : Str} {f : Nat} {d : Nat}
    {x : Str} (hs : skipWs (tm ++ 0x7D :: r) = d :: x) (hd : d ≠ 0x7D)
    (hm : parseMembers f (d :: x) = .ok ms r) :
    parseValue (f + 1) (0x7B :: tm ++ [0x7D] ++ r) = .ok (.obj (mkObject ms)) r := by
  have e : 0x7B :: tm ++ [0x7D] ++ r = 0x7B :: (tm ++ 0x7D :: r) := by simp
  rw [e]
  unfold parseValue
  simp [hs, hd, hm]

theorem jelements_skip {te : Str} {vs : List JSVal} (h : JElements te vs) (y : Str) :
    ∃ c x, skipWs (te ++ y) = c :: x ∧ ValueHead c := by
  cases h with
  | one w1 t w2 v h1 hv _ =>
    obtain ⟨c, rest, hc, hh⟩ := jvalue_head hv
    refine ⟨c, rest ++ w2 ++ y, ?_, hh⟩
    rw [hc]
    have := skipWs_ws_cons h1 (rest ++ w2 ++ y) (valueHead_props hh).1
    simpa using this
  | cons w1 t w2 rest0 v vs h1 hv _ _ =>
    obtain ⟨c, rest, hc, hh⟩ := jvalue_head hv
    refine ⟨c, rest ++ w2 ++ 0x2C :: rest0 ++ y, ?_, hh⟩
    rw [hc]
    have := skipWs_ws_cons h1 (rest ++ w2 ++ 0x2C :: rest0 ++ y) (valueHead_props hh).1
    simpa using this

theorem jmembers_skip {tm : Str} {ms : List (Str × JSVal)} (h : JMembers tm ms) (y : Str) :
    ∃ x, skipWs (tm ++ y) = 0x22 :: x := by
  cases h with
  | one w1 kt k w2 w3 t w4 v h1 _ _ _ _ _ =>
    refine ⟨kt ++ 0x22 :: w2 ++ 0x3A :: w3 ++ t ++ w4 ++ y, ?_⟩
    have := skipWs_ws_cons h1 (kt ++ 0x22 :: w2 ++ 0x3A :: w3 ++ t ++ w4 ++ y)
      (by decide : isWs 0x22 = false)
    simpa using this
  | cons w1 kt k w2 w3 t w4 rest0 v ms h1 _ _ _ _ _ _ =>
    refine ⟨kt ++ 0x22 :: w2 ++ 0x3A :: w3 ++ t ++ w4 ++ 0x2C :: rest0 ++ y, ?_⟩
    have := skipWs_ws_cons h1
      (kt ++ 0x22 :: w2 ++ 0x3A :: w3 ++ t ++ w4 ++ 0x2C :: rest0 ++ y)
      (by decide : isWs 0x22 = false)
    simpa using this

theorem succ_of_le {n f : Nat} (h : n + 1 ≤ f) : ∃ g, f = g + 1 := ⟨f - 1, by omega⟩

mutual
/-- Every value of the grammar is parsed, with the value it denotes, when
what follows does not continue a number. -/
theorem value_complete : ∀ {t : Str} {v : JSVal}, JValue t v → ∀ (r : Str), NoCont r →
    ∀ f, 2 * t.length + 1 ≤ f → parseValue f (t ++ r) = .ok v r
  | _, _, .litNull, r, _, f, hf => by
    obtain ⟨g, rfl⟩ := succ_of_le hf
    exact parseValue_null g r
  | _, _, .litTrue, r, _, f, hf => by
    obtain ⟨g, rfl⟩ := succ_of_le hf
    exact parseValue_true g r
  | _, _, .litFalse, r, _, f, hf => by
    obtain ⟨g, rfl⟩ := succ_of_le hf
    exact parseValue_false g r
  | _, _, .num t n hn, r, hr, f, hf => by
    obtain ⟨g, rfl⟩ := succ_of_le hf
    exact parseValue_number hn hr g
  | _, _, .str t v hc, r, _, f, hf => by
    obtain ⟨g, rfl⟩ := succ_of_le hf
    exact parseValue_string hc r g
  | _, _, .emptyArr w hw, r, _, f, hf => by
    obtain ⟨g, rfl⟩ := succ_of_le hf
    exact parseValue_emptyArr hw r g
  | _, _, .emptyObj w hw, r, _, f, hf => by
    obtain ⟨g, rfl⟩ := succ_of_le hf
    exact parseValue_emptyObj hw r g
  | _, _, .arr te vs he, r, _, f, hf => by
    obtain ⟨g, rfl⟩ := succ_of_le hf
    obtain ⟨c, x, hs, hh⟩ := jelements_skip he (0x5D :: r)
    have := elements_complete he r g (by
      simp only [List.length_cons, List.length_append, List.length_nil] at hf
      omega)
    rw [hs] at this
    exact parseValue_arr hs (valueHead_props hh).2.1 this
  | _, _, .obj tm ms hm, r, _, f, hf => by
    obtain ⟨g, rfl⟩ := succ_of_le hf
    obtain ⟨x, hs⟩ := jmembers_skip hm (0x7D :: r)
    have := members_complete hm r g (by
      simp only [List.length_cons, List.length_append, List.length_nil] at hf
      omega)
    rw [hs] at this
    exact parseValue_obj hs (by decide) this
/-- The elements of an array of the grammar are parsed up to the closing bracket. -/
theorem elements_complete : ∀ {t : Str} {vs : List JSVal}, JElements t vs → ∀ (r : Str),
    ∀ f, 2 * t.length + 2 ≤ f → parseElements f (skipWs (t ++ 0x5D :: r)) = .ok vs r
  | _, _, .one w1 t w2 v h1 hv h2, r, f, hf => by
    obtain ⟨g, rfl⟩ := succ_of_le hf
    obtain ⟨c, rest, hc, hh⟩ := jvalue_head hv
    have e : w1 ++ t ++ w2 ++ 0x5D :: r = w1 ++ c :: (rest ++ (w2 ++ 0x5D :: r)) := by
      rw [hc]; simp
    rw [e, skipWs_ws_cons h1 _ (valueHead_props hh).1]
    have hp := value_complete hv (w2 ++ 0x5D :: r) (noCont_ws_cons h2 r (Or.inr (Or.inl rfl))) g
      (by simp only [List.length_append] at hf; omega)
    rw [hc] at hp
    simp only [List.cons_append] at hp
    have hs : skipWs (w2 ++ 0x5D :: r) = 0x5D :: r := skipWs_ws_cons h2 r (by decide)
    unfold parseElements
    simp [hp, hs]
  | _, _, .cons w1 t w2 rest0 v vs h1 hv h2 hrest, r, f, hf => by
    obtain ⟨g, rfl⟩ := succ_of_le hf
    obtain ⟨c, rest, hc, hh⟩ := jvalue_head hv
    have e : w1 ++ t ++ w2 ++ 0x2C :: rest0 ++ 0x5D :: r
        = w1 ++ c :: (rest ++ (w2 ++ 0x2C :: (rest0 ++ 0x5D :: r))) := by
      rw [hc]; simp
    rw [e, skipWs_ws_cons h1 _ (valueHead_props hh).1]
    have hlen : t.length ≥ 1 := by rw [hc]; simp
    have hp := value_complete hv (w2 ++ 0x2C :: (rest0 ++ 0x5D :: r))
      (noCont_ws_cons h2 _ (Or.inl rfl)) g
      (by simp only [List.length_append, List.length_cons] at hf; omega)
    rw [hc] at hp
    simp only [List.cons_append] at hp
    have hs : skipWs (w2 ++ 0x2C :: (rest0 ++ 0x5D :: r)) = 0x2C :: (rest0 ++ 0x5D :: r) :=
      skipWs_ws_cons h2 _ (by decide)
    have hr := elements_complete hrest r g
      (by simp only [List.length_append, List.length_cons] at hf; omega)
    unfold parseElements
    simp [hp, hs, hr]
/-- The members of an object of the grammar are parsed up to the closing brace. -/
theorem members_complete : ∀ {t : Str} {ms : List (Str × JSVal)}, JMembers t ms → ∀ (r : Str),
    ∀ f, 2 * t.length + 2 ≤ f → parseMembers f (skipWs (t ++ 0x7D :: r)) = .ok ms r
  | _, _, .one w1 kt k w2 w3 t w4 v h1 hk h2 h3 hv h4, r, f, hf => by
    obtain ⟨g, rfl⟩ := succ_of_le hf
    obtain ⟨c, rest, hc, hh⟩ := jvalue_head hv
    have e : w1 ++ 0x22 :: kt ++ 0x22 :: w2 ++ 0x3A :: w3 ++ t ++ w4 ++ 0x7D :: r
        = w1 ++ 0x22 :: (kt ++ 0x22 :: (w2 ++ 0x3A :: (w3 ++ c :: (rest ++ (w4 ++ 0x7D :: r)))))
        := by
      rw [hc]; simp
    rw [e, skipWs_ws_cons h1 _ (by decide)]
    have hkey := parseString_complete hk (w2 ++ 0x3A :: (w3 ++ c :: (rest ++ (w4 ++ 0x7D :: r))))
    have hs2 : skipWs (w2 ++ 0x3A :: (w3 ++ c :: (rest ++ (w4 ++ 0x7D :: r))))
        = 0x3A :: (w3 ++ c :: (rest ++ (w4 ++ 0x7D :: r))) := skipWs_ws_cons h2 _ (by decide)
    have hs3 : skipWs (w3 ++ c :: (rest ++ (w4 ++ 0x7D :: r)))
        = c :: (rest ++ (w4 ++ 0x7D :: r)) := skipWs_ws_cons h3 _ (valueHead_props hh).1
    have hp := value_complete hv (w4 ++ 0x7D :: r) (noCont_ws_cons h4 r (Or.inr (Or.inr rfl))) g
      (by simp only [List.length_append, List.length_cons] at hf; omega)
    rw [hc] at hp
    simp only [List.cons_append] at hp
    have hs4 : skipWs (w4 ++ 0x7D :: r) = 0x7D :: r := skipWs_ws_cons h4 r (by decide)
    unfold parseMembers
    simp [hkey, hs2, hs3, hp, hs4]
  | _, _, .cons w1 kt k w2 w3 t w4 rest0 v ms h1 hk h2 h3 hv h4 hrest, r, f, hf => by
    obtain ⟨g, rfl⟩ := succ_of_le hf
    obtain ⟨c, rest, hc, hh⟩ := jvalue_head hv
    have e : w1 ++ 0x22 :: kt ++ 0x22 :: w2 ++ 0x3A :: w3 ++ t ++ w4 ++ 0x2C :: rest0 ++ 0x7D :: r
        = w1 ++ 0x22 :: (kt ++ 0x22 :: (w2 ++ 0x3A :: (w3 ++ c :: (rest ++
            (w4 ++ 0x2C :: (rest0 ++ 0x7D :: r)))))) := by
      rw [hc]; simp
    rw [e, skipWs_ws_cons h1 _ (by decide)]
    have hkey := parseString_complete hk
      (w2 ++ 0x3A :: (w3 ++ c :: (rest ++ (w4 ++ 0x2C :: (rest0 ++ 0x7D :: r)))))
    have hs2 : skipWs (w2 ++ 0x3A :: (w3 ++ c :: (rest ++ (w4 ++ 0x2C :: (rest0 ++ 0x7D :: r)))))
        = 0x3A :: (w3 ++ c :: (rest ++ (w4 ++ 0x2C :: (rest0 ++ 0x7D :: r)))) :=
      skipWs_ws_cons h2 _ (by decide)
    have hs3 : skipWs (w3 ++ c :: (rest ++ (w4 ++ 0x2C :: (rest0 ++ 0x7D :: r))))
        = c :: (rest ++ (w4 ++ 0x2C :: (rest0 ++ 0x7D :: r))) :=
      skipWs_ws_cons h3 _ (valueHead_props hh).1
    have hp := value_complete hv (w4 ++ 0x2C :: (rest0 ++ 0x7D :: r))
      (noCont_ws_cons h4 _ (Or.inl rfl)) g
      (by simp only [List.length_append, List.length_cons] at hf; omega)
    rw [hc] at hp
    simp only [List.cons_append] at hp
    have hs4 : skipWs (w4 ++ 0x2C :: (rest0 ++ 0x7D :: r)) = 0x2C :: (rest0 ++ 0x7D :: r) :=
      skipWs_ws_cons h4 _ (by decide)
    have hr := members_complete hrest r g
      (by simp only [List.length_append, List.length_cons] at hf; omega)
    unfold parseMembers
    simp [hkey, hs2, hs3, hp, hs4, hr]
end

/-- Completeness of `jsonParse`: every well-formed JSON text is parsed, with
the value it denotes. -/
theorem jsonParse_complete {s : Str} {v : JSVal} (h : JSONText s v) : jsonParse s = .ok v := by
  obtain ⟨w1, t, w2, h1, hv, h2, hs⟩ := h
  obtain ⟨c, rest, hc, hh⟩ := jvalue_head hv
  rw [jsonParse_eq_ok_iff]
  refine ⟨w2, ?_, skipWs_allWs h2⟩
  have e : s = w1 ++ c :: (rest ++ w2) := by rw [hs, hc]; simp
  have hsk : skipWs s = t ++ w2 := by
    rw [e, skipWs_ws_cons h1 _ (valueHead_props hh).1, hc]
    rfl
  rw [hsk]
  apply value_complete hv w2 (noCont_allWs h2)
  have := congrArg List.length hs
  simp only [List.length_append] at this
  omega

/-- `jsonParse` returns a value exactly for the well-formed JSON texts. -/
theorem jsonParse_iff (s : Str) (v : JSVal) : jsonParse s = .ok v ↔ JSONText s v :=
  ⟨jsonParse_sound, jsonParse_complete⟩

/-! ## The claims -/

/-- C1: for every well-formed JSON text `s` (denoting the value `v`) without
a run of three backticks, `runAgent` on the response made of the `json` fence
marker, a line feed, `s`, a line feed and the closing fence marker returns
`v`, which is what parsing `s` directly returns. -/
theorem runAgent_fenced_json (env : Env) (stage : Stage) (prompt s : Str) (v : JSVal)
    (hs : ¬ fence <:+: s) (hjson : JSONText s v)
    (hr : env.generateContent stage prompt
      = .ok (fenceJson ++ utf16 "\n" ++ s ++ utf16 "\n" ++ fence)) :
    runAgent env stage prompt = .ok v ∧ jsonParse s = .ok v := by
  have hv : jsonParse s = .ok v := jsonParse_complete hjson
  refine ⟨?_, hv⟩
  have hsafe : TickSafe (utf16 "\n" ++ s ++ utf16 "\n") := by
    constructor
    · intro hi
      have e : utf16 "\n" ++ s ++ utf16 "\n" = 10 :: (s ++ [10]) := rfl
      rw [e, List.infix_cons_iff] at hi
      rcases hi with hp | hi
      · obtain ⟨t, ht⟩ := hp
        have : backtick = 10 := by
          have := congrArg List.head? ht
          simpa [fence] using this
        revert this
        decide
      · rw [List.infix_concat_iff] at hi
        rcases hi with hsuf | hi
        · obtain ⟨t, ht⟩ := hsuf
          have := congrArg List.getLast? ht
          rw [List.getLast?_append] at this
          simp [fence] at this
          revert this
          decide
        · exact hs hi
    · intro b hb
      have e : utf16 "\n" ++ s ++ utf16 "\n" = (10 :: s) ++ [10] := rfl
      rw [e] at hb
      have := (List.append_inj' hb rfl).2
      revert this
      decide
  have hc := @cleanedText_fenced [] _ [] (by intro c hc; cases hc) hsafe
    (by intro c hc; cases hc)
  simp only [List.nil_append, List.append_nil] at hc
  have hraw : fenceJson ++ utf16 "\n" ++ s ++ utf16 "\n" ++ fence
      = fenceJson ++ (utf16 "\n" ++ s ++ utf16 "\n") ++ fence := by simp
  have hws : AllWs (utf16 "\n") := by
    intro c hc
    have : c = 10 := by simpa [utf16, utf16Char] using hc
    subst this
    decide
  simp only [runAgent, hr, hraw, hc]
  exact jsonParse_pad hv hws hws

/-- C1, at the response of the spec: the fenced text of the object with the
member `a` equal to one yields that object. -/
theorem runAgent_fenced_json_example :
    runAgent (scriptedEnv (.ok (utf16 "```json\n\x7b\"a\":1\x7d\n```")) (.error .rejected)
        (.error .rejected)) .extractor []
      = .ok (.obj [(utf16 "a", .num ⟨false, 1, 0⟩)]) :=
  (runAgent_fenced_json _ .extractor [] (utf16 "\x7b\"a\":1\x7d") _ (by decide)
    (jsonParse_sound (by decide)) (by decide)).1

/-- C2: when the cleaned text of a model response is not a well-formed JSON
text (one JSON value with optional white space around it, nothing else),
`runAgent` throws a `SyntaxError`; and a value that `runAgent` returns is the
value the whole cleaned text denotes, never a default or the value of a part. -/
theorem runAgent_strict (env : Env) (stage : Stage) (prompt rawText : Str)
    (hr : env.generateContent stage prompt = .ok rawText) :
    ((∀ v, ¬ JSONText (cleanedText rawText) v) →
      runAgent env stage prompt = .error .syntaxError) ∧
    (∀ v, runAgent env stage prompt = .ok v → JSONText (cleanedText rawText) v) := by
  have hrun : runAgent env stage prompt = jsonParse (cleanedText rawText) := by
    simp [runAgent, hr]
  rw [hrun]
  refine ⟨?_, fun v hv => jsonParse_sound hv⟩
  intro hn
  cases hp : jsonParse (cleanedText rawText) with
  | ok v => exact absurd (jsonParse_sound hp) (hn v)
  | error e => rw [jsonParse_error hp]

/-- C2, at the responses the spec names: text that is no data, a document
followed by prose and a truncated document all make `runAgent` throw. -/
theorem runAgent_strict_example :
    runAgent (scriptedEnv (.ok (utf16 "not json at all")) (.error .rejected) (.error .rejected))
        .extractor [] = .error .syntaxError ∧
    runAgent (scriptedEnv (.ok (utf16 "\x7b\"a\":1\x7d and some prose")) (.error .rejected)
        (.error .rejected)) .extractor [] = .error .syntaxError ∧
    runAgent (scriptedEnv (.ok (utf16 "\x7b\"a\":[1, 2")) (.error .rejected)
        (.error .rejected)) .extractor [] = .error .syntaxError :=
  ⟨(runAgent_strict _ .extractor [] (utf16 "not json at all") (by decide)).1
      (fun v => by
        have e : cleanedText (utf16 "not json at all") = utf16 "not json at all" := by decide
        rw [e]
        exact not_json_at_all v),
    by decide, by decide⟩

/-- C3: for every raw model response, the text `runAgent` hands to
`JSON.parse` contains no run of three backticks, wherever the fence markers
stood in the response; and `runAgent` parses exactly that text. -/
theorem cleanedText_no_fence :
    (∀ rawText : Str, ¬ fence <:+: cleanedText rawText) ∧
    (∀ (env : Env) (stage : Stage) (prompt rawText : Str),
      env.generateContent stage prompt = .ok rawText →
        runAgent env stage prompt = jsonParse (cleanedText rawText)) := by
  refine ⟨fun rawText => removeAll_fence_no_fence _, ?_⟩
  intro env stage prompt rawText h
  simp [runAgent, h]

/-- C4, as the code has it: when only JSON white space stands before the
opening `json` fence marker and after the closing fence marker, and the
fenced text is a well-formed JSON text (denoting `v`) without a run of three
backticks, `runAgent` returns `v`. -/
theorem runAgent_fenced_block (env : Env) (stage : Stage) (prompt w1 s w2 : Str) (v : JSVal)
    (h1 : AllWs w1) (h2 : AllWs w2) (hs : ¬ fence <:+: s) (hjson : JSONText s v)
    (hr : env.generateContent stage prompt = .ok (w1 ++ fenceJson ++ s ++ fence ++ w2)) :
    runAgent env stage prompt = .ok v := by
  have hv : jsonParse s = .ok v := jsonParse_complete hjson
  have hsafe : TickSafe s := ⟨hs, jsonParse_last_ne_backtick hv⟩
  simp only [runAgent, hr, cleanedText_fenced h1 hsafe h2]
  exact jsonParse_pad hv h1 h2

/-- C4, an instance: a fenced block between blank lines. -/
theorem runAgent_fenced_block_example :
    runAgent (scriptedEnv (.ok (utf16 "\n\n```json\n[true, null]\n```\n\n")) (.error .rejected)
        (.error .rejected)) .extractor []
      = .ok (.arr [.bool true, .null]) :=
  runAgent_fenced_block _ .extractor [] (utf16 "\n\n") (utf16 "\n[true, null]\n") (utf16 "\n\n") _
    (by decide) (by decide) (by decide) (jsonParse_sound (by decide)) (by decide)

/-- C4 fails as stated: a fenced block with a well-formed document in the
middle of prose is not extracted, `runAgent` throws a `SyntaxError`; and a
fenced document with three backticks inside a string comes back without them. -/
theorem runAgent_fenced_block_in_prose :
    jsonParse (utf16 "\n\x7b\"a\":1\x7d\n") = .ok (.obj [(utf16 "a", .num ⟨false, 1, 0⟩)]) ∧
    runAgent (scriptedEnv
        (.ok (utf16 "Here is the result:\n" ++ fenceJson ++ utf16 "\n\x7b\"a\":1\x7d\n" ++ fence
          ++ utf16 "\nDone."))
        (.error .rejected) (.error .rejected)) .extractor []
      = .error .syntaxError ∧
    jsonParse (utf16 "\x7b\"a\":\"```\"\x7d") = .ok (.obj [(utf16 "a", .str (utf16 "```"))]) ∧
    runAgent (scriptedEnv
        (.ok (utf16 "\n" ++ fenceJson ++ utf16 "\x7b\"a\":\"```\"\x7d" ++ fence ++ utf16 "\n"))
        (.error .rejected) (.error .rejected)) .extractor []
      = .ok (.obj [(utf16 "a", .str [])]) := by
  refine ⟨by decide, by decide, by decide, by decide⟩

/-- C5: in a run of `/api/process` that passed validation, when the text
extraction fails, or `runAgent` fails at the Extractor, Planner or Executor
stage (the model call is rejected or the cleaned response is not parsed), the
response is the status 500 with the generic error body, and the trace ends
with the failing call: no later stage and no job search is invoked. -/
theorem apiProcess_stage_failure (env : Env) (req : Request)
    (hjd : isBlank req.jobDescription = false)
    (hres : (isBlank req.resumeText && req.resumeFile.isNone) = false) :
    (∀ trace, failed trace
      = ⟨500, .obj [(utf16 "error", .str (utf16 "An error occurred during processing."))],
          trace⟩) ∧
    (∀ stage prompt e, runAgent env stage prompt = .error e ↔
      (env.generateContent stage prompt = .error e ∨
        ∃ rawText, env.generateContent stage prompt = .ok rawText ∧
          jsonParse (cleanedText rawText) = .error e)) ∧
    (∀ e, rawTextOf env req = .error e → apiProcess env req = failed (pdfTrace req)) ∧
    (∀ rawText e, rawTextOf env req = .ok rawText →
      runAgent env .extractor (extractorPrompt rawText) = .error e →
      apiProcess env req
        = failed (pdfTrace req ++ [Event.generateContent .extractor (extractorPrompt rawText)])) ∧
    (∀ rawText resumeJSON e, rawTextOf env req = .ok rawText →
      runAgent env .extractor (extractorPrompt rawText) = .ok resumeJSON →
      runAgent env .planner (plannerPrompt env.ops resumeJSON (req.jobDescription.getD []))
        = .error e →
      apiProcess env req
        = failed (pdfTrace req ++ [Event.generateContent .extractor (extractorPrompt rawText),
            Event.generateContent .planner
              (plannerPrompt env.ops resumeJSON (req.jobDescription.getD []))])) ∧
    (∀ rawText resumeJSON plan prompt e, rawTextOf env req = .ok rawText →
      runAgent env .extractor (extractorPrompt rawText) = .ok resumeJSON →
      runAgent env .planner (plannerPrompt env.ops resumeJSON (req.jobDescription.getD []))
        = .ok plan →
      executorPrompt env.ops resumeJSON plan = .ok prompt →
      runAgent env .executor prompt = .error e →
      apiProcess env req
        = failed (pdfTrace req ++ [Event.generateContent .extractor (extractorPrompt rawText),
            Event.generateContent .planner
              (plannerPrompt env.ops resumeJSON (req.jobDescription.getD [])),
            Event.generateContent .executor prompt])) := by
  refine ⟨fun _ => rfl, ?_, ?_, ?_, ?_, ?_⟩
  · intro stage prompt e
    unfold runAgent
    cases hg : env.generateContent stage prompt with
    | error e2 => simp
    | ok rawText => simp
  · intro e h
    rw [apiProcess_valid hjd hres, h]
  · intro rawText e h h1
    rw [apiProcess_valid hjd hres, h]
    simp [extractorStage, h1]
  · intro rawText resumeJSON e h h1 h2
    rw [apiProcess_valid hjd hres, h]
    simp [extractorStage, h1, plannerStage, h2]
  · intro rawText resumeJSON plan prompt e h h1 h2 h3 h4
    rw [apiProcess_valid hjd hres, h]
    simp [extractorStage, h1, plannerStage, h2, executorStage, h3, h4]

/-- C5, an instance: the Planner's response is not JSON; the run ends with
status 500 after the Extractor and Planner calls. -/
theorem apiProcess_stage_failure_example :
    apiProcess
        (scriptedEnv (.ok (utf16 "\x7b\"name\":\"A\"\x7d")) (.ok (utf16 "not json at all"))
          (.ok (utf16 "\x7b\x7d")))
        ⟨some (utf16 "resume"), some (utf16 "job"), none⟩
      = failed [Event.generateContent .extractor (extractorPrompt (utf16 "resume")),
          Event.generateContent .planner
            (plannerPrompt exampleOps (.obj [(utf16 "name", .str (utf16 "A"))]) (utf16 "job"))] :=
  (apiProcess_stage_failure
    (scriptedEnv (.ok (utf16 "\x7b\"name\":\"A\"\x7d")) (.ok (utf16 "not json at all"))
      (.ok (utf16 "\x7b\x7d")))
    ⟨some (utf16 "resume"), some (utf16 "job"), none⟩ (by decide) (by decide)).2.2.2.2.1
    (utf16 "resume") (.obj [(utf16 "name", .str (utf16 "A"))]) .syntaxError
    (by decide) (by decide) (by decide)

/-- On a request with text fields the handler answers 400 exactly when
`jobDescription` is absent or empty, or `resumeText` is absent or empty and no
file is uploaded; and a run that answers 400 has called no collaborator. -/
theorem apiProcess_validation (env : Env) (req : Request) :
    ((apiProcess env req).status = 400 ↔
      (isBlank req.jobDescription = true ∨
        (isBlank req.resumeText = true ∧ req.resumeFile = none))) ∧
    ((apiProcess env req).status = 400 → (apiProcess env req).trace = []) := by
  cases hjd : isBlank req.jobDescription with
  | true => simp [apiProcess, hjd]
  | false =>
    cases hres : (isBlank req.resumeText && req.resumeFile.isNone) with
    | true =>
      have h1 : isBlank req.resumeText = true ∧ req.resumeFile = none := by
        simpa [Option.isNone_iff_eq_none] using hres
      simp [apiProcess, hjd, hres, h1]
    | false =>
      have hs := (@apiProcess_valid_stages env req hjd hres).2
      have hne : (apiProcess env req).status ≠ 400 := by
        rcases hs with h | h <;> rw [h] <;> decide
      have h1 : ¬ (isBlank req.resumeText = true ∧ req.resumeFile = none) := by
        rintro ⟨ha, hb⟩
        simp [ha, hb] at hres
      simp [hne, h1]

/-- C7: in a run that answers 200, the returned `tailoredResume` is built
from the Extractor's result `resumeJSON` and the Executor's result
`newSections`; when `resumeJSON` is an object, its `summary` is
`newSections.tailoredSummary`, its `experience` is
`newSections.tailoredExperience`, and under every other key it has exactly
what `resumeJSON` has (the same value, or no property where `resumeJSON` has none). -/
theorem tailoredResume_frame (env : Env) (req : Request)
    (h : (apiProcess env req).status = 200) :
    ∃ rawText resumeJSON plan prompt newSections tailored,
      rawTextOf env req = .ok rawText ∧
      runAgent env .extractor (extractorPrompt rawText) = .ok resumeJSON ∧
      runAgent env .planner (plannerPrompt env.ops resumeJSON (req.jobDescription.getD []))
        = .ok plan ∧
      executorPrompt env.ops resumeJSON plan = .ok prompt ∧
      runAgent env .executor prompt = .ok newSections ∧
      getProp (apiProcess env req).body (utf16 "tailoredResume") = .ok tailored ∧
      ∀ ps, resumeJSON = .obj ps →
        ∃ qs summary experience,
          tailored = .obj qs ∧
          getProp newSections (utf16 "tailoredSummary") = .ok summary ∧
          getProp newSections (utf16 "tailoredExperience") = .ok experience ∧
          lookupProp qs (utf16 "summary") = some summary ∧
          lookupProp qs (utf16 "experience") = some experience ∧
          ∀ k, k ≠ utf16 "summary" → k ≠ utf16 "experience" →
            lookupProp qs k = lookupProp ps k := by
  obtain ⟨rawText, resumeJSON, plan, prompt, newSections, tailored, query, es, sg,
    h0, h1, h2, h3, h4, h5, h6, h7, h8, hrun⟩ := apiProcess_ok h
  refine ⟨rawText, resumeJSON, plan, prompt, newSections, tailored, h0, h1, h2, h3, h4, ?_, ?_⟩
  · rw [hrun]
    simp only [successBody, getProp, lookupProp_cons, if_true, Option.getD_some]
  · intro ps hps
    subst hps
    have hnd := runAgent_obj_nodup h1
    unfold tailoredResume at h5
    split at h5
    · cases h5
    · next summary hsum =>
      split at h5
      · cases h5
      · next experience hexp =>
        injection h5 with h5
        refine ⟨_, summary, experience, h5.symm, hsum, hexp, ?_, ?_, ?_⟩
        · rw [lookupProp_setProp, lookupProp_setProp]
          simp only [if_true]
          rw [if_neg (by decide)]
        · rw [lookupProp_setProp]
          simp
        · intro k hk1 hk2
          rw [lookupProp_setProp, if_neg hk2, lookupProp_setProp, if_neg hk1]
          exact lookupProp_mkObject ps hnd k

/-- C7, an instance: a run that answers 200; the returned resume has the
Executor's summary and the Extractor's name. -/
theorem tailoredResume_frame_example :
    (apiProcess envAllStages textRequest).status = 200 ∧
    ∃ qs,
      getProp (apiProcess envAllStages textRequest).body (utf16 "tailoredResume")
        = .ok (.obj qs) ∧
      lookupProp qs (utf16 "summary") = some (.str (utf16 "S")) ∧
      lookupProp qs (utf16 "name") = some (.str (utf16 "A")) := by
  obtain ⟨rawText, resumeJSON, plan, prompt, newSections, tailored, _, h1, _, _, h4, ht, hframe⟩ :=
    tailoredResume_frame envAllStages textRequest (by decide)
  have e1 : runAgent envAllStages .extractor (extractorPrompt rawText)
      = .ok (.obj [(utf16 "name", .str (utf16 "A")), (utf16 "summary", .str (utf16 "old")),
          (utf16 "experience", .arr []), (utf16 "skills", .arr [.str (utf16 "x")])]) := by
    unfold envAllStages
    rw [runAgent_scriptedEnv]
    decide
  have e4 : runAgent envAllStages .executor prompt
      = .ok (.obj [(utf16 "tailoredSummary", .str (utf16 "S")),
          (utf16 "tailoredExperience", .arr [])]) := by
    unfold envAllStages
    rw [runAgent_scriptedEnv]
    decide
  rw [e1] at h1
  rw [e4] at h4
  injection h1 with h1
  injection h4 with h4
  obtain ⟨qs, summary, experience, hq, hs, _, hsum, _, hother⟩ := hframe _ h1.symm
  refine ⟨by decide, qs, by rw [ht, hq], ?_, ?_⟩
  · rw [hsum]
    subst h4
    have : getProp (.obj [(utf16 "tailoredSummary", .str (utf16 "S")),
        (utf16 "tailoredExperience", .arr [])]) (utf16 "tailoredSummary")
          = .ok (.str (utf16 "S")) := by decide
    rw [this] at hs
    injection hs with hs
    rw [hs]
  · rw [hother (utf16 "name") (by decide) (by decide)]
    decide

/-- C8, as the code has it: in a run that answers 200 the `experience` of
the returned `tailoredResume` is the `tailoredExperience` of the Executor's
parsed response, whatever its length (`undefined` when the response has
none); the length of the Extractor's `experience` plays no part. -/
theorem tailoredResume_experience (env : Env) (req : Request)
    (h : (apiProcess env req).status = 200) :
    ∃ rawText resumeJSON plan prompt newSections tailored experience,
      rawTextOf env req = .ok rawText ∧
      runAgent env .extractor (extractorPrompt rawText) = .ok resumeJSON ∧
      runAgent env .planner (plannerPrompt env.ops resumeJSON (req.jobDescription.getD []))
        = .ok plan ∧
      executorPrompt env.ops resumeJSON plan = .ok prompt ∧
      runAgent env .executor prompt = .ok newSections ∧
      getProp (apiProcess env req).body (utf16 "tailoredResume") = .ok tailored ∧
      getProp newSections (utf16 "tailoredExperience") = .ok experience ∧
      getProp tailored (utf16 "experience") = .ok experience := by
  obtain ⟨rawText, resumeJSON, plan, prompt, newSections, tailored, query, es, sg,
    h0, h1, h2, h3, h4, h5, h6, h7, h8, hrun⟩ := apiProcess_ok h
  unfold tailoredResume at h5
  split at h5
  · cases h5
  · next summary hsum =>
    split at h5
    · cases h5
    · next experience hexp =>
      injection h5 with h5
      refine ⟨rawText, resumeJSON, plan, prompt, newSections, tailored, experience,
        h0, h1, h2, h3, h4, ?_, hexp, ?_⟩
      · rw [hrun]
        simp only [successBody, getProp, lookupProp_cons, if_true, Option.getD_some]
      · rw [← h5]
        simp only [getProp, lookupProp_setProp, if_true, Option.getD_some]

/-- C8, an instance: the Executor answers one entry, and one entry is returned. -/
theorem tailoredResume_experience_example :
    (apiProcess envFewerEntries textRequest).status = 200 ∧
    ∃ tailored,
      getProp (apiProcess envFewerEntries textRequest).body (utf16 "tailoredResume")
        = .ok tailored ∧
      getProp tailored (utf16 "experience")
        = .ok (.arr [.obj [(utf16 "role", .str (utf16 "z"))]]) := by
  obtain ⟨_, _, _, prompt, newSections, tailored, experience, _, _, _, _, h4, ht, hx, he⟩ :=
    tailoredResume_experience envFewerEntries textRequest (by decide)
  have e4 : runAgent envFewerEntries .executor prompt
      = .ok (.obj [(utf16 "tailoredSummary", .str (utf16 "S")),
          (utf16 "tailoredExperience", .arr [.obj [(utf16 "role", .str (utf16 "z"))]])]) := by
    unfold envFewerEntries
    rw [runAgent_scriptedEnv]
    decide
  rw [e4] at h4
  injection h4 with h4
  subst h4
  have : getProp (.obj [(utf16 "tailoredSummary", .str (utf16 "S")),
      (utf16 "tailoredExperience", .arr [.obj [(utf16 "role", .str (utf16 "z"))]])])
        (utf16 "tailoredExperience")
      = .ok (.arr [.obj [(utf16 "role", .str (utf16 "z"))]]) := by decide
  rw [this] at hx
  injection hx with hx
  subst hx
  exact ⟨by decide, tailored, ht, he⟩

/-- C8 fails as stated: the Extractor's document has three experience
entries, the run answers 200, and the returned resume has one entry. -/
theorem experience_length_not_preserved :
    runAgent envFewerEntries .extractor (extractorPrompt (utf16 "resume"))
      = .ok (.obj [(utf16 "experience",
          .arr [.obj [(utf16 "role", .str (utf16 "a"))],
            .obj [(utf16 "role", .str (utf16 "b"))],
            .obj [(utf16 "role", .str (utf16 "c"))]])]) ∧
    (apiProcess envFewerEntries textRequest).status = 200 ∧
    getProp (apiProcess envFewerEntries textRequest).body (utf16 "tailoredResume")
      = .ok (.obj [(utf16 "experience", .arr [.obj [(utf16 "role", .str (utf16 "z"))]]),
          (utf16 "summary", .str (utf16 "S"))]) := by
  refine ⟨by decide, by decide, by decide⟩

/-- C9, as the code has it: when the Planner's response parses to an object
whose `rewritePlan` is absent or the empty string, the handler still calls
the Executor; the placeholder of the plan is replaced by the text
`undefined` when the plan is absent and by the empty string when it is empty. -/
theorem executor_invoked_without_plan (env : Env) (req : Request) (rawText : Str)
    (resumeJSON : JSVal) (ps : List (Str × JSVal))
    (hjd : isBlank req.jobDescription = false)
    (hres : (isBlank req.resumeText && req.resumeFile.isNone) = false)
    (h0 : rawTextOf env req = .ok rawText)
    (h1 : runAgent env .extractor (extractorPrompt rawText) = .ok resumeJSON)
    (h2 : runAgent env .planner (plannerPrompt env.ops resumeJSON (req.jobDescription.getD []))
      = .ok (.obj ps)) :
    (lookupProp ps (utf16 "rewritePlan") = none →
      Event.generateContent .executor
          (jsReplace
            (jsReplace executorPromptTemplate (utf16 "\x7bresumeData\x7d")
              (stringifyArg env.ops resumeJSON))
            (utf16 "\x7brewritePlan\x7d") (utf16 "undefined"))
        ∈ (apiProcess env req).trace) ∧
    (lookupProp ps (utf16 "rewritePlan") = some (.str []) →
      Event.generateContent .executor
          (jsReplace
            (jsReplace executorPromptTemplate (utf16 "\x7bresumeData\x7d")
              (stringifyArg env.ops resumeJSON))
            (utf16 "\x7brewritePlan\x7d") [])
        ∈ (apiProcess env req).trace) := by
  have hrun : apiProcess env req
      = executorStage env
          (pdfTrace req ++ [Event.generateContent .extractor (extractorPrompt rawText)] ++
            [Event.generateContent .planner
              (plannerPrompt env.ops resumeJSON (req.jobDescription.getD []))])
          resumeJSON (.obj ps) := by
    rw [apiProcess_valid hjd hres, h0]
    simp [extractorStage, h1, plannerStage, h2]
  rw [hrun]
  constructor
  · intro hnone
    apply executorStage_calls
    simp [executorPrompt, getProp, hnone, toStr]
  · intro hempty
    apply executorStage_calls
    simp [executorPrompt, getProp, hempty, toStr]

/-- C9, an instance: the Planner answers the empty object. -/
theorem executor_invoked_without_plan_example :
    Event.generateContent .executor
        (jsReplace
          (jsReplace executorPromptTemplate (utf16 "\x7bresumeData\x7d")
            (stringifyArg exampleOps (.obj [(utf16 "name", .str (utf16 "A"))])))
          (utf16 "\x7brewritePlan\x7d") (utf16 "undefined"))
      ∈ (apiProcess envNoPlan textRequest).trace :=
  (executor_invoked_without_plan envNoPlan textRequest (utf16 "resume")
    (.obj [(utf16 "name", .str (utf16 "A"))]) [] (by decide) (by decide) (by decide)
    (by decide) (by decide)).1 (by decide)

/-- C9 fails as stated: the Planner's response parses to an object without
`rewritePlan`, and the handler calls the Executor and answers 200. -/
theorem planner_without_plan_reaches_executor :
    runAgent envNoPlan .planner
        (plannerPrompt exampleOps (.obj [(utf16 "name", .str (utf16 "A"))]) (utf16 "job"))
      = .ok (.obj []) ∧
    (apiProcess envNoPlan textRequest).status = 200 ∧
    stagesOf (apiProcess envNoPlan textRequest).trace = [.extractor, .planner, .executor] := by
  refine ⟨by decide, by decide, by decide⟩

/-- C10: in every run of `/api/process` the stages of the model calls are a
prefix of Extractor, Planner, Executor (at most three calls, none repeated);
in a run that answers 200 the model calls are exactly these three, in this
order, the Planner prompt built from the Extractor's parsed result and the
job description, the Executor prompt from the Extractor's parsed result and
`rewritePlan` of the Planner's parsed result. -/
theorem apiProcess_model_calls (env : Env) (req : Request) :
    stagesOf (apiProcess env req).trace <+: [.extractor, .planner, .executor] ∧
    (stagesOf (apiProcess env req).trace).length ≤ 3 ∧
    (stagesOf (apiProcess env req).trace).Nodup ∧
    ((apiProcess env req).status = 200 →
      ∃ rawText resumeJSON plan rewritePlan planText,
        rawTextOf env req = .ok rawText ∧
        runAgent env .extractor (extractorPrompt rawText) = .ok resumeJSON ∧
        runAgent env .planner
          (jsReplace
            (jsReplace plannerPromptTemplate (utf16 "\x7bresumeData\x7d")
              (stringifyArg env.ops resumeJSON))
            (utf16 "\x7bjobDescription\x7d") (req.jobDescription.getD [])) = .ok plan ∧
        getProp plan (utf16 "rewritePlan") = .ok rewritePlan ∧
        toStr env.ops rewritePlan = .ok planText ∧
        modelCalls (apiProcess env req).trace
          = [Event.generateContent .extractor (extractorPrompt rawText),
              Event.generateContent .planner
                (jsReplace
                  (jsReplace plannerPromptTemplate (utf16 "\x7bresumeData\x7d")
                    (stringifyArg env.ops resumeJSON))
                  (utf16 "\x7bjobDescription\x7d") (req.jobDescription.getD [])),
              Event.generateContent .executor
                (jsReplace
                  (jsReplace executorPromptTemplate (utf16 "\x7bresumeData\x7d")
                    (stringifyArg env.ops resumeJSON))
                  (utf16 "\x7brewritePlan\x7d") planText)]) := by
  have hstages : stagesOf (apiProcess env req).trace = [] ∨
      stagesOf (apiProcess env req).trace = [.extractor] ∨
      stagesOf (apiProcess env req).trace = [.extractor, .planner] ∨
      stagesOf (apiProcess env req).trace = [.extractor, .planner, .executor] := by
    cases hjd : isBlank req.jobDescription with
    | true => left; simp [apiProcess, hjd, stagesOf]
    | false =>
      cases hres : (isBlank req.resumeText && req.resumeFile.isNone) with
      | true => left; simp [apiProcess, hjd, hres, stagesOf]
      | false => exact (apiProcess_valid_stages hjd hres).1
  refine ⟨?_, ?_, ?_, ?_⟩
  · rcases hstages with h | h | h | h <;> rw [h] <;> decide
  · rcases hstages with h | h | h | h <;> rw [h] <;> decide
  · rcases hstages with h | h | h | h <;> rw [h] <;> decide
  · intro h200
    obtain ⟨rawText, resumeJSON, plan, prompt, newSections, tailored, query, es, sg,
      h0, h1, h2, h3, h4, h5, h6, h7, h8, hrun⟩ := apiProcess_ok h200
    unfold executorPrompt at h3
    split at h3
    · cases h3
    · next rewritePlan hrp =>
      split at h3
      · cases h3
      · next planText htext =>
        injection h3 with h3
        refine ⟨rawText, resumeJSON, plan, rewritePlan, planText, h0, h1, h2, hrp, htext, ?_⟩
        have hpdf : modelCalls (pdfTrace req) = [] := by
          unfold pdfTrace
          split <;> rfl
        rw [hrun]
        simp only [modelCalls, List.filter_append] at hpdf ⊢
        rw [hpdf, ← h3]
        rfl

/-! ## `String.prototype.replace` with a string pattern -/

theorem isPrefixOf_eq_true_iff (p s : Str) : p.isPrefixOf s = true ↔ p <+: s := by
  simp

theorem splitFirst_eq_none_iff (pat : Str) : ∀ s : Str, splitFirst pat s = none ↔ ¬ pat <:+: s := by
  intro s
  induction s with
  | nil =>
    unfold splitFirst
    cases pat with
    | nil => simp
    | cons p ps => simp
  | cons c cs ih =>
    unfold splitFirst
    by_cases hp : pat.isPrefixOf (c :: cs) = true
    · rw [if_pos hp]
      have : pat <:+: c :: cs := ((isPrefixOf_eq_true_iff _ _).1 hp).isInfix
      simp [this]
    · rw [if_neg hp]
      have hnp : ¬ pat <+: c :: cs := fun h => hp ((isPrefixOf_eq_true_iff _ _).2 h)
      rw [List.infix_cons_iff]
      cases hs : splitFirst pat cs with
      | none =>
        have := ih.1 hs
        simp [hnp, this]
      | some ba =>
        have : pat <:+: cs := by
          by_contra hc
          rw [ih.2 hc] at hs
          cases hs
        simp [this]

/-- The first occurrence of `pat` in `b ++ pat ++ a` is the one after `b`
when no occurrence starts earlier. -/
theorem splitFirst_first (pat a : Str) : ∀ b : Str, ¬ pat <:+: b ++ pat.dropLast →
    splitFirst pat (b ++ pat ++ a) = some (b, a) := by
  intro b
  induction b with
  | nil =>
    intro h
    cases pat with
    | nil => exact absurd (List.nil_infix) h
    | cons p ps =>
      have hp : (p :: ps).isPrefixOf (p :: (ps ++ a)) = true :=
        (isPrefixOf_eq_true_iff _ _).2 ⟨a, rfl⟩
      show splitFirst (p :: ps) (p :: (ps ++ a)) = some ([], a)
      unfold splitFirst
      rw [if_pos hp]
      simp
  | cons c b ih =>
    intro h
    have hne : pat ≠ [] := by
      rintro rfl
      exact h (List.nil_infix)
    have hlen : pat.length ≤ (c :: b ++ pat.dropLast).length := by
      simp
      omega
    have hp : ¬ pat.isPrefixOf (c :: (b ++ pat ++ a)) = true := by
      intro hp
      have h1 : pat <+: c :: (b ++ pat ++ a) := (isPrefixOf_eq_true_iff _ _).1 hp
      have h2 : c :: b ++ pat.dropLast <+: c :: (b ++ pat ++ a) := by
        refine ⟨[pat.getLast hne] ++ a, ?_⟩
        have := List.dropLast_append_getLast hne
        calc c :: b ++ pat.dropLast ++ ([pat.getLast hne] ++ a)
            = c :: (b ++ (pat.dropLast ++ [pat.getLast hne]) ++ a) := by simp
          _ = c :: (b ++ pat ++ a) := by rw [this]
      exact h (List.prefix_of_prefix_length_le h1 h2 hlen).isInfix
    have hrec : ¬ pat <:+: b ++ pat.dropLast := by
      intro hc
      apply h
      show pat <:+: c :: (b ++ pat.dropLast)
      exact List.infix_cons hc
    show splitFirst pat (c :: (b ++ pat ++ a)) = some (c :: b, a)
    unfold splitFirst
    rw [if_neg hp, ih hrec]

theorem splitFirst_append {pat s b a : Str} (h : splitFirst pat s = some (b, a)) :
    s = b ++ pat ++ a := by
  induction s generalizing b with
  | nil =>
    unfold splitFirst at h
    cases pat with
    | nil => simp at h; obtain ⟨rfl, rfl⟩ := h; rfl
    | cons p ps => simp at h
  | cons c cs ih =>
    unfold splitFirst at h
    by_cases hp : pat.isPrefixOf (c :: cs) = true
    · rw [if_pos hp] at h
      injection h with h
      injection h with h1 h2
      subst h1 h2
      obtain ⟨t, ht⟩ := (isPrefixOf_eq_true_iff _ _).1 hp
      rw [← ht]
      simp
    · rw [if_neg hp] at h
      cases hs : splitFirst pat cs with
      | none => rw [hs] at h; cases h
      | some ba =>
        obtain ⟨b1, a1⟩ := ba
        rw [hs] at h
        injection h with h
        injection h with h1 h2
        subst h1 h2
        rw [ih hs]
        simp

theorem getSubstitution_of_no_dollar (matched before after : Str) :
    ∀ repl : Str, 0x24 ∉ repl → getSubstitution matched before after repl = repl := by
  intro repl
  induction repl with
  | nil => intro _; rfl
  | cons c cs ih =>
    intro h
    have hc : c ≠ 0x24 := fun e => h (by simp [e])
    have hcs : 0x24 ∉ cs := fun e => h (List.mem_cons_of_mem _ e)
    unfold getSubstitution
    rw [if_neg hc, ih hcs]

theorem jsReplace_of_not_infix {s pat : Str} (h : ¬ pat <:+: s) (repl : Str) :
    jsReplace s pat repl = s := by
  unfold jsReplace
  rw [(splitFirst_eq_none_iff pat s).2 h]

theorem jsReplace_first {pat : Str} (b a : Str) (h : ¬ pat <:+: b ++ pat.dropLast) (repl : Str) :
    jsReplace (b ++ pat ++ a) pat repl = b ++ getSubstitution pat b a repl ++ a := by
  unfold jsReplace
  rw [splitFirst_first pat a b h]

theorem jsReplace_first_literal {pat : Str} (b a : Str) (h : ¬ pat <:+: b ++ pat.dropLast)
    {repl : Str} (hr : 0x24 ∉ repl) :
    jsReplace (b ++ pat ++ a) pat repl = b ++ repl ++ a := by
  rw [jsReplace_first b a h, getSubstitution_of_no_dollar _ _ _ _ hr]

/-- A text whose first code unit does not occur in `x` has no occurrence that
starts in `x`. -/
theorem not_infix_append_of_head {c : Nat} {ps : Str} {x : Str} (hx : c ∉ x) {y : Str}
    (hy : ¬ (c :: ps) <:+: y) : ¬ (c :: ps) <:+: x ++ y := by
  induction x with
  | nil => simpa using hy
  | cons a x ih =>
    intro h
    have ha : c ≠ a := fun e => hx (by simp [e])
    have hx2 : c ∉ x := fun e => hx (List.mem_cons_of_mem _ e)
    rw [List.cons_append, List.infix_cons_iff] at h
    rcases h with h | h
    · obtain ⟨t, ht⟩ := h
      injection ht with h1 _
      exact ha h1
    · exact ih hx2 h

theorem templateParts_spec {template placeholder h t : Str}
    (hs : splitFirst placeholder template = some (h, t)) :
    templateParts template placeholder = (h, t) := by
  unfold templateParts
  rw [hs]
  rfl

/-! ## The templates and their placeholders -/

theorem jsReplace_of_split {s pat b a : Str} (h : splitFirst pat s = some (b, a)) (repl : Str) :
    jsReplace s pat repl = b ++ getSubstitution pat b a repl ++ a := by
  unfold jsReplace
  rw [h]

set_option maxRecDepth 100000 in
theorem extractor_split :
    splitFirst (utf16 "\x7brawResumeText\x7d") extractorPromptTemplate
      = some (extractorHead, extractorTail) := by
  decide

set_option maxRecDepth 100000 in
theorem planner_split :
    splitFirst (utf16 "\x7bresumeData\x7d") plannerPromptTemplate
      = some (plannerHead, plannerTail) := by
  decide

/-! ## Placeholder tokens do not overlap -/

theorem isPlaceholder_spec {p : Str} (h : isPlaceholder p = true) :
    ∃ name, p = 0x7B :: name ++ [0x7D] ∧ 0x7B ∉ name ∧ 0x7D ∉ name := by
  cases p with
  | nil => simp [isPlaceholder] at h
  | cons c rest =>
    simp only [isPlaceholder, Bool.and_eq_true, beq_iff_eq, List.all_eq_true, bne_iff_ne,
      ne_eq] at h
    obtain ⟨⟨hc, hl⟩, hall⟩ := h
    have hne : rest ≠ [] := by
      rintro rfl
      simp at hl
    have hlast : rest.getLast hne = 0x7D := by
      rw [List.getLast?_eq_getLast _ hne] at hl
      injection hl
    refine ⟨rest.dropLast, ?_, fun hm => (hall _ hm).1 rfl, fun hm => (hall _ hm).2 rfl⟩
    subst hc
    have := List.dropLast_append_getLast hne
    rw [hlast] at this
    simp [this]

theorem name_eq_of_append {np nq a y : Str} (hp : 0x7D ∉ np) (hq : 0x7D ∉ nq)
    (h : np ++ 0x7D :: a = nq ++ 0x7D :: y) : np = nq := by
  induction np generalizing nq with
  | nil =>
    cases nq with
    | nil => rfl
    | cons m nq =>
      injection h with h1 _
      exact absurd (by simp [h1]) hq
  | cons n np ih =>
    cases nq with
    | nil =>
      injection h with h1 _
      exact absurd (by simp [h1]) hp
    | cons m nq =>
      injection h with h1 h2
      have hp2 : 0x7D ∉ np := fun e => hp (List.mem_cons_of_mem _ e)
      have hq2 : 0x7D ∉ nq := fun e => hq (List.mem_cons_of_mem _ e)
      rw [h1, ih hp2 hq2 h2]

/-- An opening brace does not stand inside a placeholder token. -/
theorem no_brace_inside {n u v : Str} (hn : 0x7B ∉ n) (u0 : Nat)
    (h : 0x7B :: n ++ [0x7D] = u0 :: u ++ 0x7B :: v) : False := by
  injection h with _ h2
  have h3 : n ++ [0x7D] = u ++ 0x7B :: v := h2
  have hm : (0x7B : Nat) ∈ n ++ [0x7D] := by
    rw [h3]
    simp
  rcases List.mem_append.1 hm with h | h
  · exact hn h
  · simp at h

/-- Cut at the first occurrence of a placeholder, every occurrence of another
placeholder lies wholly before it or wholly after it. -/
theorem placeholder_infix_split {np nq : Str} (hp1 : 0x7B ∉ np) (hp2 : 0x7D ∉ np)
    (hq1 : 0x7B ∉ nq) (hq2 : 0x7D ∉ nq) (hne : np ≠ nq) {b a : Str}
    (h : (0x7B :: nq ++ [0x7D]) <:+: b ++ (0x7B :: np ++ [0x7D]) ++ a) :
    (0x7B :: nq ++ [0x7D]) <:+: b ∨ (0x7B :: nq ++ [0x7D]) <:+: a := by
  obtain ⟨x, y, hxy⟩ := h
  have hxy2 : x ++ ((0x7B :: nq ++ [0x7D]) ++ y) = b ++ ((0x7B :: np ++ [0x7D]) ++ a) := by
    simpa using hxy
  rcases List.append_eq_append_iff.1 hxy2 with ⟨a1, hb, h2⟩ | ⟨c1, hx, h2⟩
  · rcases List.append_eq_append_iff.1 h2 with ⟨t, ha1, _⟩ | ⟨t, hq, hpa⟩
    · left
      exact ⟨x, t, by rw [hb, ha1]; simp⟩
    · cases t with
      | nil =>
        left
        refine ⟨x, [], ?_⟩
        rw [hb, hq]
        simp
      | cons t0 t =>
        exfalso
        have ht0 : t0 = 0x7B := by
          have : (0x7B : Nat) :: (np ++ [0x7D] ++ a) = t0 :: (t ++ y) := by simpa using hpa
          injection this with h1 _
          exact h1.symm
        subst ht0
        cases a1 with
        | nil =>
          have e1 : 0x7B :: nq ++ [0x7D] = 0x7B :: t := by simpa using hq
          have e2 : (0x7B : Nat) :: (np ++ 0x7D :: a) = 0x7B :: (nq ++ 0x7D :: y) := by
            have : (0x7B :: np ++ [0x7D]) ++ a = (0x7B :: nq ++ [0x7D]) ++ y := by
              rw [hpa, e1]
            simpa using this
          injection e2 with _ e3
          exact hne (name_eq_of_append hp2 hq2 e3)
        | cons a0 a1 => exact no_brace_inside hq1 a0 hq
  · rcases List.append_eq_append_iff.1 h2.symm with ⟨t, hc1, hqy⟩ | ⟨t, hq, hpa⟩
    · cases t with
      | nil =>
        right
        have : (0x7B :: nq ++ [0x7D]) ++ y = a := by
          have h3 := h2
          rw [hc1] at h3
          simpa using h3.symm
        exact ⟨[], y, by simpa using this⟩
      | cons t0 t =>
        exfalso
        have h3 : (0x7B :: np ++ [0x7D]) ++ a = c1 ++ ((0x7B :: nq ++ [0x7D]) ++ y) := h2
        cases c1 with
        | nil =>
          have e2 : (0x7B : Nat) :: (np ++ 0x7D :: a) = 0x7B :: (nq ++ 0x7D :: y) := by
            simpa using h3
          injection e2 with _ e3
          exact hne (name_eq_of_append hp2 hq2 e3)
        | cons c0 c1 =>
          have e1 : 0x7B :: np ++ [0x7D] = c0 :: c1 ++ t0 :: t := by simpa using hc1
          have ht0 : t0 = 0x7B := by
            have : (0x7B : Nat) :: (nq ++ [0x7D] ++ y) = t0 :: (t ++ a) := by simpa using hqy
            injection this with h5 _
            exact h5.symm
          subst ht0
          exact no_brace_inside hp1 c0 e1
    · right
      exact ⟨t, y, by rw [hpa]; simp⟩

/-! ## The job search within `/api/process` -/

theorem getProp_ok_of_not_nullish {v : JSVal} (h : v.isNullish = false) (k : Str) :
    ∃ x, getProp v k = .ok x := by
  cases v with
  | undefined => simp [JSVal.isNullish] at h
  | null => simp [JSVal.isNullish] at h
  | bool b => exact ⟨_, rfl⟩
  | num n => exact ⟨_, rfl⟩
  | str s =>
    unfold getProp
    simp only
    split
    · split <;> exact ⟨_, rfl⟩
    · exact ⟨_, rfl⟩
  | arr xs =>
    unfold getProp
    simp only
    split <;> exact ⟨_, rfl⟩
  | obj ps => exact ⟨_, rfl⟩

theorem executorPrompt_not_nullish {ops : NumberOps} {resumeJSON plan : JSVal} {prompt : Str}
    (h : executorPrompt ops resumeJSON plan = .ok prompt) : plan.isNullish = false := by
  cases plan <;> first | rfl | simp [executorPrompt, getProp] at h

theorem SameButJobs.refl (r : Run) : SameButJobs r r := ⟨rfl, rfl, fun _ _ => rfl⟩

theorem getProp_successBody_ne (tailored es sg jobs1 jobs2 : JSVal) (query : Str) (k : Str)
    (hk : k ≠ utf16 "suggestedJobs") :
    getProp (successBody tailored es sg jobs1 query) k
      = getProp (successBody tailored es sg jobs2 query) k := by
  have hk2 : (utf16 "suggestedJobs" == k) = false := by
    simpa using fun e => hk e.symm
  simp only [successBody, getProp, lookupProp, List.find?, hk2]

theorem assemble_setSearch (env : Env) (search : Str → Str → Except JSError JSVal)
    (trace : List Event) (resumeJSON plan newSections : JSVal) :
    SameButJobs (assemble (setSearch env search) trace resumeJSON plan newSections)
      (assemble env trace resumeJSON plan newSections) := by
  have e1 : (setSearch env search).ops = env.ops := rfl
  unfold assemble
  rw [e1]
  cases tailoredResume resumeJSON newSections with
  | error e => exact SameButJobs.refl _
  | ok tailored =>
    simp only
    cases searchQuery env.ops tailored with
    | error e => exact SameButJobs.refl _
    | ok query =>
      simp only
      cases getProp plan (utf16 "extractedSkills") with
      | error e => exact SameButJobs.refl _
      | ok es =>
        cases getProp plan (utf16 "skillGap") with
        | error e => exact SameButJobs.refl _
        | ok sg =>
          exact ⟨rfl, rfl, fun k hk => getProp_successBody_ne _ _ _ _ _ _ k hk⟩

theorem apiProcess_setSearch (env : Env) (search : Str → Str → Except JSError JSVal)
    (req : Request) :
    SameButJobs (apiProcess (setSearch env search) req) (apiProcess env req) := by
  have e1 : (setSearch env search).ops = env.ops := rfl
  have e2 : ∀ s p, runAgent (setSearch env search) s p = runAgent env s p := fun _ _ => rfl
  have e3 : rawTextOf (setSearch env search) req = rawTextOf env req := rfl
  unfold apiProcess
  split
  · exact SameButJobs.refl _
  · split
    · exact SameButJobs.refl _
    · rw [e3]
      cases rawTextOf env req with
      | error e => exact SameButJobs.refl _
      | ok rawText =>
        simp only
        unfold extractorStage
        rw [e2]
        cases runAgent env .extractor (extractorPrompt rawText) with
        | error e => exact SameButJobs.refl _
        | ok resumeJSON =>
          simp only
          unfold plannerStage
          rw [e1, e2]
          cases runAgent env .planner
              (plannerPrompt env.ops resumeJSON (req.jobDescription.getD [])) with
          | error e => exact SameButJobs.refl _
          | ok plan =>
            simp only
            unfold executorStage
            rw [e1]
            cases executorPrompt env.ops resumeJSON plan with
            | error e => exact SameButJobs.refl _
            | ok prompt =>
              simp only
              rw [e2]
              cases runAgent env .executor prompt with
              | error e => exact SameButJobs.refl _
              | ok newSections => exact assemble_setSearch _ _ _ _ _ _

/-- A trace without a call of the job search. -/
theorem assemble_search {env : Env} {trace : List Event} {resumeJSON plan newSections : JSVal}
    (hplan : plan.isNullish = false) (htrace : searchCalls trace = [])
    (h : searchCalls (assemble env trace resumeJSON plan newSections).trace ≠ []) :
    (assemble env trace resumeJSON plan newSections).status = 200 := by
  unfold assemble at h ⊢
  split
  · next hh => simp [hh, failed, htrace] at h
  · next tailored hh =>
    simp only [hh] at h
    split
    · next hq => simp [hq, failed, htrace] at h
    · next query hq =>
      obtain ⟨es, hes⟩ := getProp_ok_of_not_nullish hplan (utf16 "extractedSkills")
      obtain ⟨sg, hsg⟩ := getProp_ok_of_not_nullish hplan (utf16 "skillGap")
      simp [hes, hsg]

theorem searchCalls_append (a b : List Event) :
    searchCalls (a ++ b) = searchCalls a ++ searchCalls b := by
  simp [searchCalls]

theorem searchCalls_pdfTrace (req : Request) : searchCalls (pdfTrace req) = [] := by
  unfold pdfTrace
  split <;> rfl

theorem searchCalls_gen (stage : Stage) (prompt : Str) (l : List Event) :
    searchCalls (Event.generateContent stage prompt :: l) = searchCalls l := rfl

theorem searchCalls_nil : searchCalls [] = [] := rfl

/-- A run in which the job search is called ends with status 200. -/
theorem apiProcess_search_called {env : Env} {req : Request}
    (h : searchCalls (apiProcess env req).trace ≠ []) : (apiProcess env req).status = 200 := by
  unfold apiProcess at h ⊢
  split at h
  · simp [searchCalls] at h
  split at h
  · simp [searchCalls] at h
  rename_i h1 h2
  rw [if_neg h1, if_neg h2]
  cases hraw : rawTextOf env req with
  | error e => simp [hraw, failed, searchCalls_pdfTrace] at h
  | ok rawText =>
    simp only [hraw] at h ⊢
    unfold extractorStage at h ⊢
    cases h3 : runAgent env .extractor (extractorPrompt rawText) with
    | error e =>
      simp [h3, failed, searchCalls_append, searchCalls_pdfTrace, searchCalls_gen, searchCalls_nil] at h
    | ok resumeJSON =>
      simp only [h3] at h ⊢
      unfold plannerStage at h ⊢
      cases h4 : runAgent env .planner
          (plannerPrompt env.ops resumeJSON (req.jobDescription.getD [])) with
      | error e =>
        simp [h4, failed, searchCalls_append, searchCalls_pdfTrace, searchCalls_gen, searchCalls_nil] at h
      | ok plan =>
        simp only [h4] at h ⊢
        unfold executorStage at h ⊢
        cases h5 : executorPrompt env.ops resumeJSON plan with
        | error e =>
          simp [h5, failed, searchCalls_append, searchCalls_pdfTrace, searchCalls_gen, searchCalls_nil] at h
        | ok prompt =>
          simp only [h5] at h ⊢
          cases h6 : runAgent env .executor prompt with
          | error e =>
            simp [h6, failed, searchCalls_append, searchCalls_pdfTrace, searchCalls_gen, searchCalls_nil] at h
          | ok newSections =>
            simp only [h6] at h ⊢
            refine assemble_search (executorPrompt_not_nullish h5) ?_ h
            simp [searchCalls_append, searchCalls_pdfTrace, searchCalls_gen, searchCalls_nil]

/-! ## The validation on a request with any body -/

theorem getProp_toHttp_resumeText (req : Request) :
    getProp (toHttp req).body (utf16 "resumeText")
      = .ok (match req.resumeText with
        | some text => .str text
        | none => .undefined) := by
  obtain ⟨rt, jd, f⟩ := req
  cases rt <;> cases jd <;> rfl

theorem getProp_toHttp_jobDescription (req : Request) :
    getProp (toHttp req).body (utf16 "jobDescription")
      = .ok (match req.jobDescription with
        | some text => .str text
        | none => .undefined) := by
  obtain ⟨rt, jd, f⟩ := req
  cases rt <;> cases jd <;> rfl

theorem truthy_field (ops : NumberOps) (field : Option Str) :
    truthy ops (match field with
      | some text => .str text
      | none => .undefined) = !isBlank field := by
  cases field <;> simp [truthy, isBlank]

/-- On a request with a parsed body and text fields the handler is `apiProcess`. -/
theorem apiProcessHttp_toHttp (env : Env) (req : Request) :
    apiProcessHttp env (toHttp req) = apiProcess env req := by
  unfold apiProcessHttp apiProcess
  rw [getProp_toHttp_resumeText, getProp_toHttp_jobDescription]
  simp only [truthy_field, Bool.not_not]
  cases hjd : isBlank req.jobDescription with
  | true => simp
  | false =>
    have hfile : (toHttp req).file = req.resumeFile := rfl
    rw [hfile]
    cases hres : (isBlank req.resumeText && req.resumeFile.isNone) with
    | true => simp
    | false =>
      simp only [Bool.false_eq_true, if_false]
      obtain ⟨jd, hj⟩ : ∃ jd, req.jobDescription = some jd := by
        cases h : req.jobDescription with
        | none => simp [h, isBlank] at hjd
        | some jd => exact ⟨jd, rfl⟩
      cases hf : req.resumeFile with
      | some buffer =>
        have e1 : httpPdfTrace (toHttp req) = [Event.pdf buffer] := by
          simp [httpPdfTrace, hfile, hf]
        have e2 : pdfTrace req = [Event.pdf buffer] := by simp [pdfTrace, hf]
        simp only [httpRawText, rawTextOf, hfile, hf, e1, e2]
        cases env.pdf buffer with
        | error e => rfl
        | ok text =>
          simp only [toStr, extractorStage, hj, Option.getD]
      | none =>
        obtain ⟨rt, hr⟩ : ∃ rt, req.resumeText = some rt := by
          cases h : req.resumeText with
          | none => simp [h, hf, isBlank] at hres
          | some rt => exact ⟨rt, rfl⟩
        have e1 : httpPdfTrace (toHttp req) = [] := by simp [httpPdfTrace, hfile, hf]
        have e2 : pdfTrace req = [] := by simp [pdfTrace, hf]
        simp only [httpRawText, rawTextOf, hfile, hf, e1, e2, hr, hj, toStr, extractorStage,
          Option.getD]

theorem apiProcessHttp_nullish (env : Env) (req : HttpRequest)
    (h : req.body.isNullish = true) : apiProcessHttp env req = failed [] := by
  unfold apiProcessHttp
  cases hb : req.body <;> rw [hb] at h <;> first | rfl | simp [JSVal.isNullish] at h

theorem plannerStage_status (env : Env) (trace : List Event) (resumeJSON : JSVal)
    (jobDescription : Str) :
    (plannerStage env trace resumeJSON jobDescription).status ≠ 400 := by
  rcases (plannerStage_stages env trace resumeJSON jobDescription).2 with h | h <;>
    rw [h] <;> decide

/-- Past the two checks the handler never answers 400. -/
theorem apiProcessHttp_status_of_valid (env : Env) (req : HttpRequest)
    (resumeText jobDescription : JSVal)
    (hr : getProp req.body (utf16 "resumeText") = .ok resumeText)
    (hj : getProp req.body (utf16 "jobDescription") = .ok jobDescription)
    (h1 : truthy env.ops jobDescription = true)
    (h2 : (!truthy env.ops resumeText && req.file.isNone) = false) :
    (apiProcessHttp env req).status ≠ 400 := by
  unfold apiProcessHttp
  rw [hr, hj]
  simp only [h1, h2, Bool.not_true, Bool.false_eq_true, if_false]
  split
  · simp [failed]
  · split
    · simp [failed]
    · split
      · simp [failed]
      · split
        · simp [failed]
        · exact plannerStage_status _ _ _ _

/-- C6, refuted as stated: a request without a parsed body has no
`jobDescription`, and it is answered 500, not 400 (reading the fields of the
body throws inside the `try` block); and a `jobDescription` that is `false`,
neither absent nor an empty string, is answered 400. -/
theorem apiProcessHttp_without_body :
    getProp JSVal.undefined (utf16 "jobDescription") = .error .typeError ∧
    apiProcessHttp envAllStages ⟨.undefined, none⟩
      = ⟨500, errorBody "An error occurred during processing.", []⟩ ∧
    apiProcessHttp envAllStages
        ⟨.obj [(utf16 "jobDescription", .bool false), (utf16 "resumeText", .str (utf16 "r"))],
          none⟩
      = ⟨400, errorBody "Job description is required.", []⟩ := by
  refine ⟨rfl, by decide, by decide⟩

/-- C6, amended: on a request whose body was parsed (`req.body` is neither
`undefined` nor `null`) the handler answers 400 exactly when `jobDescription`
is absent or falsy, or `resumeText` is absent or falsy and no file is
uploaded; a run that answers 400 has called no collaborator; and for text
fields falsy is absent or empty. -/
theorem apiProcessHttp_validation (env : Env) (req : HttpRequest)
    (hbody : req.body.isNullish = false) :
    ∃ resumeText jobDescription,
      getProp req.body (utf16 "resumeText") = .ok resumeText ∧
      getProp req.body (utf16 "jobDescription") = .ok jobDescription ∧
      ((apiProcessHttp env req).status = 400 ↔
        (truthy env.ops jobDescription = false ∨
          (truthy env.ops resumeText = false ∧ req.file = none))) ∧
      ((apiProcessHttp env req).status = 400 → (apiProcessHttp env req).trace = []) ∧
      (∀ text, resumeText = .str text → (truthy env.ops resumeText = false ↔ text = [])) ∧
      (∀ text, jobDescription = .str text →
        (truthy env.ops jobDescription = false ↔ text = [])) ∧
      (resumeText = .undefined → truthy env.ops resumeText = false) ∧
      (jobDescription = .undefined → truthy env.ops jobDescription = false) := by
  obtain ⟨resumeText, hr⟩ := getProp_ok_of_not_nullish hbody (utf16 "resumeText")
  obtain ⟨jobDescription, hj⟩ := getProp_ok_of_not_nullish hbody (utf16 "jobDescription")
  refine ⟨resumeText, jobDescription, hr, hj, ?_, ?_, ?_, ?_, ?_, ?_⟩
  · cases h1 : truthy env.ops jobDescription with
    | false =>
      have : (apiProcessHttp env req).status = 400 := by
        unfold apiProcessHttp
        rw [hr, hj]
        simp [h1]
      simp [this]
    | true =>
      cases h2 : (!truthy env.ops resumeText && req.file.isNone) with
      | true =>
        have h3 : truthy env.ops resumeText = false ∧ req.file = none := by
          simpa [Option.isNone_iff_eq_none] using h2
        have : (apiProcessHttp env req).status = 400 := by
          unfold apiProcessHttp
          rw [hr, hj]
          simp [h1, h2]
        simp [this, h3]
      | false =>
        have hne := apiProcessHttp_status_of_valid env req resumeText jobDescription hr hj h1 h2
        have h3 : ¬ (truthy env.ops resumeText = false ∧ req.file = none) := by
          rintro ⟨ha, hb⟩
          simp [ha, hb] at h2
        simp [hne, h3]
  · intro h400
    cases h1 : truthy env.ops jobDescription with
    | false =>
      unfold apiProcessHttp
      rw [hr, hj]
      simp [h1]
    | true =>
      cases h2 : (!truthy env.ops resumeText && req.file.isNone) with
      | true =>
        unfold apiProcessHttp
        rw [hr, hj]
        simp [h1, h2]
      | false =>
        exact absurd h400
          (apiProcessHttp_status_of_valid env req resumeText jobDescription hr hj h1 h2)
  · rintro text rfl
    cases text <;> simp [truthy]
  · rintro text rfl
    cases text <;> simp [truthy]
  · rintro rfl
    rfl
  · rintro rfl
    rfl

/-- C6 amended, on an example: a body with a resume text and no job description. -/
theorem apiProcessHttp_validation_example :
    (apiProcessHttp envAllStages
      ⟨.obj [(utf16 "resumeText", .str (utf16 "resume"))], none⟩).status = 400 :=
  have h := apiProcessHttp_validation envAllStages
    ⟨.obj [(utf16 "resumeText", .str (utf16 "resume"))], none⟩ rfl
  by
    obtain ⟨rt, jd, _, hj, h400, _⟩ := h
    have hjd : jd = .undefined := by
      have : getProp (JSVal.obj [(utf16 "resumeText", .str (utf16 "resume"))])
          (utf16 "jobDescription") = .ok .undefined := by decide
      rw [this] at hj
      injection hj with hj
      exact hj.symm
    subst hjd
    exact h400.2 (Or.inl rfl)

/-! ## The response of a successful run -/

theorem getProp_successBody_tailored (tailored es sg jobs : JSVal) (query : Str) :
    getProp (successBody tailored es sg jobs query) (utf16 "tailoredResume") = .ok tailored := by
  rfl

theorem getProp_successBody_analysis (tailored es sg jobs : JSVal) (query : Str) :
    getProp (successBody tailored es sg jobs query) (utf16 "analysis")
      = .ok (.obj [(utf16 "extractedSkills", es), (utf16 "skillGap", sg)]) := by
  rfl

theorem getProp_successBody_jobs (tailored es sg jobs : JSVal) (query : Str) :
    getProp (successBody tailored es sg jobs query) (utf16 "suggestedJobs") = .ok jobs := by
  rfl

theorem getProp_successBody_query (tailored es sg jobs : JSVal) (query : Str) :
    getProp (successBody tailored es sg jobs query) (utf16 "jobSearchQuery")
      = .ok (.str query) := by
  rfl

theorem mem_searchCalls {trace : List Event} {query page : Str}
    (h : Event.jobSearch query page ∈ trace) : searchCalls trace ≠ [] := by
  intro hnil
  have : Event.jobSearch query page ∈ searchCalls trace := by
    unfold searchCalls
    exact List.mem_filter.2 ⟨h, rfl⟩
  rw [hnil] at this
  cases this

theorem not_mem_pdfTrace (req : Request) (query page : Str) :
    Event.jobSearch query page ∉ pdfTrace req := by
  unfold pdfTrace
  split <;> simp

/-- C11: when the job search is called in a run of `/api/process` (so the
three stages succeeded) and its HTTP request throws, the response has status
200 and an empty `suggestedJobs`, and with any other job search, successful
or not, the run has status 200 with the same `tailoredResume`, `analysis`
and `jobSearchQuery`. -/
theorem apiProcess_search_failure (env : Env) (req : Request) (query page : Str)
    (hcall : Event.jobSearch query page ∈ (apiProcess env req).trace)
    (hfail : ∃ e, env.axiosRequest query page = .error e) :
    (apiProcess env req).status = 200 ∧
    stagesOf (apiProcess env req).trace = [.extractor, .planner, .executor] ∧
    getProp (apiProcess env req).body (utf16 "suggestedJobs") = .ok (.arr []) ∧
    ∀ search : Str → Str → Except JSError JSVal,
      (apiProcess (setSearch env search) req).status = 200 ∧
      getProp (apiProcess (setSearch env search) req).body (utf16 "tailoredResume")
        = getProp (apiProcess env req).body (utf16 "tailoredResume") ∧
      getProp (apiProcess (setSearch env search) req).body (utf16 "analysis")
        = getProp (apiProcess env req).body (utf16 "analysis") ∧
      getProp (apiProcess (setSearch env search) req).body (utf16 "jobSearchQuery")
        = getProp (apiProcess env req).body (utf16 "jobSearchQuery") := by
  have h200 : (apiProcess env req).status = 200 :=
    apiProcess_search_called (mem_searchCalls hcall)
  obtain ⟨rawText, resumeJSON, plan, prompt, newSections, tailored, q, es, sg,
    _, _, _, _, _, _, _, _, _, e⟩ := apiProcess_ok h200
  have hq : query = q ∧ page = utf16 "1" := by
    rw [e] at hcall
    simp only [List.mem_append, List.mem_cons, List.mem_singleton] at hcall
    rcases hcall with h | h | h | h | h | h
    · exact absurd h (not_mem_pdfTrace req query page)
    · cases h
    · cases h
    · cases h
    · injection h with h1 h2
      exact ⟨h1, h2⟩
    · cases h
  obtain ⟨e1, hf⟩ := hfail
  have hjobs : fetchJobs env q (utf16 "1") = .arr [] := by
    unfold fetchJobs
    rw [← hq.1, ← hq.2, hf]
  refine ⟨h200, ?_, ?_, ?_⟩
  · rw [e]
    simp only [stagesOf_append, stagesOf_pdfTrace]
    rfl
  · rw [e]
    simp only
    rw [getProp_successBody_jobs, hjobs]
  · intro search
    obtain ⟨hs, _, hk⟩ := apiProcess_setSearch env search req
    refine ⟨hs.trans h200, hk _ (by decide), hk _ (by decide), hk _ (by decide)⟩

/-- C11, on an example: the scripted job search fails and the run answers
200 with no suggested jobs. -/
theorem apiProcess_search_failure_example :
    Event.jobSearch (utf16 "Software Developer x") (utf16 "1")
        ∈ (apiProcess envAllStages textRequest).trace ∧
    (apiProcess envAllStages textRequest).status = 200 ∧
    getProp (apiProcess envAllStages textRequest).body (utf16 "suggestedJobs")
      = .ok (.arr []) :=
  have h := apiProcess_search_failure envAllStages textRequest
    (utf16 "Software Developer x") (utf16 "1") (by decide) ⟨.rejected, rfl⟩
  ⟨by decide, h.1, h.2.2.1⟩

/-! ## The body sent -/

mutual
/-- The serialization of a value is that of the value sent for it. -/
theorem serializeJSON_sentValue (ops : NumberOps) (indent : Str) :
    ∀ v : JSVal, serializeJSON ops indent v
      = match sentValue ops v with
        | some w => serializeJSON ops indent w
        | none => none
  | .undefined => by simp [serializeJSON, sentValue]
  | .null => by simp [serializeJSON, sentValue]
  | .bool b => by simp [serializeJSON, sentValue]
  | .num n => by
    by_cases h : ops.isFinite n = true <;> simp [serializeJSON, sentValue, h]
  | .str s => by simp [serializeJSON, sentValue]
  | .arr xs => by
    simp only [serializeJSON, sentValue]
    rw [serializeElements_sentElements ops (indent ++ utf16 "  ") xs]
  | .obj ps => by
    simp only [serializeJSON, sentValue]
    rw [serializeProps_sentProps ops (indent ++ utf16 "  ") ps]
theorem serializeElements_sentElements (ops : NumberOps) (indent : Str) :
    ∀ xs : List JSVal, serializeElements ops indent xs
      = serializeElements ops indent (sentElements ops xs)
  | [] => by simp [serializeElements, sentElements]
  | x :: xs => by
    have h1 := serializeJSON_sentValue ops indent x
    have h2 := serializeElements_sentElements ops indent xs
    simp only [serializeElements, sentElements]
    rw [← h2, h1]
    cases hx : sentValue ops x with
    | none => simp [serializeJSON]
    | some w => simp only
theorem serializeProps_sentProps (ops : NumberOps) (indent : Str) :
    ∀ ps : List (Str × JSVal), serializeProps ops indent ps
      = serializeProps ops indent (sentProps ops ps)
  | [] => by simp [serializeProps, sentProps]
  | (k, v) :: ps => by
    have h1 := serializeJSON_sentValue ops indent v
    have h2 := serializeProps_sentProps ops indent ps
    simp only [serializeProps, sentProps]
    rw [h1]
    cases hx : sentValue ops v with
    | none => simpa using h2
    | some w =>
      simp only [serializeProps]
      cases hs : serializeJSON ops indent w with
      | none => simpa using h2
      | some t => simp [h2]
end

theorem tailoredResume_obj {resumeJSON newSections tailored : JSVal}
    (h : tailoredResume resumeJSON newSections = .ok tailored) : ∃ t, tailored = .obj t := by
  unfold tailoredResume at h
  split at h
  · cases h
  · split at h
    · cases h
    · injection h with h
      exact ⟨_, h.symm⟩

theorem sentValue_eq_none_iff (ops : NumberOps) (v : JSVal) :
    sentValue ops v = none ↔ v = .undefined := by
  cases v <;> simp [sentValue]

theorem fetchJobs_ne_undefined (env : Env) (query page : Str) :
    fetchJobs env query page ≠ .undefined := by
  unfold fetchJobs
  split
  · simp
  · split
    · simp
    · next d _ =>
      split
      · next h =>
        rintro rfl
        simp [truthy] at h
      · simp

/-- The body sent for the body of a successful response. -/
theorem sentValue_successBody (ops : NumberOps) (t : List (Str × JSVal))
    (es sg jobs : JSVal) (query : Str) (hjobs : jobs ≠ .undefined) :
    ∃ sentJobs, sentValue ops jobs = some sentJobs ∧
      sentValue ops (successBody (.obj t) es sg jobs query)
        = some (.obj [(utf16 "tailoredResume", .obj (sentProps ops t)),
            (utf16 "analysis",
              .obj (sentProps ops [(utf16 "extractedSkills", es), (utf16 "skillGap", sg)])),
            (utf16 "suggestedJobs", sentJobs),
            (utf16 "jobSearchQuery", .str query)]) := by
  cases hj : sentValue ops jobs with
  | none => exact absurd ((sentValue_eq_none_iff ops jobs).1 hj) hjobs
  | some sentJobs =>
    refine ⟨sentJobs, rfl, ?_⟩
    simp [successBody, sentValue, sentProps, hj]

theorem sentProps_analysis (ops : NumberOps) (es sg : JSVal) :
    lookupProp (sentProps ops [(utf16 "extractedSkills", es), (utf16 "skillGap", sg)])
        (utf16 "extractedSkills") = sentValue ops es ∧
    lookupProp (sentProps ops [(utf16 "extractedSkills", es), (utf16 "skillGap", sg)])
        (utf16 "skillGap") = sentValue ops sg ∧
    (∀ k ∈ (sentProps ops [(utf16 "extractedSkills", es), (utf16 "skillGap", sg)]).map
        Prod.fst, k = utf16 "extractedSkills" ∨ k = utf16 "skillGap") := by
  have hne : (utf16 "extractedSkills" == utf16 "skillGap") = false := by decide
  have hne2 : ¬ utf16 "skillGap" = utf16 "extractedSkills" := by decide
  cases h1 : sentValue ops es <;> cases h2 : sentValue ops sg <;>
    simp [sentProps, h1, h2, lookupProp, hne, hne2]

/-- C12, refuted as stated: when the Planner answers an object without
`extractedSkills` and `skillGap`, the run is successful, the two fields of
`analysis` are `undefined` in the object passed to `res.json`, and the
`analysis` of the body sent has no field at all. -/
theorem analysis_sent_without_fields :
    (apiProcess envNoPlan textRequest).status = 200 ∧
    getProp (apiProcess envNoPlan textRequest).body (utf16 "analysis")
      = .ok (.obj [(utf16 "extractedSkills", .undefined), (utf16 "skillGap", .undefined)]) ∧
    sentValue exampleOps
        (.obj [(utf16 "extractedSkills", .undefined), (utf16 "skillGap", .undefined)])
      = some (.obj []) ∧
    jsonStringify exampleOps
        (.obj [(utf16 "extractedSkills", .undefined), (utf16 "skillGap", .undefined)])
      = some (utf16 "\x7b\x7d") := by
  refine ⟨by decide, by decide, by decide, by decide⟩

/-- C12, amended: the body sent for a successful run has exactly the fields
`tailoredResume`, `analysis`, `suggestedJobs` and `jobSearchQuery`; the
fields of `analysis` are among `extractedSkills` and `skillGap`, each present
exactly when the Planner's result has a value other than `undefined` under
that name, and then with that value as it is sent; and `rewritePlan` is a
field of neither. -/
theorem apiProcess_body_shape (env : Env) (req : Request)
    (h : (apiProcess env req).status = 200) :
    ∃ resumeJSON plan extractedSkills skillGap sent analysis,
      Event.generateContent .planner
          (plannerPrompt env.ops resumeJSON (req.jobDescription.getD []))
        ∈ (apiProcess env req).trace ∧
      runAgent env .planner (plannerPrompt env.ops resumeJSON (req.jobDescription.getD []))
        = .ok plan ∧
      getProp plan (utf16 "extractedSkills") = .ok extractedSkills ∧
      getProp plan (utf16 "skillGap") = .ok skillGap ∧
      sentValue env.ops (apiProcess env req).body = some (.obj sent) ∧
      sent.map Prod.fst
        = [utf16 "tailoredResume", utf16 "analysis", utf16 "suggestedJobs",
            utf16 "jobSearchQuery"] ∧
      lookupProp sent (utf16 "analysis") = some (.obj analysis) ∧
      lookupProp analysis (utf16 "extractedSkills") = sentValue env.ops extractedSkills ∧
      lookupProp analysis (utf16 "skillGap") = sentValue env.ops skillGap ∧
      (lookupProp analysis (utf16 "extractedSkills") = none ↔ extractedSkills = .undefined) ∧
      (lookupProp analysis (utf16 "skillGap") = none ↔ skillGap = .undefined) ∧
      (∀ k ∈ analysis.map Prod.fst, k = utf16 "extractedSkills" ∨ k = utf16 "skillGap") ∧
      utf16 "rewritePlan" ∉ sent.map Prod.fst ∧
      utf16 "rewritePlan" ∉ analysis.map Prod.fst := by
  obtain ⟨rawText, resumeJSON, plan, prompt, newSections, tailored, q, es, sg,
    _, _, hplan, _, _, ht, _, hes, hsg, e⟩ := apiProcess_ok h
  obtain ⟨t, rfl⟩ := tailoredResume_obj ht
  obtain ⟨sentJobs, _, hsent⟩ := sentValue_successBody env.ops t es sg
    (fetchJobs env q (utf16 "1")) q (fetchJobs_ne_undefined env q (utf16 "1"))
  obtain ⟨ha1, ha2, ha3⟩ := sentProps_analysis env.ops es sg
  refine ⟨resumeJSON, plan, es, sg,
    [(utf16 "tailoredResume", .obj (sentProps env.ops t)),
      (utf16 "analysis",
        .obj (sentProps env.ops [(utf16 "extractedSkills", es), (utf16 "skillGap", sg)])),
      (utf16 "suggestedJobs", sentJobs),
      (utf16 "jobSearchQuery", .str q)],
    sentProps env.ops [(utf16 "extractedSkills", es), (utf16 "skillGap", sg)],
    ?_, hplan, hes, hsg, ?_, rfl, rfl, ha1, ha2, ?_, ?_, ha3, ?_, ?_⟩
  · rw [e]
    simp
  · rw [e]
    exact hsent
  · rw [ha1]
    exact sentValue_eq_none_iff env.ops es
  · rw [ha2]
    exact sentValue_eq_none_iff env.ops sg
  · show utf16 "rewritePlan" ∉ [utf16 "tailoredResume", utf16 "analysis",
      utf16 "suggestedJobs", utf16 "jobSearchQuery"]
    decide
  · intro hm
    rcases ha3 _ hm with h1 | h1
    · exact absurd h1 (by decide)
    · exact absurd h1 (by decide)

/-- C12 amended, on an example: the Planner's result has neither field, and
the `analysis` sent has none. -/
theorem apiProcess_body_shape_example :
    ∃ sent analysis,
      sentValue exampleOps (apiProcess envAllStages textRequest).body = some (.obj sent) ∧
      sent.map Prod.fst
        = [utf16 "tailoredResume", utf16 "analysis", utf16 "suggestedJobs",
            utf16 "jobSearchQuery"] ∧
      lookupProp sent (utf16 "analysis") = some (.obj analysis) :=
  have h := apiProcess_body_shape envAllStages textRequest (by decide)
  by
    obtain ⟨_, _, _, _, sent, analysis, _, _, _, _, h5, h6, h7, _⟩ := h
    exact ⟨sent, analysis, h5, h6, h7⟩

/-! ## The job-search query -/

mutual
theorem toStr_error (ops : NumberOps) :
    ∀ (v : JSVal) (e : JSError), toStr ops v = .error e → e = .typeError
  | .undefined, e, h => by simp [toStr] at h
  | .null, e, h => by simp [toStr] at h
  | .bool b, e, h => by simp [toStr] at h
  | .num n, e, h => by simp [toStr] at h
  | .str s, e, h => by simp [toStr] at h
  | .arr xs, e, h => by
    simp only [toStr] at h
    exact joinElems_error ops (utf16 ",") xs e h
  | .obj ps, e, h => by
    simp only [toStr] at h
    split at h
    · injection h with h
      exact h.symm
    · cases h
theorem joinElems_error (ops : NumberOps) (sep : Str) :
    ∀ (xs : List JSVal) (e : JSError), joinElems ops sep xs = .error e → e = .typeError
  | [], e, h => by simp [joinElems] at h
  | x :: xs, e, h => by
    unfold joinElems at h
    by_cases hx : x.isNullish = true
    · simp only [hx, if_true] at h
      cases xs with
      | nil => simp at h
      | cons y ys =>
        simp only at h
        cases hj : joinElems ops sep (y :: ys) with
        | error e2 =>
          rw [hj] at h
          injection h with h
          rw [← h]
          exact joinElems_error ops sep (y :: ys) e2 hj
        | ok b =>
          rw [hj] at h
          cases h
    · simp only [hx, Bool.false_eq_true, if_false] at h
      cases ht : toStr ops x with
      | error e2 =>
        rw [ht] at h
        injection h with h
        rw [← h]
        exact toStr_error ops x e2 ht
      | ok a =>
        rw [ht] at h
        cases xs with
        | nil => simp at h
        | cons y ys =>
          simp only at h
          cases hj : joinElems ops sep (y :: ys) with
          | error e2 =>
            rw [hj] at h
            injection h with h
            rw [← h]
            exact joinElems_error ops sep (y :: ys) e2 hj
          | ok b =>
            rw [hj] at h
            cases h
end

theorem getProp_obj (ps : List (Str × JSVal)) (k : Str) :
    getProp (.obj ps) k = .ok ((lookupProp ps k).getD .undefined) := rfl

theorem optChain_first (x : JSVal) : optChain x (utf16 "0") = .ok (firstEntry x) := by
  have h0 : arrayIndex (utf16 "0") = some 0 := by decide
  cases x with
  | undefined => rfl
  | null => rfl
  | bool b => rfl
  | num n => rfl
  | str s =>
    cases s with
    | nil => simp [optChain, JSVal.isNullish, getProp, h0, firstEntry]
    | cons c cs => simp [optChain, JSVal.isNullish, getProp, h0, firstEntry]
  | arr xs =>
    cases xs with
    | nil => simp [optChain, JSVal.isNullish, getProp, h0, firstEntry]
    | cons y ys => simp [optChain, JSVal.isNullish, getProp, h0, firstEntry]
  | obj ps => rfl

theorem optChain_role (x : JSVal) : optChain x (utf16 "role") = .ok (entryRole x) := by
  have h0 : arrayIndex (utf16 "role") = none := by decide
  cases x with
  | undefined => rfl
  | null => rfl
  | bool b => rfl
  | num n => rfl
  | str s => simp [optChain, JSVal.isNullish, getProp, h0, entryRole]
  | arr xs => simp [optChain, JSVal.isNullish, getProp, h0, entryRole]
  | obj ps => rfl

theorem searchRole_eq (ops : NumberOps) (t : List (Str × JSVal)) :
    searchRole ops (.obj t)
      = .ok (if truthy ops
            (entryRole (firstEntry ((lookupProp t (utf16 "experience")).getD .undefined)))
          then entryRole (firstEntry ((lookupProp t (utf16 "experience")).getD .undefined))
          else .str defaultRole) := by
  unfold searchRole
  rw [getProp_obj]
  simp only [optChain_first, optChain_role]
  rfl

theorem searchSkills_eq (ops : NumberOps) (t : List (Str × JSVal)) :
    searchSkills ops (.obj t) = specSkillsPart ops t := by
  unfold searchSkills specSkillsPart
  rw [getProp_obj]
  cases h : lookupProp t (utf16 "skills") with
  | none => rfl
  | some v => cases v <;> rfl

theorem specSkillsPart_error (ops : NumberOps) (t : List (Str × JSVal)) (e : JSError)
    (h : specSkillsPart ops t = .error e) : e = .typeError := by
  unfold specSkillsPart at h
  split at h
  · cases h
  · cases h
  · cases h
  · exact joinElems_error ops _ _ e h
  · injection h with h
    exact h.symm

theorem toStr_roleOrDefault (ops : NumberOps) (role : JSVal) :
    toStr ops (if truthy ops role then role else .str defaultRole)
      = if truthy ops role then toStr ops role else .ok defaultRole := by
  by_cases h : truthy ops role = true
  · simp [h]
  · simp [h, toStr]

/-- The query the handler derives is the query as the specification words it. -/
theorem searchQuery_eq_specQuery (ops : NumberOps) (t : List (Str × JSVal)) :
    searchQuery ops (.obj t) = specQuery ops t := by
  unfold searchQuery specQuery
  rw [searchRole_eq, searchSkills_eq]
  simp only [toStr_roleOrDefault]
  have hr : specRole ops t
      = if truthy ops
            (entryRole (firstEntry ((lookupProp t (utf16 "experience")).getD .undefined)))
        then toStr ops
            (entryRole (firstEntry ((lookupProp t (utf16 "experience")).getD .undefined)))
        else .ok defaultRole := rfl
  rw [← hr]
  cases hs : specSkillsPart ops t with
  | error e =>
    have := specSkillsPart_error ops t e hs
    subst this
    cases specRole ops t <;> rfl
  | ok skills =>
    cases hq : specRole ops t with
    | error e =>
      have he : e = .typeError := by
        rw [hr] at hq
        split at hq
        · exact toStr_error ops _ e hq
        · cases hq
      subst he
      rfl
    | ok roleText => rfl

theorem intercalate_cons_cons (sep a b : Str) (rest : List Str) :
    sep.intercalate (a :: b :: rest) = a ++ sep ++ sep.intercalate (b :: rest) := by
  simp [List.intercalate, List.intersperse]

theorem joinElems_strings (ops : NumberOps) (sep : Str) :
    ∀ ss : List Str, joinElems ops sep (ss.map JSVal.str) = .ok (sep.intercalate ss) := by
  intro ss
  induction ss with
  | nil =>
    unfold joinElems
    rfl
  | cons s ss ih =>
    cases ss with
    | nil =>
      simp only [List.map]
      unfold joinElems
      simp [JSVal.isNullish, toStr, List.intercalate]
    | cons t ts =>
      simp only [List.map] at ih ⊢
      unfold joinElems
      simp only [JSVal.isNullish, toStr, Bool.false_eq_true, if_false]
      rw [ih, intercalate_cons_cons]

/-- C13, refuted as stated: for a tailored resume whose `skills` is a string
no query is derived (`slice` gives a string, which has no `join`), and the
run, its three stages done, ends with 500 and no call of the job search; and
for a first entry whose role is `false` the role of the query is the default. -/
theorem searchQuery_skills_not_a_list :
    searchQuery exampleOps (.obj [(utf16 "skills", .str (utf16 "JS, Python"))])
      = .error .typeError ∧
    (apiProcess envSkillsText textRequest).status = 500 ∧
    stagesOf (apiProcess envSkillsText textRequest).trace
      = [.extractor, .planner, .executor] ∧
    searchCalls (apiProcess envSkillsText textRequest).trace = [] ∧
    searchQuery exampleOps
        (.obj [(utf16 "experience", .arr [.obj [(utf16 "role", .bool false)]])])
      = .ok (utf16 "Software Developer ") := by
  refine ⟨by decide, by decide, by decide, by decide, by decide⟩

/-- C13, amended: the query the handler derives from a tailored resume is
the role of the first entry of `experience` converted to a string (the
default without a first entry or with an absent or falsy role), a space, and
the first five elements of `skills` joined by a comma and a space (nothing
when `skills` is absent or `null`), and no query at all when `skills` is
another value that is not a list or a conversion throws; for a role and
skills that are strings this is the concatenation of the strings; in a
successful run the job search is called once, with the query derived from
the tailored resume of the response and page 1, and that query is the
`jobSearchQuery`; and when no query is derived the assembly of the response
fails without a call of the job search. -/
theorem searchQuery_derivation :
    (∀ (ops : NumberOps) (t : List (Str × JSVal)),
      searchQuery ops (.obj t) = specQuery ops t) ∧
    (∀ (ops : NumberOps) (t : List (Str × JSVal)) (role : Str) (skills : List Str),
      entryRole (firstEntry ((lookupProp t (utf16 "experience")).getD .undefined))
        = .str role →
      lookupProp t (utf16 "skills") = some (.arr (skills.map JSVal.str)) →
      searchQuery ops (.obj t)
        = .ok ((if role = [] then defaultRole else role) ++ utf16 " "
            ++ (utf16 ", ").intercalate (skills.take 5))) ∧
    (∀ (env : Env) (req : Request), (apiProcess env req).status = 200 →
      ∃ t query,
        getProp (apiProcess env req).body (utf16 "tailoredResume") = .ok (.obj t) ∧
        searchQuery env.ops (.obj t) = .ok query ∧
        searchCalls (apiProcess env req).trace = [Event.jobSearch query (utf16 "1")] ∧
        getProp (apiProcess env req).body (utf16 "suggestedJobs")
          = .ok (fetchJobs env query (utf16 "1")) ∧
        getProp (apiProcess env req).body (utf16 "jobSearchQuery") = .ok (.str query)) ∧
    (∀ (env : Env) (trace : List Event) (resumeJSON plan newSections tailored : JSVal)
        (e : JSError),
      tailoredResume resumeJSON newSections = .ok tailored →
      searchQuery env.ops tailored = .error e →
      assemble env trace resumeJSON plan newSections = failed trace) := by
  refine ⟨searchQuery_eq_specQuery, ?_, ?_, ?_⟩
  · intro ops t role skills hrole hskills
    rw [searchQuery_eq_specQuery]
    unfold specQuery specRole specSkillsPart
    rw [hrole, hskills]
    simp only [← List.map_take, joinElems_strings]
    cases role with
    | nil => simp [truthy]
    | cons c cs => simp [truthy, toStr]
  · intro env req h
    obtain ⟨rawText, resumeJSON, plan, prompt, newSections, tailored, q, es, sg,
      _, _, _, _, _, ht, hq, _, _, e⟩ := apiProcess_ok h
    obtain ⟨t, rfl⟩ := tailoredResume_obj ht
    refine ⟨t, q, ?_, hq, ?_, ?_, ?_⟩
    · rw [e]; rfl
    · rw [e]
      simp only [searchCalls_append, searchCalls_pdfTrace, searchCalls_gen]
      rfl
    · rw [e]; rfl
    · rw [e]; rfl
  · intro env trace resumeJSON plan newSections tailored e ht hq
    unfold assemble
    rw [ht]
    simp only [hq]

/-- C13 amended, on an example: the role of the first entry and the first
five of six skills. -/
theorem searchQuery_derivation_example :
    searchQuery exampleOps (.obj resumeExample) = .ok (utf16 "Data Engineer a, b, c, d, e") :=
  (searchQuery_derivation.2.1 exampleOps resumeExample (utf16 "Data Engineer")
    [utf16 "a", utf16 "b", utf16 "c", utf16 "d", utf16 "e", utf16 "f"] (by decide)
    (by decide)).trans (by decide)

/-! ## The uploaded file -/

/-- C14: when a request has a job description, a resume file and a
`resumeText`, and the file is read, the run starts with the reading of the
file and the Extractor call on the template with the text read from the file
in the place of its placeholder (verbatim when that text has no dollar sign,
with its dollar patterns expanded otherwise); and the whole run (status, body
and every prompt) is the same whatever `resumeText` is, absent included. -/
theorem apiProcess_file_over_text (env : Env) (resumeText jobDescription : Str)
    (buffer : List Nat) (text : Str) (hjd : jobDescription ≠ [])
    (hpdf : env.pdf buffer = .ok text) :
    (∃ rest, (apiProcess env ⟨some resumeText, some jobDescription, some buffer⟩).trace
      = Event.pdf buffer
        :: Event.generateContent .extractor
            (extractorHead
              ++ getSubstitution (utf16 "\x7brawResumeText\x7d") extractorHead extractorTail text
              ++ extractorTail)
        :: rest) ∧
    (0x24 ∉ text →
      ∃ rest, (apiProcess env ⟨some resumeText, some jobDescription, some buffer⟩).trace
        = Event.pdf buffer
          :: Event.generateContent .extractor (extractorHead ++ text ++ extractorTail)
          :: rest) ∧
    ∀ other : Option Str,
      apiProcess env ⟨other, some jobDescription, some buffer⟩
        = apiProcess env ⟨some resumeText, some jobDescription, some buffer⟩ := by
  have hb : isBlank (some jobDescription) = false := by
    cases jobDescription with
    | nil => exact absurd rfl hjd
    | cons c cs => rfl
  have hrun : ∀ other : Option Str,
      apiProcess env ⟨other, some jobDescription, some buffer⟩
        = extractorStage env [Event.pdf buffer] text jobDescription := by
    intro other
    unfold apiProcess
    simp [hb, rawTextOf, hpdf, pdfTrace]
  have hprompt : extractorPrompt text
      = extractorHead
        ++ getSubstitution (utf16 "\x7brawResumeText\x7d") extractorHead extractorTail text
        ++ extractorTail := jsReplace_of_split extractor_split text
  have htrace : ∃ rest,
      (apiProcess env ⟨some resumeText, some jobDescription, some buffer⟩).trace
        = Event.pdf buffer :: Event.generateContent .extractor (extractorPrompt text)
          :: rest := by
    rw [hrun]
    obtain ⟨rest, hrest⟩ :=
      extractorStage_trace_extends env [Event.pdf buffer] text jobDescription
    exact ⟨rest, by rw [← hrest]; rfl⟩
  refine ⟨?_, ?_, fun other => (hrun other).trans (hrun (some resumeText)).symm⟩
  · rw [← hprompt]
    exact htrace
  · intro hd
    rw [← getSubstitution_of_no_dollar (utf16 "\x7brawResumeText\x7d") extractorHead
      extractorTail text hd, ← hprompt]
    exact htrace

/-- C14, on an example: the prompt holds the text of the file, not the
`resumeText` of the request. -/
theorem apiProcess_file_over_text_example :
    (apiProcess envUpload uploadRequest).status = 200 ∧
    ∃ rest, (apiProcess envUpload uploadRequest).trace
      = Event.pdf [37, 80, 68, 70]
        :: Event.generateContent .extractor
            (extractorHead ++ utf16 "text of the file" ++ extractorTail)
        :: rest :=
  ⟨by decide,
    (apiProcess_file_over_text envUpload (utf16 "resume") (utf16 "job") [37, 80, 68, 70]
      (utf16 "text of the file") (by decide) rfl).2.1 (by decide)⟩

/-! ## Placeholder substitution -/

theorem jsReplace_retains {p q : Str} (hp : isPlaceholder p = true)
    (hq : isPlaceholder q = true) (hne : q ≠ p) {t : Str} (h : q <:+: t) (v : Str) :
    q <:+: jsReplace t p v := by
  unfold jsReplace
  cases hs : splitFirst p t with
  | none => exact h
  | some ba =>
    obtain ⟨b, a⟩ := ba
    simp only
    obtain ⟨np, rfl, hp1, hp2⟩ := isPlaceholder_spec hp
    obtain ⟨nq, rfl, hq1, hq2⟩ := isPlaceholder_spec hq
    have hn : np ≠ nq := by
      rintro rfl
      exact hne rfl
    rw [splitFirst_append hs] at h
    rcases placeholder_infix_split hp1 hp2 hq1 hq2 hn h with h1 | h1
    · obtain ⟨x, y, e⟩ := h1
      exact ⟨x, y ++ getSubstitution (0x7B :: np ++ [0x7D]) b a v ++ a, by rw [← e]; simp⟩
    · obtain ⟨x, y, e⟩ := h1
      exact ⟨b ++ getSubstitution (0x7B :: np ++ [0x7D]) b a v ++ x, y, by rw [← e]; simp⟩

/-- C15, refuted as stated: with two occurrences of the placeholder only the
first is replaced, and the prompt still contains the placeholder. -/
theorem replace_leaves_second_occurrence :
    jsReplace (utf16 "a\x7bx\x7db\x7bx\x7d") (utf16 "\x7bx\x7d") (utf16 "V")
      = utf16 "aVb\x7bx\x7d" ∧
    ¬ utf16 "\x7bx\x7d" <:+: utf16 "V" ∧
    utf16 "\x7bx\x7d"
      <:+: jsReplace (utf16 "a\x7bx\x7db\x7bx\x7d") (utf16 "\x7bx\x7d") (utf16 "V") := by
  refine ⟨by decide, by decide, ?_⟩
  exact ⟨utf16 "aVb", [], by decide⟩

/-- C15, amended: for a value without a dollar sign the substitution
replaces the first occurrence of the placeholder by the value and leaves the
rest of the template as it is, a later occurrence of the placeholder included. -/
theorem jsReplace_first_occurrence (t p V b a : Str) (ht : t = b ++ p ++ a)
    (hfirst : ¬ p <:+: b ++ p.dropLast) (hV : 0x24 ∉ V) :
    jsReplace t p V = b ++ V ++ a ∧ (p <:+: a → p <:+: jsReplace t p V) := by
  subst ht
  have e := jsReplace_first_literal b a hfirst hV
  refine ⟨e, fun h => ?_⟩
  rw [e]
  obtain ⟨x, y, hxy⟩ := h
  exact ⟨b ++ V ++ x, y, by rw [← hxy]; simp⟩

/-- C15 amended, on the example with two occurrences. -/
theorem jsReplace_first_occurrence_example :
    jsReplace (utf16 "a\x7bx\x7db\x7bx\x7d") (utf16 "\x7bx\x7d") (utf16 "V")
      = utf16 "a" ++ utf16 "V" ++ utf16 "b\x7bx\x7d" :=
  (jsReplace_first_occurrence (utf16 "a\x7bx\x7db\x7bx\x7d") (utf16 "\x7bx\x7d") (utf16 "V")
    (utf16 "a") (utf16 "b\x7bx\x7d") (by decide) (by decide) (by decide)).1

/-- C16: the Extractor prompt is the template with the resume text put in
verbatim when the text has no dollar sign; a dollar pattern in the text is
expanded instead: `$&` becomes the placeholder itself, `$$` a single dollar
sign, the dollar sign with a backtick the head of the template, with an
apostrophe its tail. -/
theorem extractorPrompt_dollar_patterns :
    extractorPromptTemplate
      = extractorHead ++ utf16 "\x7brawResumeText\x7d" ++ extractorTail ∧
    (∀ r : Str, 0x24 ∉ r → extractorPrompt r = extractorHead ++ r ++ extractorTail) ∧
    extractorPrompt (utf16 "$&")
      = extractorHead ++ utf16 "\x7brawResumeText\x7d" ++ extractorTail ∧
    extractorPrompt (utf16 "$&") ≠ extractorHead ++ utf16 "$&" ++ extractorTail ∧
    extractorPrompt (utf16 "$$") = extractorHead ++ utf16 "$" ++ extractorTail ∧
    extractorPrompt (utf16 "$\x60") = extractorHead ++ extractorHead ++ extractorTail ∧
    extractorPrompt (utf16 "$\x27") = extractorHead ++ extractorTail ++ extractorTail := by
  have e : ∀ r, extractorPrompt r
      = extractorHead ++ getSubstitution (utf16 "\x7brawResumeText\x7d") extractorHead
          extractorTail r ++ extractorTail :=
    fun r => jsReplace_of_split extractor_split r
  refine ⟨splitFirst_append extractor_split, ?_, ?_, ?_, ?_, ?_, ?_⟩
  · intro r hr
    rw [e, getSubstitution_of_no_dollar _ _ _ _ hr]
  · rw [e]; rfl
  · rw [e]
    intro h
    have h1 : getSubstitution (utf16 "\x7brawResumeText\x7d") extractorHead extractorTail
        (utf16 "$&") = utf16 "\x7brawResumeText\x7d" := rfl
    rw [h1, List.append_assoc, List.append_assoc] at h
    have h2 := List.append_cancel_right (List.append_cancel_left h)
    exact absurd h2 (by decide)
  · rw [e]; rfl
  · rw [e]
    show extractorHead ++ (extractorHead ++ []) ++ extractorTail = _
    simp
  · rw [e]
    show extractorHead ++ (extractorTail ++ []) ++ extractorTail = _
    simp

/-- C17: substituting a placeholder that does not occur in the template
returns the template unchanged (the substitution is a total function, nothing
is raised); and another placeholder that occurs in the template is still
there after the substitution. -/
theorem jsReplace_noop_and_retention (t p v : Str) :
    (¬ p <:+: t → jsReplace t p v = t) ∧
    (∀ q : Str, isPlaceholder p = true → isPlaceholder q = true → q ≠ p → q <:+: t →
      q <:+: jsReplace t p v) :=
  ⟨fun h => jsReplace_of_not_infix h v, fun _ hp hq hne h => jsReplace_retains hp hq hne h v⟩

set_option maxRecDepth 100000 in
/-- C17, on the Executor template: it has no placeholder for the job
description, so substituting one changes nothing; and the placeholder of the
plan is still there once the resume is substituted. -/
theorem jsReplace_noop_and_retention_example :
    jsReplace executorPromptTemplate (utf16 "\x7bjobDescription\x7d") (utf16 "a job")
      = executorPromptTemplate ∧
    utf16 "\x7brewritePlan\x7d"
      <:+: jsReplace executorPromptTemplate (utf16 "\x7bresumeData\x7d") (utf16 "$&") :=
  ⟨(jsReplace_noop_and_retention executorPromptTemplate (utf16 "\x7bjobDescription\x7d")
      (utf16 "a job")).1
      ((splitFirst_eq_none_iff _ _).1 (by decide)),
    (jsReplace_noop_and_retention executorPromptTemplate (utf16 "\x7bresumeData\x7d")
      (utf16 "$&")).2 (utf16 "\x7brewritePlan\x7d") (by decide) (by decide) (by decide)
      (by
        by_contra hc
        exact absurd ((splitFirst_eq_none_iff _ _).2 hc) (by decide))⟩

/-! ## The search endpoint -/

/-- C18: the handler of `/api/search-jobs` answers 400 exactly when the
query or the page is absent or empty; otherwise it calls the job search once,
with the query and the page as supplied, and answers 200 with what
`fetchJobs` returns, the empty list when the request of the job search throws. -/
theorem apiSearchJobs_spec (env : Env) (query page : Option Str) :
    ((apiSearchJobs env query page).status = 400 ↔
      (query = none ∨ query = some [] ∨ page = none ∨ page = some [])) ∧
    ((query = none ∨ query = some [] ∨ page = none ∨ page = some []) →
      (apiSearchJobs env query page).trace = []) ∧
    ∀ q p : Str, query = some q → page = some p → q ≠ [] → p ≠ [] →
      apiSearchJobs env query page = ⟨200, fetchJobs env q p, [Event.jobSearch q p]⟩ ∧
      ((∃ e, env.axiosRequest q p = .error e) →
        (apiSearchJobs env query page).body = .arr []) := by
  have hblank : ∀ f : Option Str, isBlank f = true ↔ (f = none ∨ f = some []) := by
    intro f
    cases f with
    | none => simp [isBlank]
    | some t => cases t <;> simp [isBlank]
  refine ⟨?_, ?_, ?_⟩
  · unfold apiSearchJobs
    split
    · next h =>
      rw [Bool.or_eq_true, hblank, hblank] at h
      simp only [true_iff]
      rcases h with (h | h) | (h | h)
      · exact Or.inl h
      · exact Or.inr (Or.inl h)
      · exact Or.inr (Or.inr (Or.inl h))
      · exact Or.inr (Or.inr (Or.inr h))
    · next h =>
      rw [Bool.or_eq_true, hblank, hblank] at h
      constructor
      · intro h2
        cases h2
      · intro h2
        exfalso
        apply h
        rcases h2 with h2 | h2 | h2 | h2
        · exact Or.inl (Or.inl h2)
        · exact Or.inl (Or.inr h2)
        · exact Or.inr (Or.inl h2)
        · exact Or.inr (Or.inr h2)
  · intro h
    have hb : (isBlank query || isBlank page) = true := by
      rw [Bool.or_eq_true, hblank, hblank]
      rcases h with h | h | h | h
      · exact Or.inl (Or.inl h)
      · exact Or.inl (Or.inr h)
      · exact Or.inr (Or.inl h)
      · exact Or.inr (Or.inr h)
    unfold apiSearchJobs
    rw [if_pos hb]
  · intro q p hq hp hqn hpn
    subst hq hp
    have hb : (isBlank (some q) || isBlank (some p)) = false := by
      cases q with
      | nil => exact absurd rfl hqn
      | cons a q =>
        cases p with
        | nil => exact absurd rfl hpn
        | cons b p => rfl
    have hrun : apiSearchJobs env (some q) (some p)
        = ⟨200, fetchJobs env q p, [Event.jobSearch q p]⟩ := by
      unfold apiSearchJobs
      rw [hb]
      rfl
    refine ⟨hrun, ?_⟩
    rintro ⟨e, he⟩
    rw [hrun]
    show fetchJobs env q p = .arr []
    unfold fetchJobs
    rw [he]

/-- C18, on examples: a search that fails and a search that finds a job. -/
theorem apiSearchJobs_example :
    apiSearchJobs envAllStages (some (utf16 "rust developer")) (some (utf16 "2"))
      = ⟨200, .arr [], [Event.jobSearch (utf16 "rust developer") (utf16 "2")]⟩ ∧
    apiSearchJobs envUpload (some (utf16 "rust developer")) (some (utf16 "2"))
      = ⟨200, .arr [.obj [(utf16 "job_title", .str (utf16 "Developer"))]],
          [Event.jobSearch (utf16 "rust developer") (utf16 "2")]⟩ ∧
    (apiSearchJobs envUpload (some (utf16 "rust developer")) none).status = 400 :=
  have h := (apiSearchJobs_spec envAllStages (some (utf16 "rust developer"))
    (some (utf16 "2"))).2.2 (utf16 "rust developer") (utf16 "2") rfl rfl (by decide) (by decide)
  ⟨h.1.trans (by decide), by decide, by decide⟩

set_option maxRecDepth 100000 in
theorem jobDescription_in_plannerTail : utf16 "\x7bjobDescription\x7d" <:+: plannerTail := by
  by_contra hc
  exact absurd ((splitFirst_eq_none_iff _ _).2 hc) (by decide)

set_option maxRecDepth 100000 in
theorem brace_not_in_plannerHead : 0x7B ∉ plannerHead := by
  decide

/-- C19: when the serialized resume contains the placeholder of the job
description, and neither it nor the job description has a dollar sign, the
Planner prompt is the head of the template, the serialized resume with the
job description in the place of the first such occurrence, and the tail of
the template, in which the placeholder of the job description still stands. -/
theorem plannerPrompt_missubstitution (ops : NumberOps) (resumeJSON : JSVal)
    (jobDescription before after : Str)
    (hjson : stringifyArg ops resumeJSON
      = before ++ utf16 "\x7bjobDescription\x7d" ++ after)
    (hfirst : ¬ utf16 "\x7bjobDescription\x7d"
      <:+: before ++ (utf16 "\x7bjobDescription\x7d").dropLast)
    (hjsonDollar : 0x24 ∉ stringifyArg ops resumeJSON)
    (hjobDollar : 0x24 ∉ jobDescription) :
    plannerPromptTemplate = plannerHead ++ utf16 "\x7bresumeData\x7d" ++ plannerTail ∧
    plannerPrompt ops resumeJSON jobDescription
      = plannerHead ++ (before ++ jobDescription ++ after) ++ plannerTail ∧
    utf16 "\x7bjobDescription\x7d" <:+: plannerTail := by
  refine ⟨splitFirst_append planner_split, ?_, jobDescription_in_plannerTail⟩
  unfold plannerPrompt
  rw [jsReplace_of_split planner_split, getSubstitution_of_no_dollar _ _ _ _ hjsonDollar, hjson]
  have hsplit : plannerHead ++ (before ++ utf16 "\x7bjobDescription\x7d" ++ after) ++ plannerTail
      = (plannerHead ++ before) ++ utf16 "\x7bjobDescription\x7d" ++ (after ++ plannerTail) := by
    simp
  have hf : ¬ utf16 "\x7bjobDescription\x7d"
      <:+: (plannerHead ++ before) ++ (utf16 "\x7bjobDescription\x7d").dropLast := by
    rw [List.append_assoc]
    have hcons : utf16 "\x7bjobDescription\x7d"
        = 0x7B :: (utf16 "jobDescription\x7d") := by decide
    rw [hcons] at hfirst ⊢
    exact not_infix_append_of_head brace_not_in_plannerHead hfirst
  rw [hsplit, jsReplace_first_literal _ _ hf hjobDollar]
  simp

/-- C19, on an example: a resume whose name is the placeholder. -/
theorem plannerPrompt_missubstitution_example :
    plannerPrompt exampleOps (.obj [(utf16 "name", .str (utf16 "\x7bjobDescription\x7d"))])
        (utf16 "Engineer")
      = plannerHead ++ (utf16 "\x7b\n  \"name\": \"" ++ utf16 "Engineer" ++ utf16 "\"\n\x7d")
        ++ plannerTail :=
  (plannerPrompt_missubstitution exampleOps
    (.obj [(utf16 "name", .str (utf16 "\x7bjobDescription\x7d"))]) (utf16 "Engineer")
    (utf16 "\x7b\n  \"name\": \"") (utf16 "\"\n\x7d") (by decide)
    (by
      intro hc
      exact absurd ((splitFirst_eq_none_iff _ _).1 (by decide)) (fun h => h hc))
    (by decide) (by decide)).2.1

/-! ## Fence removal inside a string literal -/

theorem tickSafe_of_no_backtick {a : Str} (h : backtick ∉ a) : TickSafe a := by
  constructor
  · rintro ⟨x, y, hxy⟩
    exact h (by rw [← hxy]; simp [fence])
  · intro b hb
    exact h (by rw [hb]; simp)

theorem prefix_of_prefix_append_cons {pat x : Str} {q : Nat} {y : Str} (hq : q ∉ pat)
    (h : pat <+: x ++ q :: y) : pat <+: x := by
  have h2 : x ++ [q] <+: x ++ q :: y := ⟨y, by simp⟩
  rcases List.prefix_or_prefix_of_prefix h h2 with h3 | h3
  · rcases List.prefix_concat_iff.1 h3 with h4 | h4
    · exact absurd (by rw [h4]; simp) hq
    · exact h4
  · exact absurd (h3.subset (by simp)) hq

/-- The removal of a pattern does not reach across a code unit that is not
in the pattern. -/
theorem removeAll_append_boundary {pat : Str} {q : Nat} (hq : q ∉ pat) (y : Str) (n : Nat) :
    ∀ x : Str, x.length ≤ n →
      removeAll pat (x ++ q :: y) = removeAll pat x ++ removeAll pat (q :: y) := by
  induction n with
  | zero =>
    intro x hx
    have : x = [] := List.length_eq_zero.1 (Nat.le_zero.1 hx)
    subst this
    rw [removeAll_nil]
    rfl
  | succ n ih =>
    intro x hx
    cases x with
    | nil =>
      rw [removeAll_nil]
      rfl
    | cons c cs =>
      cases hm : pat.isPrefixOf (c :: cs) with
      | true =>
        have hp : pat <+: c :: cs := List.isPrefixOf_iff_prefix.1 hm
        have hm2 : pat.isPrefixOf (c :: (cs ++ q :: y)) = true :=
          List.isPrefixOf_iff_prefix.2 (hp.trans ⟨q :: y, rfl⟩)
        have hlen : pat.length - 1 ≤ cs.length := by
          have := hp.length_le
          simp only [List.length_cons] at this
          omega
        rw [List.cons_append, removeAll_cons_of_match _ _ _ hm2,
          removeAll_cons_of_match _ _ _ hm, List.drop_append_of_le_length hlen]
        apply ih
        rw [List.length_drop]
        simp only [List.length_cons] at hx
        omega
      | false =>
        have hm2 : pat.isPrefixOf (c :: (cs ++ q :: y)) = false := by
          cases hm3 : pat.isPrefixOf (c :: (cs ++ q :: y)) with
          | false => rfl
          | true =>
            have hp : pat <+: (c :: cs) ++ q :: y := List.isPrefixOf_iff_prefix.1 hm3
            have := List.isPrefixOf_iff_prefix.2 (prefix_of_prefix_append_cons hq hp)
            rw [this] at hm
            cases hm
        rw [List.cons_append, removeAll_cons_of_not_match _ _ _ hm2,
          removeAll_cons_of_not_match _ _ _ hm, ih cs (by simpa using hx)]
        rfl

theorem removeAll_subset (pat : Str) (n : Nat) :
    ∀ s : Str, s.length ≤ n → ∀ c ∈ removeAll pat s, c ∈ s := by
  induction n with
  | zero =>
    intro s hs c hc
    have : s = [] := List.length_eq_zero.1 (Nat.le_zero.1 hs)
    subst this
    rw [removeAll_nil] at hc
    exact hc
  | succ n ih =>
    intro s hs c hc
    cases s with
    | nil =>
      rw [removeAll_nil] at hc
      exact hc
    | cons d ds =>
      cases hm : pat.isPrefixOf (d :: ds) with
      | true =>
        rw [removeAll_cons_of_match _ _ _ hm] at hc
        have h1 := ih (ds.drop (pat.length - 1))
          (by rw [List.length_drop]; simp only [List.length_cons] at hs; omega) c hc
        exact List.mem_cons_of_mem _ (List.mem_of_mem_drop h1)
      | false =>
        rw [removeAll_cons_of_not_match _ _ _ hm] at hc
        rcases List.mem_cons.1 hc with h1 | h1
        · rw [h1]; simp
        · exact List.mem_cons_of_mem _ (ih ds (by simpa using hs) c h1)

theorem cleanedText_subset (s : Str) : ∀ c ∈ cleanedText s, c ∈ s := by
  intro c hc
  unfold cleanedText at hc
  exact removeAll_subset _ _ _ (Nat.le_refl _) c (removeAll_subset _ _ _ (Nat.le_refl _) c hc)

/-- The fence removal inside a text that is enclosed by texts without
backticks, the second starting with a code unit that is in no fence marker. -/
theorem cleanedText_inside {pre : Str} (hpre : backtick ∉ pre) (body : Str) {q : Nat}
    {rest : Str} (hq : q ∉ fenceJson) (hpost : backtick ∉ q :: rest) :
    cleanedText (pre ++ body ++ q :: rest) = pre ++ cleanedText body ++ q :: rest := by
  have hq2 : q ∉ fence := fun h => hq (fence_prefix_fenceJson.subset h)
  have hp := tickSafe_of_no_backtick hpre
  have hr := tickSafe_of_no_backtick hpost
  unfold cleanedText
  rw [List.append_assoc, removeAll_append_of_tickSafe fence_prefix_fenceJson hp,
    removeAll_append_boundary hq rest _ body (Nat.le_refl _),
    removeAll_of_tickSafe fence_prefix_fenceJson hr,
    removeAll_append_of_tickSafe (List.prefix_refl _) hp,
    removeAll_append_boundary hq2 rest _ _ (Nat.le_refl _),
    removeAll_of_tickSafe (List.prefix_refl _) hr]
  simp

theorem cleanedText_ne_of_fence {s : Str} (h : fence <:+: s) : cleanedText s ≠ s := by
  intro e
  have := removeAll_fence_no_fence (removeAll fenceJson s)
  unfold cleanedText at e
  rw [e] at this
  exact this h

theorem jchars_plain : ∀ s : Str, (∀ c ∈ s, isPlainChar c = true) → JChars s s := by
  intro s
  induction s with
  | nil => intro _; exact JChars.nil
  | cons c cs ih =>
    intro h
    have hc := h c (by simp)
    simp only [isPlainChar, Bool.and_eq_true, decide_eq_true_eq, bne_iff_ne, ne_eq] at hc
    exact JChars.plain c cs cs hc.1.2 hc.2 hc.1.1
      (ih (fun d hd => h d (List.mem_cons_of_mem _ hd)))

/-! ## Fence removal, piece by piece -/

theorem not_isPrefixOf_of_fence {pat : Str} (hpat : fence <+: pat) {q : Nat} (hq : q ≠ backtick)
    (y : Str) : pat.isPrefixOf (q :: y) = false := by
  apply isPrefixOf_false_of_fence hpat
  cases h : fence.isPrefixOf (q :: y) with
  | false => rfl
  | true =>
    obtain ⟨t, ht⟩ := (fence_isPrefixOf_iff _).1 h
    injection ht with h1 _
    exact absurd h1 hq

theorem removeAll_cons_ne {pat : Str} (hpat : fence <+: pat) {q : Nat} (hq : q ≠ backtick)
    (y : Str) : removeAll pat (q :: y) = q :: removeAll pat y :=
  removeAll_cons_of_not_match _ _ _ (not_isPrefixOf_of_fence hpat hq y)

theorem cleanedText_nil : cleanedText [] = [] := by
  unfold cleanedText
  rw [removeAll_nil, removeAll_nil]

/-- The fence removal passes over a code unit that is not a backtick at the
head of the text. -/
theorem cleanedText_cons {c : Nat} (hc : c ≠ backtick) (t : Str) :
    cleanedText (c :: t) = c :: cleanedText t := by
  unfold cleanedText
  rw [removeAll_cons_ne fence_prefix_fenceJson hc, removeAll_cons_ne (List.prefix_refl _) hc]

theorem ne_backtick_of_not_mem {q : Nat} (hq : q ∉ fenceJson) : q ≠ backtick := by
  rintro rfl
  exact hq (by decide)

/-- The fence removal does not reach across a code unit that is in no fence marker. -/
theorem cleanedText_append_sep {q : Nat} (hq : q ∉ fenceJson) (x y : Str) :
    cleanedText (x ++ q :: y) = cleanedText x ++ q :: cleanedText y := by
  have hq2 : q ∉ fence := fun h => hq (fence_prefix_fenceJson.subset h)
  have hb := ne_backtick_of_not_mem hq
  unfold cleanedText
  rw [removeAll_append_boundary hq y _ x (Nat.le_refl _),
    removeAll_cons_ne fence_prefix_fenceJson hb,
    removeAll_append_boundary hq2 _ _ _ (Nat.le_refl _),
    removeAll_cons_ne (List.prefix_refl _) hb]

theorem cleanedText_append_of_no_tick {x : Str} (hx : backtick ∉ x) (y : Str) :
    cleanedText (x ++ y) = x ++ cleanedText y := by
  have hp := tickSafe_of_no_backtick hx
  unfold cleanedText
  rw [removeAll_append_of_tickSafe fence_prefix_fenceJson hp,
    removeAll_append_of_tickSafe (List.prefix_refl _) hp]

theorem cleanedText_of_no_tick {x : Str} (hx : backtick ∉ x) : cleanedText x = x := by
  have := cleanedText_append_of_no_tick hx []
  simpa [cleanedText_nil] using this

theorem allWs_no_tick {w : Str} (h : AllWs w) : backtick ∉ w := by
  intro hm
  have := h _ hm
  revert this
  decide

/-- After a text, white space is left as it is. -/
theorem cleanedText_append_ws (t : Str) {w : Str} (h : AllWs w) :
    cleanedText (t ++ w) = cleanedText t ++ w := by
  cases w with
  | nil => simp
  | cons q w =>
    have hq : q ∉ fenceJson := by
      have := isWs_cases (h q (by simp))
      rcases this with rfl | rfl | rfl | rfl <;> decide
    have hw : backtick ∉ w := fun hm => allWs_no_tick h (List.mem_cons_of_mem _ hm)
    rw [cleanedText_append_sep hq, cleanedText_of_no_tick hw]

/-! ### Escapes -/

theorem EscapeSafe.of_append_left {a b : Str} (h : EscapeSafe (a ++ b)) : EscapeSafe a := by
  intro x p q r s y u hd hu
  exact h x p q r s (y ++ b) u (by rw [hd]; simp) hu

theorem EscapeSafe.of_append_right {a b : Str} (h : EscapeSafe (a ++ b)) : EscapeSafe b := by
  intro x p q r s y u hd hu
  exact h (a ++ x) p q r s y u (by rw [hd]; simp) hu

theorem EscapeSafe.tail_safe {c : Nat} {a : Str} (h : EscapeSafe (c :: a)) : EscapeSafe a :=
  @EscapeSafe.of_append_right [c] a h

theorem escapeSafe_of_no_backslash {d : Str} (h : 0x5C ∉ d) : EscapeSafe d := by
  intro x p q r s y u hd _
  exact absurd (by rw [hd]; simp) h

theorem escapeUnit_props {e u : Nat} (h : escapeUnit e = some u) :
    e ≠ backtick ∧ u ∉ fenceJson := by
  have hcases : e = 0x22 ∨ e = 0x5C ∨ e = 0x2F ∨ e = 0x62 ∨ e = 0x66 ∨ e = 0x6E ∨ e = 0x72
      ∨ e = 0x74 := by
    by_contra hne
    simp only [not_or] at hne
    obtain ⟨h1, h2, h3, h4, h5, h6, h7, h8⟩ := hne
    simp [escapeUnit, h1, h2, h3, h4, h5, h6, h7, h8] at h
  rcases hcases with rfl | rfl | rfl | rfl | rfl | rfl | rfl | rfl <;>
    (simp only [escapeUnit] at h
     injection h with h
     subst h
     exact ⟨by decide, by decide⟩)

theorem hexVal_ne_backtick {c v : Nat} (h : hexVal c = some v) : c ≠ backtick := by
  rintro rfl
  have : hexVal backtick = none := by decide
  rw [this] at h
  cases h

theorem hex4_ne_backtick {a b c d u : Nat} (h : hex4 a b c d = some u) :
    a ≠ backtick ∧ b ≠ backtick ∧ c ≠ backtick ∧ d ≠ backtick := by
  unfold hex4 at h
  cases ha : hexVal a with
  | none => simp [ha] at h
  | some x =>
    cases hb : hexVal b with
    | none => simp [ha, hb] at h
    | some y =>
      cases hc : hexVal c with
      | none => simp [ha, hb, hc] at h
      | some z =>
        cases hd : hexVal d with
        | none => simp [ha, hb, hc, hd] at h
        | some w =>
          exact ⟨hexVal_ne_backtick ha, hexVal_ne_backtick hb, hexVal_ne_backtick hc,
            hexVal_ne_backtick hd⟩

theorem jchars_plain_append {p : Str} (hp : ∀ c ∈ p, isPlainChar c = true) {r w : Str}
    (h : JChars r w) : JChars (p ++ r) (p ++ w) := by
  induction p with
  | nil => exact h
  | cons c cs ih =>
    have hc := hp c (by simp)
    simp only [isPlainChar, Bool.and_eq_true, decide_eq_true_eq, bne_iff_ne, ne_eq] at hc
    exact JChars.plain c _ _ hc.1.2 hc.2 hc.1.1
      (ih (fun d hd => hp d (List.mem_cons_of_mem _ hd)))

/-- The characters of a string literal with the fence markers deleted are
the characters of a string literal, of the string with the markers deleted. -/
theorem jchars_strip {raw val : Str} (h : JChars raw val) :
    EscapeSafe raw → ∀ x : Str, (∀ c ∈ x, isPlainChar c = true) →
      JChars (cleanedText (x ++ raw)) (cleanedText (x ++ val)) := by
  induction h with
  | nil =>
    intro _ x hx
    simp only [List.append_nil]
    exact jchars_plain _ (fun c hc => hx c (cleanedText_subset x c hc))
  | plain c t v h1 h2 h3 _ ih =>
    intro hs x hx
    have hx2 : ∀ d ∈ x ++ [c], isPlainChar d = true := by
      intro d hd
      rcases List.mem_append.1 hd with hd | hd
      · exact hx d hd
      · simp only [List.mem_singleton] at hd
        subst hd
        simp [isPlainChar, h1, h2, h3]
    have := ih hs.tail_safe (x ++ [c]) hx2
    simpa using this
  | escape e u t v h1 h2 _ ih =>
    intro hs x hx
    obtain ⟨he, hu⟩ := escapeUnit_props h2
    have hb : (0x5C : Nat) ∉ fenceJson := by decide
    rw [cleanedText_append_sep hb, cleanedText_cons he, cleanedText_append_sep hu]
    have ht := ih hs.tail_safe.tail_safe [] (by simp)
    simp only [List.nil_append] at ht
    exact jchars_plain_append (fun c hc => hx c (cleanedText_subset x c hc))
      (JChars.escape e u _ _ h1 h2 ht)
  | unicode a b c d u t v h1 _ ih =>
    intro hs x hx
    have hu : u ∉ fenceJson := hs [] a b c d t u rfl h1
    obtain ⟨ha, hb, hc, hd⟩ := hex4_ne_backtick h1
    have hbs : (0x5C : Nat) ∉ fenceJson := by decide
    have hu75 : (0x75 : Nat) ≠ backtick := by decide
    rw [cleanedText_append_sep hbs, cleanedText_cons hu75, cleanedText_cons ha,
      cleanedText_cons hb, cleanedText_cons hc, cleanedText_cons hd,
      cleanedText_append_sep hu]
    have ht := ih hs.tail_safe.tail_safe.tail_safe.tail_safe.tail_safe.tail_safe [] (by simp)
    simp only [List.nil_append] at ht
    exact jchars_plain_append (fun c hc => hx c (cleanedText_subset x c hc))
      (JChars.unicode a b c d u _ _ h1 ht)

/-! ## Objects under a change of their values -/

theorem insertIndex_map {α β : Type} (g : α → β) (i : Nat) (k : Str) (v : α)
    (o : List (Str × α)) :
    insertIndex i k (g v) (o.map (fun p => (p.1, g p.2)))
      = (insertIndex i k v o).map (fun p => (p.1, g p.2)) := by
  induction o with
  | nil => rfl
  | cons p o ih =>
    obtain ⟨l, w⟩ := p
    simp only [List.map_cons, insertIndex]
    cases arrayIndex l with
    | none => rfl
    | some j =>
      simp only
      by_cases hj : j < i
      · simp only [hj, if_true, List.map_cons, ih]
      · simp only [hj, if_false, List.map_cons]

theorem setProp_map {α β : Type} (g : α → β) (o : List (Str × α)) (k : Str) (v : α) :
    setProp (o.map (fun p => (p.1, g p.2))) k (g v)
      = (setProp o k v).map (fun p => (p.1, g p.2)) := by
  unfold setProp
  have hany : (o.map (fun p => (p.1, g p.2))).any (fun p => p.1 == k)
      = o.any (fun p => p.1 == k) := by
    induction o with
    | nil => rfl
    | cons p o ih => simp only [List.map_cons, List.any_cons, ih]
  rw [hany]
  by_cases h : o.any (fun p => p.1 == k) = true
  · rw [if_pos h, if_pos h, List.map_map, List.map_map]
    apply List.map_congr_left
    intro p _
    simp only [Function.comp]
    by_cases hp : (p.1 == k) = true
    · simp [hp]
    · simp [hp]
  · rw [if_neg h, if_neg h]
    cases arrayIndex k with
    | none => simp
    | some i => exact insertIndex_map g i k v o

theorem foldl_setProp_map {α β : Type} (g : α → β) (ms o : List (Str × α)) :
    (ms.map (fun p => (p.1, g p.2))).foldl (fun o m => setProp o m.1 m.2)
        (o.map (fun p => (p.1, g p.2)))
      = (ms.foldl (fun o m => setProp o m.1 m.2) o).map (fun p => (p.1, g p.2)) := by
  induction ms generalizing o with
  | nil => rfl
  | cons m ms ih =>
    simp only [List.map_cons, List.foldl_cons]
    rw [setProp_map, ih]

/-- The object of members with their values changed is the object of the
members with its values changed. -/
theorem mkObject_map {α β : Type} (g : α → β) (ms : List (Str × α)) :
    mkObject (ms.map (fun p => (p.1, g p.2))) = (mkObject ms).map (fun p => (p.1, g p.2)) := by
  unfold mkObject
  exact foldl_setProp_map g ms []

theorem mem_insertIndex {α : Type} {i : Nat} {k : Str} {v : α} {o : List (Str × α)}
    {p : Str × α} (h : p ∈ insertIndex i k v o) : p = (k, v) ∨ p ∈ o := by
  induction o with
  | nil =>
    simp only [insertIndex, List.mem_singleton] at h
    exact Or.inl h
  | cons q o ih =>
    obtain ⟨l, w⟩ := q
    simp only [insertIndex] at h
    cases hl : arrayIndex l with
    | none =>
      rw [hl] at h
      simp only [List.mem_cons] at h ⊢
      exact h
    | some j =>
      rw [hl] at h
      simp only at h
      by_cases hj : j < i
      · simp only [hj, if_true, List.mem_cons] at h
        rcases h with h | h
        · exact Or.inr (by simp [h])
        · rcases ih h with h | h
          · exact Or.inl h
          · exact Or.inr (List.mem_cons_of_mem _ h)
      · simp only [hj, if_false, List.mem_cons] at h
        simp only [List.mem_cons]
        exact h

theorem mem_setProp {α : Type} {o : List (Str × α)} {k : Str} {v : α} {p : Str × α}
    (h : p ∈ setProp o k v) : p = (k, v) ∨ p ∈ o := by
  unfold setProp at h
  split at h
  · obtain ⟨q, hq, rfl⟩ := List.mem_map.1 h
    by_cases hk : (q.1 == k) = true
    · simp [hk]
    · simp only [hk, Bool.false_eq_true, if_false]
      exact Or.inr hq
  · split at h
    · exact mem_insertIndex h
    · rcases List.mem_append.1 h with h | h
      · exact Or.inr h
      · exact Or.inl (by simpa using h)

theorem mem_foldl_setProp {α : Type} {p : Str × α} (ms : List (Str × α)) :
    ∀ o : List (Str × α), p ∈ ms.foldl (fun o m => setProp o m.1 m.2) o → p ∈ ms ∨ p ∈ o := by
  induction ms with
  | nil => intro o h; exact Or.inr h
  | cons m ms ih =>
    intro o h
    rcases ih _ h with h | h
    · exact Or.inl (List.mem_cons_of_mem _ h)
    · rcases mem_setProp h with h | h
      · exact Or.inl (by rw [h]; simp)
      · exact Or.inr h

/-- The members of the object of a member list are among its members. -/
theorem mem_mkObject {α : Type} {p : Str × α} {ms : List (Str × α)} (h : p ∈ mkObject ms) :
    p ∈ ms := by
  rcases mem_foldl_setProp ms [] h with h | h
  · exact h
  · cases h

theorem key_mem_iff_lookup {α : Type} (o : List (Str × α)) (k : Str) :
    k ∈ o.map Prod.fst ↔ lookupProp o k ≠ none := by
  rw [Ne, lookupProp_eq_none_iff]
  simp

theorem key_mem_setProp {α : Type} (o : List (Str × α)) (k : Str) (v : α) (k2 : Str) :
    k2 ∈ (setProp o k v).map Prod.fst ↔ (k2 = k ∨ k2 ∈ o.map Prod.fst) := by
  rw [key_mem_iff_lookup, lookupProp_setProp, key_mem_iff_lookup]
  by_cases h : k2 = k
  · simp [h]
  · simp [h]

theorem key_mem_foldl_setProp {α : Type} (ms : List (Str × α)) (k : Str) :
    ∀ o : List (Str × α),
      (k ∈ ms.map Prod.fst ∨ k ∈ o.map Prod.fst) →
      k ∈ (ms.foldl (fun o m => setProp o m.1 m.2) o).map Prod.fst := by
  induction ms with
  | nil =>
    intro o h
    rcases h with h | h
    · cases h
    · exact h
  | cons m ms ih =>
    intro o h
    apply ih
    rcases h with h | h
    · simp only [List.map_cons, List.mem_cons] at h
      rcases h with h | h
      · exact Or.inr ((key_mem_setProp o m.1 m.2 k).2 (Or.inl h))
      · exact Or.inl h
    · exact Or.inr ((key_mem_setProp o m.1 m.2 k).2 (Or.inr h))

/-- Every key of a member list is a key of its object. -/
theorem key_mem_mkObject {α : Type} {ms : List (Str × α)} {k : Str}
    (h : k ∈ ms.map Prod.fst) : k ∈ (mkObject ms).map Prod.fst :=
  key_mem_foldl_setProp ms k [] (Or.inl h)

/-! ## The fence removal as a function of the value -/

theorem stripProps_eq_map (ps : List (Str × JSVal)) :
    stripProps ps = ps.map (fun p => (p.1, stripVal p.2)) := by
  induction ps with
  | nil => rfl
  | cons p ps ih =>
    obtain ⟨k, v⟩ := p
    simp only [stripProps, List.map_cons, ih]

theorem keysTickFreeProps_iff (ps : List (Str × JSVal)) :
    keysTickFreeProps ps = true ↔ ∀ p ∈ ps, backtick ∉ p.1 ∧ keysTickFree p.2 = true := by
  induction ps with
  | nil => simp [keysTickFreeProps]
  | cons p ps ih =>
    obtain ⟨k, v⟩ := p
    simp only [keysTickFreeProps, Bool.and_eq_true, Bool.not_eq_true', ih, List.mem_cons,
      forall_eq_or_imp]
    constructor
    · rintro ⟨⟨h1, h2⟩, h3⟩
      refine ⟨⟨?_, h2⟩, h3⟩
      intro hm
      have : k.contains backtick = true := by simpa using hm
      rw [this] at h1
      cases h1
    · rintro ⟨⟨h1, h2⟩, h3⟩
      refine ⟨⟨?_, h2⟩, h3⟩
      cases hc : k.contains backtick with
      | false => rfl
      | true => exact absurd (by simpa using hc) h1

theorem stripVals_of_pointwise {vs ws : List JSVal}
    (h : List.Forall₂ (fun v w => keysTickFree v = true → w = stripVal v) vs ws)
    (hk : keysTickFreeList vs = true) : ws = stripVals vs := by
  induction h with
  | nil => rfl
  | cons h1 _ ih =>
    simp only [keysTickFreeList, Bool.and_eq_true] at hk
    simp only [stripVals]
    rw [h1 hk.1, ih hk.2]

theorem members_zip {ms ns : List (Str × JSVal)}
    (h : List.Forall₂ (fun m n => n.1 = cleanedText m.1 ∧
      (keysTickFree m.2 = true → n.2 = stripVal m.2)) ms ns) :
    ∃ D : List (Str × (JSVal × JSVal)),
      ms = D.map (fun p => (p.1, p.2.1)) ∧
      ns = D.map (fun p => (cleanedText p.1, p.2.2)) ∧
      ∀ p ∈ D, keysTickFree p.2.1 = true → p.2.2 = stripVal p.2.1 := by
  induction h with
  | nil => exact ⟨[], rfl, rfl, by simp⟩
  | @cons m n ms ns h1 _ ih =>
    obtain ⟨D, e1, e2, hD⟩ := ih
    refine ⟨(m.1, (m.2, n.2)) :: D, ?_, ?_, ?_⟩
    · simp [e1]
    · simp only [List.map_cons, ← e2, ← h1.1]
    · intro p hp
      rcases List.mem_cons.1 hp with rfl | hp
      · exact h1.2
      · exact hD p hp

/-- When no key of the object has a backtick, the object of the stripped
members is the object with its values stripped. -/
theorem mkObject_strip {ms ns : List (Str × JSVal)}
    (h : List.Forall₂ (fun m n => n.1 = cleanedText m.1 ∧
      (keysTickFree m.2 = true → n.2 = stripVal m.2)) ms ns)
    (hk : keysTickFreeProps (mkObject ms) = true) :
    mkObject ns = stripProps (mkObject ms) := by
  obtain ⟨D, e1, e2, hD⟩ := members_zip h
  rw [keysTickFreeProps_iff] at hk
  have hkeys : ∀ p ∈ D, cleanedText p.1 = p.1 := by
    intro p hp
    have hm : p.1 ∈ ms.map Prod.fst := by
      rw [e1, List.map_map]
      exact List.mem_map.2 ⟨p, hp, rfl⟩
    obtain ⟨q, hq, hq1⟩ := List.mem_map.1 (key_mem_mkObject hm)
    have := (hk q hq).1
    rw [hq1] at this
    exact cleanedText_of_no_tick this
  have e3 : ns = D.map (fun p => (p.1, p.2.2)) := by
    rw [e2]
    apply List.map_congr_left
    intro p hp
    rw [hkeys p hp]
  have o1 : mkObject ms = (mkObject D).map (fun p => (p.1, p.2.1)) := by
    rw [e1]
    exact mkObject_map (fun x : JSVal × JSVal => x.1) D
  have o2 : mkObject ns = (mkObject D).map (fun p => (p.1, p.2.2)) := by
    rw [e3]
    exact mkObject_map (fun x : JSVal × JSVal => x.2) D
  rw [o2, stripProps_eq_map, o1, List.map_map]
  apply List.map_congr_left
  intro p hp
  have hpD : p ∈ D := mem_mkObject hp
  have hfree : keysTickFree p.2.1 = true := by
    have : (p.1, p.2.1) ∈ mkObject ms := by
      rw [o1]
      exact List.mem_map.2 ⟨p, hp, rfl⟩
    exact (hk _ this).2
  simp only [Function.comp, hD p hpD hfree]

mutual
/-- A string value with three consecutive backticks is changed by the deletion. -/
theorem stripVal_ne_of_hasFence : ∀ v : JSVal, hasFence v = true → stripVal v ≠ v
  | .undefined, h => by simp [hasFence] at h
  | .null, h => by simp [hasFence] at h
  | .bool b, h => by simp [hasFence] at h
  | .num n, h => by simp [hasFence] at h
  | .str s, h => by
    simp only [hasFence, decide_eq_true_eq] at h
    intro e
    simp only [stripVal] at e
    injection e with e
    exact cleanedText_ne_of_fence h e
  | .arr xs, h => by
    simp only [hasFence] at h
    intro e
    simp only [stripVal] at e
    injection e with e
    exact stripVals_ne_of_hasFence xs h e
  | .obj ps, h => by
    simp only [hasFence] at h
    intro e
    simp only [stripVal] at e
    injection e with e
    exact stripProps_ne_of_hasFence ps h e
theorem stripVals_ne_of_hasFence : ∀ xs : List JSVal, hasFenceList xs = true →
    stripVals xs ≠ xs
  | [], h => by simp [hasFenceList] at h
  | x :: xs, h => by
    simp only [hasFenceList, Bool.or_eq_true] at h
    intro e
    simp only [stripVals] at e
    injection e with e1 e2
    rcases h with h | h
    · exact stripVal_ne_of_hasFence x h e1
    · exact stripVals_ne_of_hasFence xs h e2
theorem stripProps_ne_of_hasFence : ∀ ps : List (Str × JSVal), hasFenceProps ps = true →
    stripProps ps ≠ ps
  | [], h => by simp [hasFenceProps] at h
  | (k, v) :: ps, h => by
    simp only [hasFenceProps, Bool.or_eq_true] at h
    intro e
    simp only [stripProps] at e
    injection e with e1 e2
    injection e1 with _ e3
    rcases h with h | h
    · exact stripVal_ne_of_hasFence v h e3
    · exact stripProps_ne_of_hasFence ps h e2
end

/-! ## Fence removal along the grammar -/

theorem EscapeSafe.of_part {d t : Str} (h : EscapeSafe d) (ht : t <:+: d) : EscapeSafe t := by
  obtain ⟨pre, post, e⟩ := ht
  rw [← e] at h
  exact h.of_append_left.of_append_right

theorem isDigit_ne_backtick {d : Nat} (h : isDigit d = true) : d ≠ backtick := by
  rintro rfl
  revert h
  decide

theorem isDigits_no_tick {ds : Str} (h : IsDigits ds) : backtick ∉ ds :=
  fun hm => isDigit_ne_backtick (h _ hm) rfl

theorem jint_no_tick {t : Str} (h : JInt t) : backtick ∉ t := by
  cases h with
  | zero => decide
  | nonzero d ds h1 _ h3 =>
    intro hm
    rcases List.mem_cons.1 hm with hm | hm
    · exact isDigit_ne_backtick h1 hm.symm
    · exact isDigits_no_tick h3 hm

theorem jfrac_no_tick {t fd : Str} (h : JFrac t fd) : backtick ∉ t := by
  cases h with
  | absent => simp
  | digits ds _ h2 =>
    intro hm
    rcases List.mem_cons.1 hm with hm | hm
    · revert hm; decide
    · exact isDigits_no_tick h2 hm

theorem jexp_no_tick {t : Str} {e : Int} (h : JExp t e) : backtick ∉ t := by
  cases h with
  | absent => simp
  | unsigned c ds h1 _ h3 =>
    intro hm
    rcases List.mem_cons.1 hm with hm | hm
    · rcases h1 with rfl | rfl <;> revert hm <;> decide
    · exact isDigits_no_tick h3 hm
  | plus c ds h1 _ h3 =>
    intro hm
    rcases List.mem_cons.1 hm with hm | hm
    · rcases h1 with rfl | rfl <;> revert hm <;> decide
    · rcases List.mem_cons.1 hm with hm | hm
      · revert hm; decide
      · exact isDigits_no_tick h3 hm
  | minus c ds h1 _ h3 =>
    intro hm
    rcases List.mem_cons.1 hm with hm | hm
    · rcases h1 with rfl | rfl <;> revert hm <;> decide
    · rcases List.mem_cons.1 hm with hm | hm
      · revert hm; decide
      · exact isDigits_no_tick h3 hm

theorem jnumber_no_tick {t : Str} {n : JNum} (h : JNumber t n) : backtick ∉ t := by
  cases h with
  | positive int frac fd ex e h1 h2 h3 =>
    simp only [List.mem_append, not_or]
    exact ⟨⟨jint_no_tick h1, jfrac_no_tick h2⟩, jexp_no_tick h3⟩
  | negative int frac fd ex e h1 h2 h3 =>
    intro hm
    rcases List.mem_cons.1 hm with hm | hm
    · revert hm; decide
    · simp only [List.mem_append] at hm
      rcases hm with (hm | hm) | hm
      · exact jint_no_tick h1 hm
      · exact jfrac_no_tick h2 hm
      · exact jexp_no_tick h3 hm

/-- The fence removal in a bracketed text. -/
theorem cleanedText_bracket {o c : Nat} (ho : o ≠ backtick) (hc : c ∉ fenceJson) (t : Str) :
    cleanedText (o :: t ++ [c]) = o :: cleanedText t ++ [c] := by
  rw [List.cons_append, cleanedText_cons ho, cleanedText_append_sep hc, cleanedText_nil]
  rfl

/-- The fence removal in an element between white space. -/
theorem cleanedText_element {w1 w2 : Str} (h1 : AllWs w1) (h2 : AllWs w2) (t : Str) :
    cleanedText (w1 ++ t ++ w2) = w1 ++ cleanedText t ++ w2 := by
  rw [cleanedText_append_ws _ h2, cleanedText_append_of_no_tick (allWs_no_tick h1)]

/-- The fence removal in a member between white space. -/
theorem cleanedText_member {w1 w2 w3 w4 : Str} (h1 : AllWs w1) (h2 : AllWs w2) (h3 : AllWs w3)
    (h4 : AllWs w4) (kt t : Str) :
    cleanedText (w1 ++ 0x22 :: kt ++ 0x22 :: w2 ++ 0x3A :: w3 ++ t ++ w4)
      = w1 ++ 0x22 :: cleanedText kt ++ 0x22 :: w2 ++ 0x3A :: w3 ++ cleanedText t ++ w4 := by
  have hq : (0x22 : Nat) ∉ fenceJson := by decide
  have hcol : (0x3A : Nat) ∉ fenceJson := by decide
  have hqb : (0x22 : Nat) ≠ backtick := by decide
  have e : w1 ++ 0x22 :: kt ++ 0x22 :: w2 ++ 0x3A :: w3 ++ t ++ w4
      = w1 ++ (0x22 :: (kt ++ 0x22 :: (w2 ++ 0x3A :: (w3 ++ t)))) ++ w4 := by
    simp
  rw [e, cleanedText_append_ws _ h4, cleanedText_append_of_no_tick (allWs_no_tick h1),
    cleanedText_cons hqb, cleanedText_append_sep hq,
    cleanedText_append_of_no_tick (allWs_no_tick h2), cleanedText_cons (by decide),
    cleanedText_append_of_no_tick (allWs_no_tick h3)]
  simp

theorem strip_value_step (n : Nat)
    (ihe : ∀ (t : Str) (vs : List JSVal), t.length < n → JElements t vs → EscapeSafe t →
      ∃ ws, JElements (cleanedText t) ws ∧ StrippedList vs ws ∧
        List.Forall₂ (fun v w => keysTickFree v = true → w = stripVal v) vs ws)
    (ihm : ∀ (t : Str) (ms : List (Str × JSVal)), t.length < n → JMembers t ms →
      EscapeSafe t → ∃ ns, JMembers (cleanedText t) ns ∧ StrippedMembers ms ns ∧
        List.Forall₂ (fun m n => n.1 = cleanedText m.1 ∧
          (keysTickFree m.2 = true → n.2 = stripVal m.2)) ms ns) :
    ∀ (t : Str) (v : JSVal), t.length < n + 1 → JValue t v → EscapeSafe t →
      ∃ w, JValue (cleanedText t) w ∧ Stripped v w ∧
        (keysTickFree v = true → w = stripVal v) := by
  intro t v hlen h hs
  cases h with
  | litNull =>
    rw [cleanedText_of_no_tick (by decide)]
    exact ⟨_, JValue.litNull, Stripped.null, fun _ => rfl⟩
  | litTrue =>
    rw [cleanedText_of_no_tick (by decide)]
    exact ⟨_, JValue.litTrue, Stripped.bool true, fun _ => rfl⟩
  | litFalse =>
    rw [cleanedText_of_no_tick (by decide)]
    exact ⟨_, JValue.litFalse, Stripped.bool false, fun _ => rfl⟩
  | num _ m hn =>
    rw [cleanedText_of_no_tick (jnumber_no_tick hn)]
    exact ⟨_, JValue.num t m hn, Stripped.num m, fun _ => rfl⟩
  | str t v hc =>
    have ht : EscapeSafe t := hs.of_part ⟨[0x22], [0x22], rfl⟩
    have hj := jchars_strip hc ht [] (by simp)
    simp only [List.nil_append] at hj
    rw [cleanedText_bracket (by decide) (by decide)]
    exact ⟨_, JValue.str _ _ hj, Stripped.str v, fun _ => rfl⟩
  | emptyArr w hw =>
    have hn : backtick ∉ 0x5B :: w ++ [0x5D] := by
      intro hm
      simp only [List.cons_append, List.mem_cons, List.mem_append, List.mem_singleton,
        List.not_mem_nil, or_false] at hm
      rcases hm with hm | hm | hm
      · revert hm; decide
      · exact allWs_no_tick hw hm
      · revert hm; decide
    rw [cleanedText_of_no_tick hn]
    exact ⟨_, JValue.emptyArr w hw, Stripped.arr [] [] StrippedList.nil, fun _ => rfl⟩
  | emptyObj w hw =>
    have hn : backtick ∉ 0x7B :: w ++ [0x7D] := by
      intro hm
      simp only [List.cons_append, List.mem_cons, List.mem_append, List.mem_singleton,
        List.not_mem_nil, or_false] at hm
      rcases hm with hm | hm | hm
      · revert hm; decide
      · exact allWs_no_tick hw hm
      · revert hm; decide
    rw [cleanedText_of_no_tick hn]
    exact ⟨_, JValue.emptyObj w hw, Stripped.obj [] [] StrippedMembers.nil, fun _ => rfl⟩
  | arr te vs he =>
    obtain ⟨ws, hw, hr, hf⟩ := ihe te vs
      (by simp only [List.length_cons, List.length_append, List.length_nil] at hlen; omega)
      he (hs.of_part ⟨[0x5B], [0x5D], rfl⟩)
    rw [cleanedText_bracket (by decide) (by decide)]
    refine ⟨_, JValue.arr _ ws hw, Stripped.arr vs ws hr, fun hk => ?_⟩
    simp only [keysTickFree] at hk
    simp only [stripVal, stripVals_of_pointwise hf hk]
  | obj tm ms hm =>
    obtain ⟨ns, hn, hr, hf⟩ := ihm tm ms
      (by simp only [List.length_cons, List.length_append, List.length_nil] at hlen; omega)
      hm (hs.of_part ⟨[0x7B], [0x7D], rfl⟩)
    rw [cleanedText_bracket (by decide) (by decide)]
    refine ⟨_, JValue.obj _ ns hn, Stripped.obj ms ns hr, fun hk => ?_⟩
    simp only [keysTickFree] at hk
    simp only [stripVal, mkObject_strip hf hk]

theorem strip_elements_step (n : Nat)
    (hv : ∀ (t : Str) (v : JSVal), t.length < n + 1 → JValue t v → EscapeSafe t →
      ∃ w, JValue (cleanedText t) w ∧ Stripped v w ∧
        (keysTickFree v = true → w = stripVal v))
    (ihe : ∀ (t : Str) (vs : List JSVal), t.length < n → JElements t vs → EscapeSafe t →
      ∃ ws, JElements (cleanedText t) ws ∧ StrippedList vs ws ∧
        List.Forall₂ (fun v w => keysTickFree v = true → w = stripVal v) vs ws) :
    ∀ (t : Str) (vs : List JSVal), t.length < n + 1 → JElements t vs → EscapeSafe t →
      ∃ ws, JElements (cleanedText t) ws ∧ StrippedList vs ws ∧
        List.Forall₂ (fun v w => keysTickFree v = true → w = stripVal v) vs ws := by
  intro t vs hlen h hs
  cases h with
  | one w1 t w2 v h1 hval h2 =>
    obtain ⟨w, hw, hr, hfun⟩ := hv t v
      (by simp only [List.length_append] at hlen; omega) hval (hs.of_part ⟨w1, w2, rfl⟩)
    rw [cleanedText_element h1 h2]
    exact ⟨[w], JElements.one w1 _ w2 w h1 hw h2,
      StrippedList.cons v w [] [] hr StrippedList.nil,
      List.Forall₂.cons hfun List.Forall₂.nil⟩
  | cons w1 t w2 rest v vs h1 hval h2 hrest =>
    obtain ⟨w, hw, hr, hfun⟩ := hv t v
      (by simp only [List.length_append, List.length_cons] at hlen; omega) hval
      (hs.of_part ⟨w1, w2 ++ 0x2C :: rest, by simp⟩)
    obtain ⟨ws, hws, hrs, hfs⟩ := ihe rest vs
      (by simp only [List.length_append, List.length_cons] at hlen; omega) hrest
      (hs.of_part ⟨w1 ++ t ++ w2 ++ [0x2C], [], by simp⟩)
    rw [cleanedText_append_sep (by decide), cleanedText_element h1 h2]
    exact ⟨w :: ws, JElements.cons w1 _ w2 _ w ws h1 hw h2 hws,
      StrippedList.cons v w vs ws hr hrs, List.Forall₂.cons hfun hfs⟩

theorem strip_members_step (n : Nat)
    (hv : ∀ (t : Str) (v : JSVal), t.length < n + 1 → JValue t v → EscapeSafe t →
      ∃ w, JValue (cleanedText t) w ∧ Stripped v w ∧
        (keysTickFree v = true → w = stripVal v))
    (ihm : ∀ (t : Str) (ms : List (Str × JSVal)), t.length < n → JMembers t ms →
      EscapeSafe t → ∃ ns, JMembers (cleanedText t) ns ∧ StrippedMembers ms ns ∧
        List.Forall₂ (fun m n => n.1 = cleanedText m.1 ∧
          (keysTickFree m.2 = true → n.2 = stripVal m.2)) ms ns) :
    ∀ (t : Str) (ms : List (Str × JSVal)), t.length < n + 1 → JMembers t ms → EscapeSafe t →
      ∃ ns, JMembers (cleanedText t) ns ∧ StrippedMembers ms ns ∧
        List.Forall₂ (fun m n => n.1 = cleanedText m.1 ∧
          (keysTickFree m.2 = true → n.2 = stripVal m.2)) ms ns := by
  intro t ms hlen h hs
  cases h with
  | one w1 kt k w2 w3 t w4 v h1 hk h2 h3 hval h4 =>
    have hkt : EscapeSafe kt := hs.of_part ⟨w1 ++ [0x22], 0x22 :: w2 ++ 0x3A :: w3 ++ t ++ w4,
      by simp⟩
    have ht : EscapeSafe t := hs.of_part ⟨w1 ++ 0x22 :: kt ++ 0x22 :: w2 ++ 0x3A :: w3, w4,
      by simp⟩
    obtain ⟨w, hw, hr, hfun⟩ := hv t v
      (by simp only [List.length_append, List.length_cons] at hlen; omega) hval ht
    have hj := jchars_strip hk hkt [] (by simp)
    simp only [List.nil_append] at hj
    rw [cleanedText_member h1 h2 h3 h4]
    exact ⟨[(cleanedText k, w)], JMembers.one w1 _ _ w2 w3 _ w4 w h1 hj h2 h3 hw h4,
      StrippedMembers.cons k v w [] [] hr StrippedMembers.nil,
      List.Forall₂.cons ⟨rfl, hfun⟩ List.Forall₂.nil⟩
  | cons w1 kt k w2 w3 t w4 rest v ms h1 hk h2 h3 hval h4 hrest =>
    have hkt : EscapeSafe kt := hs.of_part ⟨w1 ++ [0x22],
      0x22 :: w2 ++ 0x3A :: w3 ++ t ++ w4 ++ 0x2C :: rest, by simp⟩
    have ht : EscapeSafe t := hs.of_part ⟨w1 ++ 0x22 :: kt ++ 0x22 :: w2 ++ 0x3A :: w3,
      w4 ++ 0x2C :: rest, by simp⟩
    obtain ⟨w, hw, hr, hfun⟩ := hv t v
      (by simp only [List.length_append, List.length_cons] at hlen; omega) hval ht
    obtain ⟨ns, hns, hrs, hfs⟩ := ihm rest ms
      (by simp only [List.length_append, List.length_cons] at hlen; omega) hrest
      (hs.of_part ⟨w1 ++ 0x22 :: kt ++ 0x22 :: w2 ++ 0x3A :: w3 ++ t ++ w4 ++ [0x2C], [],
        by simp⟩)
    have hj := jchars_strip hk hkt [] (by simp)
    simp only [List.nil_append] at hj
    rw [cleanedText_append_sep (by decide), cleanedText_member h1 h2 h3 h4]
    exact ⟨(cleanedText k, w) :: ns,
      JMembers.cons w1 _ _ w2 w3 _ w4 _ w ns h1 hj h2 h3 hw h4 hns,
      StrippedMembers.cons k v w ms ns hr hrs, List.Forall₂.cons ⟨rfl, hfun⟩ hfs⟩

theorem strip_all (n : Nat) :
    (∀ (t : Str) (v : JSVal), t.length < n → JValue t v → EscapeSafe t →
      ∃ w, JValue (cleanedText t) w ∧ Stripped v w ∧
        (keysTickFree v = true → w = stripVal v)) ∧
    (∀ (t : Str) (vs : List JSVal), t.length < n → JElements t vs → EscapeSafe t →
      ∃ ws, JElements (cleanedText t) ws ∧ StrippedList vs ws ∧
        List.Forall₂ (fun v w => keysTickFree v = true → w = stripVal v) vs ws) ∧
    (∀ (t : Str) (ms : List (Str × JSVal)), t.length < n → JMembers t ms → EscapeSafe t →
      ∃ ns, JMembers (cleanedText t) ns ∧ StrippedMembers ms ns ∧
        List.Forall₂ (fun m n => n.1 = cleanedText m.1 ∧
          (keysTickFree m.2 = true → n.2 = stripVal m.2)) ms ns) := by
  induction n with
  | zero =>
    exact ⟨fun t _ h => absurd h (Nat.not_lt_zero _), fun t _ h => absurd h (Nat.not_lt_zero _),
      fun t _ h => absurd h (Nat.not_lt_zero _)⟩
  | succ n ih =>
    have hv := strip_value_step n ih.2.1 ih.2.2
    exact ⟨hv, strip_elements_step n hv ih.2.1, strip_members_step n hv ih.2.2⟩

/-- The text of a value with the fence markers deleted is the text of a
value, which is the value with the markers deleted from its strings. -/
theorem strip_value {t : Str} {v : JSVal} (h : JValue t v) (hs : EscapeSafe t) :
    ∃ w, JValue (cleanedText t) w ∧ Stripped v w ∧
      (keysTickFree v = true → w = stripVal v) :=
  (strip_all (t.length + 1)).1 t v (Nat.lt_succ_self _) h hs

/-- The document with the fence markers deleted is a well-formed document. -/
theorem strip_document {d : Str} {v : JSVal} (h : JSONText d v) (hs : EscapeSafe d) :
    ∃ w, JSONText (cleanedText d) w ∧ Stripped v w ∧
      (keysTickFree v = true → w = stripVal v) := by
  obtain ⟨w1, t, w2, h1, hv, h2, rfl⟩ := h
  obtain ⟨w, hw, hr, hf⟩ := strip_value hv (hs.of_part ⟨w1, w2, rfl⟩)
  exact ⟨w, ⟨w1, cleanedText t, w2, h1, hw, h2, cleanedText_element h1 h2 t⟩, hr, hf⟩

/-! ## Fence removal inside the document -/

/-- C20, refuted as stated: a document in which a later member of the same
name replaces the string with the backticks has the same value with and
without the fence removal; a string value whose backticks are partly written
as an escape is returned with its three backticks; a string whose `j` after
the backticks is written as an escape keeps `json`; and a key that becomes
the key of a later member when its backticks are deleted takes the string
with it. -/
theorem runAgent_backticks_not_always_deleted :
    jsonParse (utf16 "\x7b\"a\":\"```\",\"a\":\"x\"\x7d")
      = .ok (.obj [(utf16 "a", .str (utf16 "x"))]) ∧
    runAgent (scriptedEnv (.ok (utf16 "\x7b\"a\":\"```\",\"a\":\"x\"\x7d"))
        (.error .rejected) (.error .rejected)) .extractor []
      = .ok (.obj [(utf16 "a", .str (utf16 "x"))]) ∧
    jsonParse (utf16 "\x7b\"a\":\"\\u0060``\"\x7d")
      = .ok (.obj [(utf16 "a", .str (utf16 "```"))]) ∧
    runAgent (scriptedEnv (.ok (utf16 "\x7b\"a\":\"\\u0060``\"\x7d"))
        (.error .rejected) (.error .rejected)) .extractor []
      = .ok (.obj [(utf16 "a", .str (utf16 "```"))]) ∧
    jsonParse (utf16 "\x7b\"a\":\"```\\u006ason\"\x7d")
      = .ok (.obj [(utf16 "a", .str (utf16 "```json"))]) ∧
    runAgent (scriptedEnv (.ok (utf16 "\x7b\"a\":\"```\\u006ason\"\x7d"))
        (.error .rejected) (.error .rejected)) .extractor []
      = .ok (.obj [(utf16 "a", .str (utf16 "json"))]) ∧
    jsonParse (utf16 "\x7b\"a```\":\"```\",\"a\":\"x\"\x7d")
      = .ok (.obj [(utf16 "a```", .str (utf16 "```")), (utf16 "a", .str (utf16 "x"))]) ∧
    runAgent (scriptedEnv (.ok (utf16 "\x7b\"a```\":\"```\",\"a\":\"x\"\x7d"))
        (.error .rejected) (.error .rejected)) .extractor []
      = .ok (.obj [(utf16 "a", .str (utf16 "x"))]) := by
  refine ⟨by decide, by decide, by decide, by decide, by decide, by decide, by decide,
    by decide⟩

/-- C20, amended: for a response that is a well-formed JSON document in
which no `\u` escape stands for a backtick or a letter of `json`, `runAgent`
returns a value, the value of the document with the fence markers deleted
from every string (keys included, the members of each object defined anew in
the order of the document); when no key of the value of the document has a
backtick, this is that value with the markers deleted from every string
value, which differs from it whenever it has a string value with three
consecutive backticks. -/
theorem runAgent_strips_inside_strings (env : Env) (stage : Stage) (prompt response : Str)
    (v : JSVal) (hresp : env.generateContent stage prompt = .ok response)
    (hdoc : JSONText response v) (hesc : EscapeSafe response) :
    ∃ w, runAgent env stage prompt = .ok w ∧
      JSONText (cleanedText response) w ∧
      Stripped v w ∧
      (keysTickFree v = true → w = stripVal v) ∧
      (keysTickFree v = true → hasFence v = true → w ≠ v) := by
  obtain ⟨w, hw, hr, hf⟩ := strip_document hdoc hesc
  refine ⟨w, ?_, hw, hr, hf, fun hk hfence => ?_⟩
  · unfold runAgent
    rw [hresp]
    exact jsonParse_complete hw
  · rw [hf hk]
    exact stripVal_ne_of_hasFence v hfence

/-- C20 amended, on the example of the claim and on a nested document with
two members. -/
theorem runAgent_strips_inside_strings_example :
    runAgent (scriptedEnv (.ok (utf16 "\x7b\"a\":\"```\"\x7d")) (.error .rejected)
        (.error .rejected)) .extractor []
      = .ok (.obj [(utf16 "a", .str [])]) ∧
    runAgent (scriptedEnv
        (.ok (utf16 "\x7b\"a\":\x7b\"b\":\"x```jsony\"\x7d,\"c\":[\"```\",1]\x7d"))
        (.error .rejected) (.error .rejected)) .extractor []
      = .ok (.obj [(utf16 "a", .obj [(utf16 "b", .str (utf16 "xy"))]),
          (utf16 "c", .arr [.str [], .num ⟨false, 1, 0⟩])]) := by
  constructor
  · obtain ⟨w, h1, _, _, h4, _⟩ := runAgent_strips_inside_strings
      (scriptedEnv (.ok (utf16 "\x7b\"a\":\"```\"\x7d")) (.error .rejected) (.error .rejected))
      .extractor [] (utf16 "\x7b\"a\":\"```\"\x7d") (.obj [(utf16 "a", .str (utf16 "```"))])
      rfl (jsonParse_sound (by decide)) (escapeSafe_of_no_backslash (by decide))
    rw [h1, h4 (by decide)]
    decide
  · obtain ⟨w, h1, _, _, h4, _⟩ := runAgent_strips_inside_strings
      (scriptedEnv
        (.ok (utf16 "\x7b\"a\":\x7b\"b\":\"x```jsony\"\x7d,\"c\":[\"```\",1]\x7d"))
        (.error .rejected) (.error .rejected))
      .extractor []
      (utf16 "\x7b\"a\":\x7b\"b\":\"x```jsony\"\x7d,\"c\":[\"```\",1]\x7d")
      (.obj [(utf16 "a", .obj [(utf16 "b", .str (utf16 "x```jsony"))]),
        (utf16 "c", .arr [.str (utf16 "```"), .num ⟨false, 1, 0⟩])])
      rfl (jsonParse_sound (by decide)) (escapeSafe_of_no_backslash (by decide))
    rw [h1, h4 (by decide)]
    decide

end ResumeIBY
